import Mathlib

/-!
cf-operator: versioned manifest secrets and the entanglement restart reconciler.

A shallow embedding of

* `pkg/kube/secrets/manifest.go` (the `ManifestPersister`), and
* `pkg/kube/controllers/quarkslink/restart_reconciler.go` (`ReconcileRestart`),

together with the parts of the Go runtime and of the Kubernetes client they
call.  Go's `int` is the 64-bit two's complement integer of the amd64 build.
-/

namespace CfOperator

/-! ## Go runtime: integers, `strconv`, `fmt` -/

/-- Largest value of Go's 64-bit `int`. -/
def maxInt : Int := 9223372036854775807

/-- Smallest value of Go's 64-bit `int`. -/
def minInt : Int := -9223372036854775808

/-- Two's complement wrap-around of an integer result into Go's 64-bit `int`. -/
def wrapInt (x : Int) : Int :=
  (x + 9223372036854775808) % 18446744073709551616 - 9223372036854775808

/-- The decimal digits of a natural number, as `strconv.Itoa` and `%d` print them. -/
def natDigits (n : Nat) : List Char := Nat.toDigits 10 n

/-- Go's `strconv.Itoa`, which is also what `%d` prints for an `int`. -/
def Itoa (v : Int) : String :=
  match v with
  | Int.ofNat n => String.mk (natDigits n)
  | Int.negSucc n => String.mk ('-' :: natDigits (n + 1))

/-- The ASCII digits, the characters `\d` matches in Go's regexp syntax. -/
def isDigit (c : Char) : Bool := c.isDigit

/-- Value of a run of decimal digits, most significant first. -/
def digitsValue (ds : List Char) : Nat :=
  ds.foldl (fun acc c => 10 * acc + (c.toNat - '0'.toNat)) 0

/-- Errors the modelled code can return. -/
inductive Error where
  /-- An API error with reason NotFound. -/
  | notFound (name : String)
  /-- An API error with reason AlreadyExists. -/
  | alreadyExists (name : String)
  /-- Any other failure of an API call. -/
  | api (reason : String)
  /-- An error made by `fmt.Errorf`. -/
  | errorf (msg : String)
  /-- An error made by `errors.Wrapf`. -/
  | wrapf (cause : Error) (msg : String)
  /-- The `*strconv.NumError` of `strconv.Atoi` with `ErrSyntax`. -/
  | atoiSyntax (input : String)
  /-- The `*strconv.NumError` of `strconv.Atoi` with `ErrRange`. -/
  | atoiRange (input : String)
  deriving DecidableEq, Repr

deriving instance DecidableEq for Except

/-- The sign `strconv.Atoi` strips off its input: whether it is negative, and
what is left. -/
def splitSign : List Char → Bool × List Char
  | '+' :: r => (false, r)
  | '-' :: r => (true, r)
  | r => (false, r)

/-- The digits part of `strconv.Atoi`: one or more decimal digits, whose value
has to fit the 64-bit range. -/
def atoiDigits (s : String) (negative : Bool) (digits : List Char) : Except Error Int :=
  if digits = [] ∨ ¬ digits.all isDigit = true then
    .error (.atoiSyntax s)
  else if negative then
    if digitsValue digits ≤ 9223372036854775808 then .ok (-(digitsValue digits : Int))
    else .error (.atoiRange s)
  else
    if digitsValue digits ≤ 9223372036854775807 then .ok (digitsValue digits : Int)
    else .error (.atoiRange s)

/-- Go's `strconv.Atoi`: an optional sign followed by one or more decimal
digits; a value outside the 64-bit range is an `ErrRange` error. -/
def Atoi (s : String) : Except Error Int :=
  atoiDigits s (splitSign s.data).1 (splitSign s.data).2

/-! ## Kubernetes objects -/

/-- A Go `map[string]string`, kept as an association list with distinct use of
each key by `mapSet`; a `nil` map is the empty list. -/
abbrev StrMap := List (String × String)

/-- Map lookup `m[k]`. -/
def mapGet (m : StrMap) (k : String) : Option String :=
  match m with
  | [] => none
  | (k', v) :: rest => if k' = k then some v else mapGet rest k

/-- Map assignment `m[k] = v`. -/
def mapSet (m : StrMap) (k v : String) : StrMap :=
  match m with
  | [] => [(k, v)]
  | (k', v') :: rest => if k' = k then (k, v) :: rest else (k', v') :: mapSet rest k v

/-- The bytes of a secret's data entry. -/
abbrev Bytes := List UInt8

/-- The `metav1.OwnerReference` fields the code reads. -/
structure OwnerReference where
  kind : String
  name : String
  deriving DecidableEq, Repr

/-- The `metav1.ObjectMeta` fields the code reads or writes; `ns` is `Namespace`. -/
structure ObjectMeta where
  name : String := ""
  ns : String := ""
  labels : StrMap := []
  annotations : StrMap := []
  ownerReferences : List OwnerReference := []
  deriving DecidableEq, Repr

/-- A `corev1.Secret`. -/
structure Secret where
  metadata : ObjectMeta := {}
  data : List (String × Bytes) := []
  deriving DecidableEq, Repr

/-- A `corev1.Pod`. -/
structure Pod where
  metadata : ObjectMeta := {}
  deriving DecidableEq, Repr

/-- An `appsv1.StatefulSet`; `template` is `Spec.Template.ObjectMeta`. -/
structure StatefulSet where
  metadata : ObjectMeta := {}
  template : ObjectMeta := {}
  deriving DecidableEq, Repr

/-- An `appsv1.ReplicaSet`. -/
structure ReplicaSet where
  metadata : ObjectMeta := {}
  deriving DecidableEq, Repr

/-- An `appsv1.Deployment`; `template` is `Spec.Template.ObjectMeta`. -/
structure Deployment where
  metadata : ObjectMeta := {}
  template : ObjectMeta := {}
  deriving DecidableEq, Repr

/-- The kinds of object the client is asked for. -/
inductive Kind where
  | secret | pod | statefulSet | replicaSet | deployment
  deriving DecidableEq, Repr

/-- A `runtime.Object` of one of the kinds above. -/
inductive Object where
  | secret (s : Secret)
  | pod (p : Pod)
  | statefulSet (s : StatefulSet)
  | replicaSet (r : ReplicaSet)
  | deployment (d : Deployment)
  deriving DecidableEq, Repr

/-- The kind of an object. -/
def Object.kind : Object → Kind
  | .secret _ => .secret
  | .pod _ => .pod
  | .statefulSet _ => .statefulSet
  | .replicaSet _ => .replicaSet
  | .deployment _ => .deployment

/-- The metadata of an object. -/
def Object.metadata : Object → ObjectMeta
  | .secret s => s.metadata
  | .pod p => p.metadata
  | .statefulSet s => s.metadata
  | .replicaSet r => r.metadata
  | .deployment d => d.metadata

/-- Whether an object is the one of kind `k` stored under `ns`/`name`. -/
def Object.hasKey (o : Object) (k : Kind) (ns name : String) : Bool :=
  decide (o.kind = k) && decide (o.metadata.ns = ns) && decide (o.metadata.name = name)

/-! ## The Kubernetes client

`client.Client` of controller-runtime is an external collaborator.  It is
modelled as the spec's backing API: create (fails if the key exists),
get-by-name, list, update, delete, over the objects of a cluster.  Every call is
recorded, and a schedule of injected failures stands for the API failing for
reasons other than the state of the store. -/

/-- A call issued on the client. -/
inductive Call where
  | get (k : Kind) (ns name : String)
  | list (k : Kind) (ns : String)
  | create (o : Object)
  | update (o : Object)
  | delete (o : Object)
  deriving DecidableEq, Repr

/-- The client: the objects of the cluster, the failures injected into the
coming calls (`some e` makes the next call fail with `e`, `none` or an exhausted
schedule lets it through), and the calls issued so far. -/
structure Client where
  objects : List Object := []
  faults : List (Option Error) := []
  calls : List Call := []
  deriving DecidableEq, Repr

/-- The failure injected into the next call, if any. -/
def Client.nextFault (c : Client) : Option Error :=
  match c.faults with
  | some e :: _ => some e
  | _ => none

/-- Record a call and consume one entry of the failure schedule. -/
def Client.record (c : Client) (call : Call) : Client :=
  { c with faults := c.faults.tail, calls := c.calls ++ [call] }

/-- The stored object of kind `k` under `ns`/`name`. -/
def Client.lookup (c : Client) (k : Kind) (ns name : String) : Option Object :=
  c.objects.find? (fun o => o.hasKey k ns name)

/-- The client's `Get`. -/
def Client.Get (c : Client) (k : Kind) (ns name : String) : Except Error Object × Client :=
  let c1 := c.record (.get k ns name)
  match c.nextFault with
  | some e => (.error e, c1)
  | none =>
    match c.lookup k ns name with
    | some o => (.ok o, c1)
    | none => (.error (.notFound name), c1)

/-- What `client.InNamespace(ns)` selects: the objects of the namespace `ns`, and
the objects of every namespace when `ns` is the empty string. -/
def inNamespace (ns : String) (o : Object) : Bool :=
  decide (ns = "") || decide (o.metadata.ns = ns)

/-- The client's `List` with `client.InNamespace(ns)`. -/
def Client.List (c : Client) (k : Kind) (ns : String) : Except Error (List Object) × Client :=
  let c1 := c.record (.list k ns)
  match c.nextFault with
  | some e => (.error e, c1)
  | none =>
    (.ok (c.objects.filter (fun o => decide (o.kind = k) && inNamespace ns o)), c1)

/-- The client's `Create`: create-only, it fails with AlreadyExists when an
object of that kind, namespace and name is stored. -/
def Client.Create (c : Client) (o : Object) : Option Error × Client :=
  let c1 := c.record (.create o)
  match c.nextFault with
  | some e => (some e, c1)
  | none =>
    match c.lookup o.kind o.metadata.ns o.metadata.name with
    | some _ => (some (.alreadyExists o.metadata.name), c1)
    | none => (none, { c1 with objects := c.objects ++ [o] })

/-- The client's `Update`: replaces the stored object of that key. -/
def Client.Update (c : Client) (o : Object) : Option Error × Client :=
  let c1 := c.record (.update o)
  match c.nextFault with
  | some e => (some e, c1)
  | none =>
    match c.lookup o.kind o.metadata.ns o.metadata.name with
    | none => (some (.notFound o.metadata.name), c1)
    | some _ =>
      (none, { c1 with objects := c.objects.map (fun x =>
        if x.hasKey o.kind o.metadata.ns o.metadata.name then o else x) })

/-- The client's `Delete`: removes the stored object of that key. -/
def Client.Delete (c : Client) (o : Object) : Option Error × Client :=
  let c1 := c.record (.delete o)
  match c.nextFault with
  | some e => (some e, c1)
  | none =>
    match c.lookup o.kind o.metadata.ns o.metadata.name with
    | none => (some (.notFound o.metadata.name), c1)
    | some _ =>
      (none, { c1 with objects := c.objects.filter (fun x =>
        !x.hasKey o.kind o.metadata.ns o.metadata.name) })

/-- What a call of a function that works on the client ends in: it returns a
value, or it panics. -/
inductive Outcome (α : Type) where
  | returned (value : α) (c : Client)
  | panicked (c : Client)
  deriving DecidableEq, Repr

/-- The client as the call left it. -/
def Outcome.client {α : Type} : Outcome α → Client
  | .returned _ c => c
  | .panicked c => c

/-! ## Go's `regexp` on the persister's patterns

The persister builds its patterns by writing the deployment name, unescaped,
into `^deployment-%s-\d+$` and `^deployment-%s-(\d+)$`.  For a name whose only
metacharacter is `.` the pattern is a fixed-length run of literals and
any-character positions followed by `\d+`; that fragment is interpreted here.
A name that adds only unclosed `(` gives a pattern with a missing closing
parenthesis, which `regexp.MustCompile` answers with a panic.  On every other
pattern the package itself is consulted, as the parameter `RegexpEngine`. -/

/-- Characters with a special meaning in Go's regexp syntax. -/
def regexpMeta : List Char :=
  ['\\', '.', '+', '*', '?', '(', ')', '|', '[', ']', '{', '}', '^', '$']

/-- One position of a fixed-length pattern. -/
inductive Atom where
  /-- A literal character. -/
  | lit (c : Char)
  /-- The pattern `.`: any character except a newline. -/
  | dot
  deriving DecidableEq, Repr

/-- Whether a character is accepted at a position. -/
def Atom.accepts : Atom → Char → Bool
  | .lit c, d => decide (c = d)
  | .dot, d => decide (d ≠ '\n')

/-- How a character of the deployment name reads inside the pattern. -/
def Atom.ofChar (c : Char) : Atom := if c = '.' then .dot else .lit c

/-- Consume one character per atom; the unconsumed rest on success. -/
def matchAtoms : List Atom → List Char → Option (List Char)
  | [], s => some s
  | _ :: _, [] => none
  | a :: as, c :: s => if a.accepts c then matchAtoms as s else none

/-- Go's regexp package on an arbitrary pattern: `none` when the pattern does
not compile, else the compiled expression's `FindStringSubmatch` (`[]` is the
`nil` of no match). -/
abbrev RegexpEngine := String → Option (String → List String)

/-- A compiled pattern of the persister. -/
inductive NameRegexp where
  /-- The pattern `^deployment-<atoms>-\d+$`, with or without the group. -/
  | fragment (atoms : List Atom)
  /-- A pattern outside the fragment, as the regexp package compiled it. -/
  | foreign (find : String → List String)

/-- The positions of `^deployment-<atoms>-`, the stem of a fragment pattern. -/
def stemAtoms (atoms : List Atom) : List Atom :=
  "deployment-".data.map Atom.lit ++ atoms ++ [Atom.lit '-']

/-- Go's `FindStringSubmatch`; on the fragment the only group is `(\d+)`. -/
def NameRegexp.FindStringSubmatch (re : NameRegexp) (s : String) : List String :=
  match re with
  | .foreign find => find s
  | .fragment atoms =>
    match matchAtoms (stemAtoms atoms) s.data with
    | none => []
    | some rest =>
      if rest ≠ [] ∧ rest.all isDigit = true then [s, String.mk rest] else []

/-- Go's `MatchString`. -/
def NameRegexp.MatchString (re : NameRegexp) (s : String) : Bool :=
  decide (re.FindStringSubmatch s ≠ [])

/-- The call `regexp.MustCompile(fmt.Sprintf(pattern, deploymentName))` for one
of the two patterns, given here by what follows the name (`-\d+$` or
`-(\d+)$`); `none` is the panic of `MustCompile`. -/
def mustCompileNamePattern (engine : RegexpEngine) (deploymentName suffix : String) :
    Option NameRegexp :=
  if deploymentName.data.all (fun c => decide (c = '.') || !regexpMeta.contains c) then
    some (.fragment (deploymentName.data.map Atom.ofChar))
  else if deploymentName.data.all
      (fun c => decide (c = '.') || decide (c = '(') || !regexpMeta.contains c) then
    none
  else
    (engine ("^deployment-" ++ deploymentName ++ suffix)).map NameRegexp.foreign

/-! ## `pkg/kube/secrets/manifest.go` -/

/-- The constant `manifestKeyName`. -/
def manifestKeyName : String := "manifest"

/-- The constant `versionKeyName`. -/
def versionKeyName : String := "version"

/-- The constant `sourceKeyName`. -/
def sourceKeyName : String := "source-description"

/-- The constant `deploymentKeyName`. -/
def deploymentKeyName : String := "deployment-name"

/-- The `ManifestPersisterImpl` fields besides the client, which is threaded
through the calls. -/
structure ManifestPersisterImpl where
  ns : String
  deploymentName : String
  deriving DecidableEq, Repr

/-- The characters the check `[^a-z0-9.-]` of `secretName` lets through. -/
def allowedChar (c : Char) : Bool :=
  (decide ('a' ≤ c) && decide (c ≤ 'z')) || (decide ('0' ≤ c) && decide (c ≤ '9'))
    || decide (c = '.') || decide (c = '-')

/-- The function `secretName`. -/
def secretName (p : ManifestPersisterImpl) (version : Int) : Except Error String :=
  let proposedName := "deployment-" ++ p.deploymentName ++ "-" ++ Itoa version
  if proposedName.utf8ByteSize > 253 then
    .error (.errorf ("secret name exceeds maximum number of allowed characters (actual="
      ++ Itoa proposedName.utf8ByteSize ++ ", allowed=253)"))
  else if proposedName.data.any (fun c => !allowedChar c) then
    .error (.errorf
      "secret name contains invalid characters, only lower case, dot and dash are allowed")
  else
    .ok proposedName

/-- The function `getVersionFromSecretName`; `none` is a panic (of
`MustCompile`, or of `captures[1]` on a one-element slice). -/
def getVersionFromSecretName (engine : RegexpEngine) (p : ManifestPersisterImpl)
    (name : String) : Option (Except Error Int) :=
  match mustCompileNamePattern engine p.deploymentName "-(\\d+)$" with
  | none => none
  | some nameRegex =>
    match nameRegex.FindStringSubmatch name with
    | [] =>
      some (.error (.errorf
        ("invalid secret name " ++ name ++ ", it does not match the naming schema")))
    | [_] => none
    | _ :: capture :: _ =>
      match Atoi capture with
      | .error err =>
        some (.error (.wrapf err
          ("invalid secret name " ++ name ++ ", it does not end with a version number")))
      | .ok number => some (.ok number)

/-- The secrets among a list of objects. -/
def secretsOf (objs : List Object) : List Secret :=
  objs.filterMap (fun o => match o with | .secret s => some s | _ => none)

/-- The method `ListAllVersions`. -/
def ListAllVersions (engine : RegexpEngine) (p : ManifestPersisterImpl) (c : Client) :
    Outcome (Except Error (List Secret)) :=
  match c.List .secret p.ns with
  | (.error err, c1) => .returned (.error err) c1
  | (.ok items, c1) =>
    match mustCompileNamePattern engine p.deploymentName "-\\d+$" with
    | none => .panicked c1
    | some nameRegex =>
      .returned (.ok ((secretsOf items).filter
        (fun secret => nameRegex.MatchString secret.metadata.name))) c1

/-- The loop of `getGreatestVersion` over the listed secrets, from the greatest
version found so far; `none` is a panic. -/
def greatestVersionLoop (engine : RegexpEngine) (p : ManifestPersisterImpl) :
    List Secret → Int → Option (Except Error Int)
  | [], greatestVersion => some (.ok greatestVersion)
  | secret :: rest, greatestVersion =>
    match getVersionFromSecretName engine p secret.metadata.name with
    | none => none
    | some (.error err) => some (.error err)
    | some (.ok version) =>
      greatestVersionLoop engine p rest
        (if version > greatestVersion then version else greatestVersion)

/-- The function `getGreatestVersion`. -/
def getGreatestVersion (engine : RegexpEngine) (p : ManifestPersisterImpl) (c : Client) :
    Outcome (Except Error Int) :=
  match ListAllVersions engine p c with
  | .panicked c1 => .panicked c1
  | .returned (.error err) c1 => .returned (.error err) c1
  | .returned (.ok list) c1 =>
    match greatestVersionLoop engine p list 0 with
    | none => .panicked c1
    | some r => .returned r c1

/-- The secret `PersistManifest` builds. -/
def manifestSecret (p : ManifestPersisterImpl) (secretName : String) (version : Int)
    (sourceDescription : String) (data : Bytes) : Secret :=
  { metadata :=
      { name := secretName
        ns := p.ns
        labels := [(deploymentKeyName, p.deploymentName), (versionKeyName, Itoa version)]
        annotations := [(sourceKeyName, sourceDescription)] }
    data := [(manifestKeyName, data)] }

/-- The method `PersistManifest`, which returns a secret and an error.
`yamlMarshal` is `yaml.Marshal` on the manifest type. -/
def PersistManifest {M : Type} (engine : RegexpEngine) (yamlMarshal : M → Except Error Bytes)
    (p : ManifestPersisterImpl) (manifest : M) (sourceDescription : String) (c : Client) :
    Outcome (Option Secret × Option Error) :=
  match getGreatestVersion engine p c with
  | .panicked c1 => .panicked c1
  | .returned (.error err) c1 => .returned (none, some err) c1
  | .returned (.ok currentVersion) c1 =>
    let version := wrapInt (currentVersion + 1)
    match secretName p version with
    | .error err => .returned (none, some err) c1
    | .ok secretName =>
      match yamlMarshal manifest with
      | .error err => .returned (none, some err) c1
      | .ok data =>
        let secret := manifestSecret p secretName version sourceDescription data
        match c1.Create (.secret secret) with
        | (err, c2) => .returned (some secret, err) c2

/-- The client's `Get` into a `corev1.Secret`. -/
def getSecret (c : Client) (ns name : String) : Except Error Secret × Client :=
  match c.Get .secret ns name with
  | (.ok (.secret s), c1) => (.ok s, c1)
  | (.ok _, c1) => (.error (.notFound name), c1)
  | (.error err, c1) => (.error err, c1)

/-- The method `RetrieveVersion`; on a failed `Get` the returned secret is the
empty one the method allocated. -/
def RetrieveVersion (p : ManifestPersisterImpl) (version : Int) (c : Client) :
    (Option Secret × Option Error) × Client :=
  match secretName p version with
  | .error err => ((none, some err), c)
  | .ok name =>
    match getSecret c p.ns name with
    | (.ok secret, c1) => ((some secret, none), c1)
    | (.error err, c1) => ((some {}, some err), c1)

/-- The method `RetrieveLatestVersion`. -/
def RetrieveLatestVersion (engine : RegexpEngine) (p : ManifestPersisterImpl) (c : Client) :
    Outcome (Option Secret × Option Error) :=
  match getGreatestVersion engine p c with
  | .panicked c1 => .panicked c1
  | .returned (.error err) c1 => .returned (none, some err) c1
  | .returned (.ok latestVersion) c1 =>
    match RetrieveVersion p latestVersion c1 with
    | (r, c2) => .returned r c2

/-- The loop of `DeleteManifest`. -/
def deleteLoop : List Secret → Client → Option Error × Client
  | [], c => (none, c)
  | secret :: rest, c =>
    match c.Delete (.secret secret) with
    | (some err, c1) => (some err, c1)
    | (none, c1) => deleteLoop rest c1

/-- The method `DeleteManifest`. -/
def DeleteManifest (engine : RegexpEngine) (p : ManifestPersisterImpl) (c : Client) :
    Outcome (Option Error) :=
  match ListAllVersions engine p c with
  | .panicked c1 => .panicked c1
  | .returned (.error err) c1 => .returned (some err) c1
  | .returned (.ok list) c1 =>
    match deleteLoop list c1 with
    | (err, c2) => .returned err c2

/-- The setter `SetLabels` of a secret's metadata. -/
def Secret.setLabels (secret : Secret) (labels : StrMap) : Secret :=
  { secret with metadata := { secret.metadata with labels := labels } }

/-- The method `DecorateManifest`. -/
def DecorateManifest (engine : RegexpEngine) (p : ManifestPersisterImpl) (key value : String)
    (c : Client) : Outcome (Option Secret × Option Error) :=
  match getGreatestVersion engine p c with
  | .panicked c1 => .panicked c1
  | .returned (.error err) c1 => .returned (none, some err) c1
  | .returned (.ok version) c1 =>
    match secretName p version with
    | .error err => .returned (none, some err) c1
    | .ok secretName =>
      match getSecret c1 p.ns secretName with
      | (.error err, c2) => .returned (none, some err) c2
      | (.ok secret, c2) =>
        let secret := secret.setLabels (mapSet secret.metadata.labels key value)
        match c2.Update (.secret secret) with
        | (err, c3) => .returned (some secret, err) c3

/-- The engine that compiles nothing, for runs that stay inside the fragment. -/
def noEngine : RegexpEngine := fun _ => none

/-- A client on a store without pending failures. -/
def reliable (objects : List Object) : Client := { objects := objects }

/-! ## `pkg/kube/controllers/quarkslink/restart_reconciler.go`

Times are nanoseconds since the Unix epoch and durations are nanoseconds.  The
clock is read by `time.Now()`; the client's calls are synchronous, and a call
that the context's deadline cuts short is one of the injected failures. -/

/-- A `time.Time`, in nanoseconds since the Unix epoch. -/
abbrev Time := Int

/-- A `time.Duration`, in nanoseconds. -/
abbrev Duration := Int

/-- The method `Unix` of a time: its seconds since the epoch. -/
def unixSeconds (t : Time) : Int := t / 1000000000

/-- The clock: the time the next `time.Now()` returns, and by how much the clock
advances after each reading (it stands still once the list is used up). -/
structure Clock where
  now : Time := 0
  ticks : List Nat := []
  deriving DecidableEq, Repr

/-- The function `time.Now`. -/
def Clock.read (k : Clock) : Time × Clock :=
  (k.now, { now := k.now + (k.ticks.headD 0 : Nat), ticks := k.ticks.tail })

/-- What a reconcile runs in: the client and the clock. -/
structure World where
  client : Client := {}
  clock : Clock := {}
  deriving DecidableEq, Repr

/-- The fields of `config.Config` the reconciler reads. -/
structure Config where
  CtxTimeOut : Duration := 0
  MeltdownDuration : Duration := 0
  MeltdownRequeueAfter : Duration := 0
  deriving DecidableEq, Repr

/-- A `reconcile.Result`. -/
structure Result where
  Requeue : Bool := false
  RequeueAfter : Duration := 0
  deriving DecidableEq, Repr

/-- A `reconcile.Request`: the namespaced name of the pod. -/
structure Request where
  ns : String
  name : String
  deriving DecidableEq, Repr

/-- What the reconciler uses and this file's code does not define: the constant
`apis.GroupName`, the meltdown window of quarks-utils
(`windowContains d annotations t` is
`meltdown.NewAnnotationWindow(d, annotations).Contains(t)`, and `setLastReconcile`
is `meltdown.SetLastReconcile`), and the package's `validEntanglement`. -/
structure Collaborators where
  groupName : String
  windowContains : Duration → StrMap → Time → Bool
  setLastReconcile : ObjectMeta → Time → ObjectMeta
  validEntanglement : StrMap → Bool

/-- The `ReconcileRestart` fields besides the context and the client. -/
structure ReconcileRestart where
  config : Config := {}
  deriving DecidableEq, Repr

/-- The variable `RestartKey`. -/
def RestartKey (env : Collaborators) : String := env.groupName ++ "/restart-by-entanglement"

/-- Modelled from the spec: `util.UnionMaps` of this repository is not among the
sources; a touch "merges a single annotation into the owner's pod-template
metadata", so the union keeps the entries of the first map and assigns those of
the second over them. -/
def UnionMaps (a b : StrMap) : StrMap :=
  b.foldl (fun acc kv => mapSet acc kv.1 kv.2) a

/-- The function `restartAnnotation`, at the time `time.Now()` returned. -/
def restartAnnotation (env : Collaborators) (now : Time) : StrMap :=
  [(RestartKey env, Itoa (unixSeconds now))]

/-- Go's `apierrors.IsNotFound`. -/
def IsNotFound : Error → Bool
  | .notFound _ => true
  | _ => false

/-- The client's `Get` into a `corev1.Pod`. -/
def getPod (c : Client) (ns name : String) : Except Error Pod × Client :=
  match c.Get .pod ns name with
  | (.ok (.pod x), c1) => (.ok x, c1)
  | (.ok _, c1) => (.error (.notFound name), c1)
  | (.error err, c1) => (.error err, c1)

/-- The client's `Get` into an `appsv1.StatefulSet`. -/
def getStatefulSet (c : Client) (ns name : String) : Except Error StatefulSet × Client :=
  match c.Get .statefulSet ns name with
  | (.ok (.statefulSet x), c1) => (.ok x, c1)
  | (.ok _, c1) => (.error (.notFound name), c1)
  | (.error err, c1) => (.error err, c1)

/-- The client's `Get` into an `appsv1.ReplicaSet`. -/
def getReplicaSet (c : Client) (ns name : String) : Except Error ReplicaSet × Client :=
  match c.Get .replicaSet ns name with
  | (.ok (.replicaSet x), c1) => (.ok x, c1)
  | (.ok _, c1) => (.error (.notFound name), c1)
  | (.error err, c1) => (.error err, c1)

/-- The client's `Get` into an `appsv1.Deployment`. -/
def getDeployment (c : Client) (ns name : String) : Except Error Deployment × Client :=
  match c.Get .deployment ns name with
  | (.ok (.deployment x), c1) => (.ok x, c1)
  | (.ok _, c1) => (.error (.notFound name), c1)
  | (.error err, c1) => (.error err, c1)

/-- The stateful set with the restart annotation merged into its template. -/
def StatefulSet.touched (sts : StatefulSet) (env : Collaborators) (now : Time) : StatefulSet :=
  { sts with template := { sts.template with
      annotations := UnionMaps sts.template.annotations ( restartAnnotation env now) } }

/-- The deployment with the restart annotation merged into its template. -/
def Deployment.touched (d : Deployment) (env : Collaborators) (now : Time) : Deployment :=
  { d with template := { d.template with
      annotations := UnionMaps d.template.annotations ( restartAnnotation env now) } }

/-- The method `touchStatefulSet`. -/
def touchStatefulSet (env : Collaborators) (ns name : String) (w : World) :
    Option Error × World :=
  match getStatefulSet w.client ns name with
  | (.error err, c1) => (some err, { w with client := c1 })
  | (.ok sts, c1) =>
    match w.clock.read with
    | (now, k1) =>
      match c1.Update (.statefulSet (sts.touched env now)) with
      | (err, c2) => (err, { client := c2, clock := k1 })

/-- The method `findDeployment`, which returns a deployment and an error. -/
def findDeployment (rs : ReplicaSet) (c : Client) : Except Error Deployment × Client :=
  match rs.metadata.ownerReferences.find? (fun ref => decide (ref.kind = "Deployment")) with
  | some ref => getDeployment c rs.metadata.ns ref.name
  | none =>
    (.error (.errorf
      ("deployment for replica set '" ++ rs.metadata.name ++ "' was not found")), c)

/-- The method `touchDeployment`. -/
def touchDeployment (env : Collaborators) (ns name : String) (w : World) :
    Option Error × World :=
  match getReplicaSet w.client ns name with
  | (.error err, c1) => (some err, { w with client := c1 })
  | (.ok rs, c1) =>
    match findDeployment rs c1 with
    | (.error err, c2) => (some err, { w with client := c2 })
    | (.ok d, c2) =>
      match w.clock.read with
      | (now, k1) =>
        match c2.Update (.deployment (d.touched env now)) with
        | (err, c3) => (err, { client := c3, clock := k1 })

/-- The loop of `Reconcile` over the pod's owner references: the error of the
first touch that fails, at which the loop stops. -/
def touchOwners (env : Collaborators) (ns : String) :
    List OwnerReference → World → Option Error × World
  | [], w => (none, w)
  | ref :: rest, w =>
    if ref.kind = "StatefulSet" then
      match touchStatefulSet env ns ref.name w with
      | (some err, w1) => (some err, w1)
      | (none, w1) => touchOwners env ns rest w1
    else if ref.kind = "ReplicaSet" then
      match touchDeployment env ns ref.name w with
      | (some err, w1) => (some err, w1)
      | (none, w1) => touchOwners env ns rest w1
    else
      touchOwners env ns rest w

/-- The pod after `meltdown.SetLastReconcile(&pod.ObjectMeta, now)`. -/
def Pod.stamped (pod : Pod) (env : Collaborators) (now : Time) : Pod :=
  { pod with metadata := env.setLastReconcile pod.metadata now }

/-- The method `Reconcile`. -/
def Reconcile (env : Collaborators) (r : ReconcileRestart) (request : Request) (w : World) :
    (Result × Option Error) × World :=
  match getPod w.client request.ns request.name with
  | (.error err, c1) =>
    if IsNotFound err then (({}, none), { w with client := c1 })
    else (({}, some err), { w with client := c1 })
  | (.ok pod, c1) =>
    match w.clock.read with
    | (now, k1) =>
      if env.windowContains r.config.MeltdownDuration pod.metadata.annotations now then
        (({ RequeueAfter := r.config.MeltdownRequeueAfter }, none), { client := c1, clock := k1 })
      else if !env.validEntanglement pod.metadata.annotations then
        (({}, none), { client := c1, clock := k1 })
      else
        match touchOwners env request.ns pod.metadata.ownerReferences
            { client := c1, clock := k1 } with
        | (some _, w2) => (({}, none), w2)
        | (none, w2) =>
          match w2.clock.read with
          | (now2, k3) =>
            match w2.client.Update (.pod (pod.stamped env now2)) with
            | (_, c4) => (({}, none), { client := c4, clock := k3 })

/-- The calls a run issued: those of the client after it that the client before
it had not recorded. -/
def callsSince (before after : Client) : List Call :=
  after.calls.drop before.calls.length

/-- Collaborators for the closed runs: the group name of the operator, a window
that is never open, a stamp under `last-reconcile`, and every pod entangled. -/
def sampleEnv : Collaborators :=
  { groupName := "quarks.cloudfoundry.org"
    windowContains := fun _ _ _ => false
    setLastReconcile := fun m t => { m with
      annotations := mapSet m.annotations "quarks.cloudfoundry.org/last-reconcile" (Itoa t) }
    validEntanglement := fun _ => true }

/-! ## Vocabulary of the statements -/

/-- The compiled pattern of a deployment name whose only metacharacter is `.`. -/
def namePattern (deploymentName : String) : NameRegexp :=
  .fragment (deploymentName.data.map Atom.ofChar)

/-- Whether `name` matches `^deployment-<deploymentName>-\d+$`, for a deployment
name whose only metacharacter is `.`. -/
def matchesPattern (deploymentName name : String) : Bool :=
  (namePattern deploymentName).MatchString name

/-- The secrets that the listing of the persister's namespace covers (those of
the namespace, those of every namespace when it is empty) whose name matches its
pattern, in the order of the store. -/
def versionsIn (p : ManifestPersisterImpl) (objects : List Object) : List Secret :=
  (secretsOf (objects.filter
      (fun o => decide (o.kind = .secret) && inNamespace p.ns o))).filter
    (fun s => matchesPattern p.deploymentName s.metadata.name)

/-- The digits a name ends in. -/
def trailingDigits (name : String) : List Char :=
  (name.data.reverse.takeWhile isDigit).reverse

/-- The integer a name ends in. -/
def trailingInteger (name : String) : Nat := digitsValue (trailingDigits name)

/-- The greatest version in the words of the spec: the maximum trailing integer
over the secrets of the namespace whose name matches the pattern, 0 when none
does. -/
def specGreatestVersion (p : ManifestPersisterImpl) (objects : List Object) : Nat :=
  ((versionsIn p objects).map (fun s => trailingInteger s.metadata.name)).foldr max 0

/-- A run of `PersistManifest` calls, each on the client the previous one left,
whatever the calls end in. -/
def persistSeq {M : Type} (engine : RegexpEngine) (yamlMarshal : M → Except Error Bytes)
    (p : ManifestPersisterImpl) : List (M × String) → Client → Client
  | [], c => c
  | (manifest, sourceDescription) :: rest, c =>
    persistSeq engine yamlMarshal p rest
      (PersistManifest engine yamlMarshal p manifest sourceDescription c).client

/-- A run of `PersistManifest` calls all of which succeed: the client it ends
on and the secret of the last call, `none` as soon as one call fails. -/
def persistAll {M : Type} (engine : RegexpEngine) (yamlMarshal : M → Except Error Bytes)
    (p : ManifestPersisterImpl) : List (M × String) → Client × Option Secret →
      Option (Client × Option Secret)
  | [], st => some st
  | (manifest, sourceDescription) :: rest, st =>
    match PersistManifest engine yamlMarshal p manifest sourceDescription st.1 with
    | .returned (some secret, none) c1 =>
      persistAll engine yamlMarshal p rest (c1, some secret)
    | _ => none

/-- A marshaller that always succeeds with the empty document. -/
def unitMarshal : Unit → Except Error Bytes := fun _ => .ok []

/-- A stored first version of deployment `x`, for the closed runs. -/
def versionOne : Secret :=
  { metadata := { name := "deployment-x-1", ns := "ns" }, data := [("manifest", [1])] }

/-- The secrets listed for the persister are the versions `1 .. k`, each under
its derived identifier, once each. -/
def VersionsUpTo (p : ManifestPersisterImpl) (objects : List Object) (k : Nat) : Prop :=
  (∀ s ∈ versionsIn p objects, ∃ v : Nat, 1 ≤ v ∧ v ≤ k ∧
      s.metadata.name = "deployment-" ++ p.deploymentName ++ "-" ++ Itoa (v : Int)) ∧
    (∀ v : Nat, 1 ≤ v → v ≤ k → ∃ s ∈ versionsIn p objects,
      s.metadata.name = "deployment-" ++ p.deploymentName ++ "-" ++ Itoa (v : Int)) ∧
    (versionsIn p objects).length = k

/-- The persister of deployment `x` in namespace `ns`, for the closed runs. -/
def deploymentX : ManifestPersisterImpl := ⟨"ns", "x"⟩

/-- The secret `PersistManifest` builds for deployment `x` once the version
counter has wrapped around. -/
def wrappedSecret : Secret :=
  manifestSecret deploymentX "deployment-x--9223372036854775808" (-9223372036854775808) "crd" []

/-- A pod owned by the stateful set `s` and the replica set `r`, for the closed
runs. -/
def samplePod : Pod :=
  { metadata := { name := "p", ns := "ns", ownerReferences := [⟨"StatefulSet", "s"⟩, ⟨"ReplicaSet", "r"⟩] } }

/-- The replica set `r`, owned by the deployment `d`. -/
def sampleReplicaSet : ReplicaSet :=
  { metadata := { name := "r", ns := "ns", ownerReferences := [⟨"Deployment", "d"⟩] } }

/-- A world that holds the pod, its owners and the deployment `d`, with a clock
at five seconds that advances a second per reading. -/
def sampleWorld : World :=
  { client := reliable [.pod samplePod, .statefulSet { metadata := { name := "s", ns := "ns" } },
      .replicaSet sampleReplicaSet,
      .deployment { metadata := { name := "d", ns := "ns" }, template := { annotations := [("a", "b")] } }]
    clock := { now := 5000000000, ticks := [1000000000, 1000000000, 1000000000] } }

/-- A non-empty run of decimal digits of the given value. -/
def IsDecimalOf (digits : List Char) (value : Nat) : Prop :=
  digits ≠ [] ∧ (∀ ch ∈ digits, isDigit ch = true) ∧ digitsValue digits = value

/-- Collaborators for the closed runs of the skipping branches: the stamp of
`sampleEnv` read back as the start of a window that is open strictly between the
stamp and the stamp plus the duration, and a pod entangled when it carries the
annotation `deployment`. -/
def meltdownEnv : Collaborators :=
  { groupName := "quarks.cloudfoundry.org"
    windowContains := fun d annotations t =>
      match mapGet annotations "quarks.cloudfoundry.org/last-reconcile" with
      | some stamp =>
        match Atoi stamp with
        | .ok start => decide (start < t) && decide (t < start + d)
        | .error _ => false
      | none => false
    setLastReconcile := sampleEnv.setLastReconcile
    validEntanglement := fun annotations =>
      (mapGet annotations "quarks.cloudfoundry.org/deployment").isSome }

/-- A pod of the stateful set `s` that was reconciled at four seconds. -/
def meltdownPod : Pod :=
  { metadata := { name := "p", ns := "ns", annotations := [("quarks.cloudfoundry.org/last-reconcile", "4000000000")], ownerReferences := [⟨"StatefulSet", "s"⟩] } }

/-- A world that holds `meltdownPod` and its owner, with the clock at five
seconds. -/
def meltdownWorld : World :=
  { client := reliable [.pod meltdownPod, .statefulSet { metadata := { name := "s", ns := "ns" } }]
    clock := { now := 5000000000 } }

/-- A reconciler with a meltdown of one minute and a requeue after thirty
seconds. -/
def meltdownReconciler : ReconcileRestart :=
  { config := { MeltdownDuration := 60000000000, MeltdownRequeueAfter := 30000000000 } }

/-- A world without objects whose next call fails with a timeout. -/
def timeoutWorld : World :=
  { client := Client.mk [] [some (.api "context deadline exceeded")] [] }

/-- The world of `sampleWorld` in which the call after the lookup of the pod,
the lookup of the stateful set `s`, fails. -/
def ownerFaultWorld : World :=
  { client := Client.mk sampleWorld.client.objects [none, some (.api "etcd unavailable")] []
    clock := sampleWorld.clock }

/-- A pod owned by the stateful set `s`, then by the replica set `r0`, then by
the stateful set `t`. -/
def orphanPod : Pod :=
  { metadata := { name := "q", ns := "ns", ownerReferences := [⟨"StatefulSet", "s"⟩, ⟨"ReplicaSet", "r0"⟩, ⟨"StatefulSet", "t"⟩] } }

/-- A world that holds `orphanPod`, the stateful sets `s` and `t`, and the
replica set `r0`, which no deployment owns. -/
def orphanWorld : World :=
  { client := reliable [.pod orphanPod, .statefulSet { metadata := { name := "s", ns := "ns" } },
      .replicaSet { metadata := { name := "r0", ns := "ns" } },
      .statefulSet { metadata := { name := "t", ns := "ns" } }]
    clock := { now := 5000000000 } }

/-- The world of `sampleWorld` in which the seventh call, the update of the pod,
fails. -/
def stampFaultWorld : World :=
  { client := Client.mk sampleWorld.client.objects
      [none, none, none, none, none, none, some (.api "conflict")] []
    clock := sampleWorld.clock }

/-! ## `pkg/kube/util/instancegroupmanifest/instance_group_manifest.go` -/

/-- The variable `igPropertiesKey`. -/
def igPropertiesKey : String := "properties.yaml"

/-- Go's index `secret.Data[key]`: the bytes under the key, nil when the map has
no such key. -/
def dataAt (data : List (String × Bytes)) (key : String) : Bytes :=
  match data.find? (fun kv => decide (kv.1 = key)) with
  | some kv => kv.2
  | none => []

/-- What the resolver uses and this repository's sources do not define:
`names.InstanceGroupSecretName` of quarks-utils at the secret type
`DeploymentSecretTypeInstanceGroupResolvedProperties` (its arguments here are the
deployment name, the instance group name and the version), the method `Latest`
of the versioned secret store of quarks-utils (namespace and secret name, run on
the client), and `bdm.LoadYAML` into a manifest `M`. -/
structure ResolverEnv (M : Type) where
  InstanceGroupSecretName : String → String → String → String
  Latest : String → String → Client → Except Error Secret × Client
  LoadYAML : Bytes → Except Error M

/-- The unversioned name of the secret of an instance group's resolved
properties, the local `secretName` of the method `InstanceGroupManifest`. -/
def instanceGroupSecretName {M : Type} (env : ResolverEnv M)
    (boshDeploymentName instanceGroupName : String) : String :=
  env.InstanceGroupSecretName boshDeploymentName instanceGroupName ""

/-- The method `InstanceGroupManifest`. -/
def InstanceGroupManifest {M : Type} (env : ResolverEnv M)
    (boshDeploymentName instanceGroupName ns : String) (c : Client) :
    (Option M × Option Error) × Client :=
  match env.Latest ns (instanceGroupSecretName env boshDeploymentName instanceGroupName) c with
  | (.error err, c1) =>
    ((none, some (.wrapf err ("failed to read latest versioned secret "
      ++ instanceGroupSecretName env boshDeploymentName instanceGroupName
      ++ " for instance group manifest " ++ boshDeploymentName ++ "." ++ instanceGroupName))),
      c1)
  | (.ok secret, c1) =>
    match env.LoadYAML (dataAt secret.data igPropertiesKey) with
    | .error err =>
      ((none, some (.wrapf err ("failed to unmarshal manifest from secret "
        ++ instanceGroupSecretName env boshDeploymentName instanceGroupName
        ++ " for instance group manifest " ++ boshDeploymentName ++ "." ++ instanceGroupName))),
        c1)
    | .ok manifest => ((some manifest, none), c1)

/-- Collaborators for the closed runs of the resolver: a store that keeps one
version of a secret, under the name followed by `-v1`, and reads it with one
`Get`; and a loader that takes any bytes but the empty document. -/
def sampleResolver : ResolverEnv Bytes :=
  { InstanceGroupSecretName := fun deployment instanceGroup version =>
      deployment ++ ".ig-resolved." ++ instanceGroup ++ version
    Latest := fun ns name c => getSecret c ns (name ++ "-v1")
    LoadYAML := fun bytes => if bytes = [] then .error (.errorf "empty document") else .ok bytes }

/-- The stored resolved properties of the instance group `api` of deployment
`x`. -/
def resolvedSecret : Secret :=
  { metadata := { name := "x.ig-resolved.api-v1", ns := "ns" }, data := [("properties.yaml", [1, 2])] }

/-- A secret of that name without the properties. -/
def emptySecret : Secret :=
  { metadata := { name := "x.ig-resolved.api-v1", ns := "ns" }, data := [("other", [1])] }

/-- A secret of deployment `x` whose name ends in 2^63, one more than the
greatest `int`. -/
def rangeSecret : Secret :=
  { metadata := { name := "deployment-x-9223372036854775808", ns := "ns" } }

/-- A secret of deployment `x` whose name writes version 7 with leading zeros. -/
def zeroSecret : Secret :=
  { metadata := { name := "deployment-x-007", ns := "ns" }, data := [("manifest", [7])] }

/-- A stored second version of deployment `x`, for the closed runs. -/
def versionTwo : Secret :=
  { metadata := { name := "deployment-x-2", ns := "ns" }, data := [("manifest", [2])] }

/-- Whether a name matches the pattern `^deployment-<deploymentName>-\d+$` as
`ListAllVersions` compiles it; no name does when the pattern does not compile. -/
def matchesListPattern (engine : RegexpEngine) (p : ManifestPersisterImpl) (name : String) :
    Bool :=
  match mustCompileNamePattern engine p.deploymentName "-\\d+$" with
  | some nameRegex => nameRegex.MatchString name
  | none => false

/-- A stored first version of deployment `y`, for the closed runs. -/
def otherOne : Secret :=
  { metadata := { name := "deployment-y-1", ns := "ns" }, data := [("manifest", [3])] }

/-- A client that holds versions 1 and 2 of deployment `x` and version 1 of
deployment `y`, and whose third call fails. -/
def deleteFaultClient : Client :=
  Client.mk [.secret versionOne, .secret otherOne, .secret versionTwo]
    [none, none, some (.api "context deadline exceeded")] []

/-- A stored version 8 of deployment `x`, for the closed runs. -/
def versionEight : Secret :=
  { metadata := { name := "deployment-x-8", ns := "ns" }, data := [("manifest", [8])] }

/-- A secret named as version 2 of deployment `x`, stored in the namespace
`other`. -/
def otherNamespaceTwo : Secret :=
  { metadata := { name := "deployment-x-2", ns := "other" }, data := [("manifest", [2])] }

/-- The key of an object in the store: its kind, namespace and name. -/
def Object.key (o : Object) : Kind × String × String :=
  (o.kind, o.metadata.ns, o.metadata.name)

/-- No two stored objects share a key, as in every store of the API. -/
def distinctKeys (objects : List Object) : Prop :=
  (objects.map Object.key).Nodup

/-! ## Go runtime lemmas -/

theorem digitChar_isDigit (d : Nat) (h : d < 10) : isDigit (Nat.digitChar d) = true := by
  interval_cases d <;> decide

theorem digitChar_val (d : Nat) (h : d < 10) : (Nat.digitChar d).toNat - '0'.toNat = d := by
  interval_cases d <;> decide

theorem digitsValue_append (a : List Char) (c : Char) :
    digitsValue (a ++ [c]) = 10 * digitsValue a + (c.toNat - '0'.toNat) := by
  simp [digitsValue, List.foldl_append]

/-- With enough fuel the printing loop of `Nat.toDigits` puts the decimal
representation of its argument in front of what it was given. -/
theorem decimal_prepended (fuel value : Nat) (tail : List Char) (hfuel : value < fuel) :
    ∃ digits, IsDecimalOf digits value ∧
      Nat.toDigitsCore 10 fuel value tail = digits ++ tail := by
  induction fuel generalizing value tail with
  | zero => omega
  | succ fuel ih =>
    have hlast : value % 10 < 10 := Nat.mod_lt _ (by decide)
    have hone : digitsValue [Nat.digitChar (value % 10)] = value % 10 := by
      have h1 := digitsValue_append [] (Nat.digitChar (value % 10))
      rw [List.nil_append, digitChar_val _ hlast] at h1
      rw [h1]
      have : digitsValue [] = 0 := rfl
      omega
    by_cases hsmall : value / 10 = 0
    · refine ⟨[Nat.digitChar (value % 10)], ⟨by simp, ?_, ?_⟩, ?_⟩
      · intro ch hch
        rw [List.mem_singleton] at hch
        subst hch
        exact digitChar_isDigit _ hlast
      · rw [hone]; omega
      · simp [Nat.toDigitsCore, hsmall]
    · obtain ⟨front, ⟨hne, hall, hval⟩, heq⟩ :=
        ih (value / 10) (Nat.digitChar (value % 10) :: tail) (by omega)
      refine ⟨front ++ [Nat.digitChar (value % 10)], ⟨by simp, ?_, ?_⟩, ?_⟩
      · intro ch hch
        rcases List.mem_append.1 hch with hch | hch
        · exact hall ch hch
        · rw [List.mem_singleton] at hch
          subst hch
          exact digitChar_isDigit _ hlast
      · rw [digitsValue_append, hval, digitChar_val _ hlast]
        omega
      · simp [Nat.toDigitsCore, hsmall, heq]

theorem natDigits_decimal (n : Nat) : IsDecimalOf (natDigits n) n := by
  obtain ⟨digits, hdec, heq⟩ := decimal_prepended (n + 1) n [] (by omega)
  have : natDigits n = digits := by
    simp [natDigits, Nat.toDigits, heq]
  rw [this]
  exact hdec

theorem natDigits_ne_nil (n : Nat) : natDigits n ≠ [] := (natDigits_decimal n).1

theorem natDigits_isDigit (n : Nat) : ∀ c ∈ natDigits n, isDigit c = true :=
  (natDigits_decimal n).2.1

theorem digitsValue_natDigits (n : Nat) : digitsValue (natDigits n) = n :=
  (natDigits_decimal n).2.2

theorem isDigit_ne_sign (c : Char) (h : isDigit c = true) : c ≠ '+' ∧ c ≠ '-' := by
  constructor <;> rintro rfl <;> revert h <;> decide

theorem splitSign_digits (ds : List Char) (hall : ∀ c ∈ ds, isDigit c = true) :
    splitSign ds = (false, ds) := by
  cases ds with
  | nil => rfl
  | cons c rest =>
    have hc := isDigit_ne_sign c (hall c (List.mem_cons_self _ _))
    unfold splitSign
    split
    · rename_i h; injection h with h1 _; exact absurd h1 hc.1
    · rename_i h; injection h with h1 _; exact absurd h1 hc.2
    · rfl

/-- `strconv.Atoi` on a run of digits. -/
theorem Atoi_digits (ds : List Char) (hne : ds ≠ []) (hall : ∀ c ∈ ds, isDigit c = true) :
    Atoi (String.mk ds) =
      if digitsValue ds ≤ 9223372036854775807 then .ok (digitsValue ds : Int)
      else .error (.atoiRange (String.mk ds)) := by
  have hall2 : ds.all isDigit = true := by
    rw [List.all_eq_true]; exact hall
  unfold Atoi
  rw [show (String.mk ds).data = ds from rfl, splitSign_digits ds hall]
  simp [atoiDigits, hne, hall2]

theorem allowedChar_meta (c : Char) (h : allowedChar c = true) :
    (decide (c = '.') || !regexpMeta.contains c) = true := by
  by_cases hm : c ∈ regexpMeta
  · have : ∀ m ∈ regexpMeta, allowedChar m = true → m = '.' := by decide
    have := this c hm h
    simp [this]
  · simp [hm]

theorem mustCompile_of_allowed (engine : RegexpEngine) (name suffix : String)
    (h : ∀ c ∈ name.data, allowedChar c = true) :
    mustCompileNamePattern engine name suffix =
      some (.fragment (name.data.map Atom.ofChar)) := by
  unfold mustCompileNamePattern
  rw [if_pos]
  rw [List.all_eq_true]
  intro c hc
  exact allowedChar_meta c (h c hc)

theorem proposedName_data (name : String) (v : Int) :
    ("deployment-" ++ name ++ "-" ++ Itoa v).data =
      "deployment-".data ++ name.data ++ ['-'] ++ (Itoa v).data := by
  simp [String.data_append]

theorem secretName_ok (p : ManifestPersisterImpl) (v : Int) (n : String)
    (h : secretName p v = .ok n) :
    n = "deployment-" ++ p.deploymentName ++ "-" ++ Itoa v ∧
      n.utf8ByteSize ≤ 253 ∧ ∀ c ∈ n.data, allowedChar c = true := by
  unfold secretName at h
  simp only at h
  split at h
  · cases h
  · split at h
    · cases h
    · rename_i h1 h2
      injection h with h
      subst h
      refine ⟨rfl, by omega, ?_⟩
      intro c hc
      simp only [List.any_eq_true, not_exists, not_and] at h2
      have := h2 c hc
      simpa using this

theorem secretName_allowed (p : ManifestPersisterImpl) (v : Int) (n : String)
    (h : secretName p v = .ok n) : ∀ c ∈ p.deploymentName.data, allowedChar c = true := by
  obtain ⟨hn, _, hall⟩ := secretName_ok p v n h
  intro c hc
  apply hall
  rw [hn, proposedName_data]
  simp [hc]

/-! ## The fragment of regexp patterns -/

theorem matchAtoms_append (as bs : List Atom) : ∀ s : List Char,
    matchAtoms (as ++ bs) s = (matchAtoms as s).bind (matchAtoms bs) := by
  induction as with
  | nil => intro s; simp [matchAtoms]
  | cons a as ih =>
    intro s
    cases s with
    | nil => cases bs <;> simp [matchAtoms]
    | cons c s =>
      simp only [List.cons_append, matchAtoms]
      split
      · exact ih s
      · rfl

theorem matchAtoms_split (as : List Atom) : ∀ (s t : List Char),
    matchAtoms as s = some t → ∃ m, s = m ++ t ∧ m.length = as.length := by
  induction as with
  | nil => intro s t h; simp [matchAtoms] at h; exact ⟨[], by simp [h], rfl⟩
  | cons a as ih =>
    intro s t h
    cases s with
    | nil => simp [matchAtoms] at h
    | cons c s =>
      simp only [matchAtoms] at h
      split at h
      · obtain ⟨m, hm, hl⟩ := ih s t h
        exact ⟨c :: m, by simp [hm], by simp [hl]⟩
      · cases h

theorem matchAtoms_lit (l : List Char) : ∀ (s t : List Char),
    matchAtoms (l.map Atom.lit) s = some t ↔ s = l ++ t := by
  induction l with
  | nil => intro s t; simp [matchAtoms]
  | cons a l ih =>
    intro s t
    cases s with
    | nil => simp [matchAtoms]
    | cons c s =>
      simp only [List.map_cons, matchAtoms, Atom.accepts, List.cons_append, List.cons.injEq]
      by_cases hac : a = c
      · simp [hac, ih]
      · simp [hac]
        intro h; exact absurd h.symm hac

theorem allowedChar_ne_newline (c : Char) (h : allowedChar c = true) : c ≠ '\n' := by
  rintro rfl; revert h; decide

theorem ofChar_accepts (c : Char) (h : c ≠ '\n') : (Atom.ofChar c).accepts c = true := by
  unfold Atom.ofChar
  split <;> simp [Atom.accepts, h]

theorem matchAtoms_self (l : List Char) (h : ∀ c ∈ l, c ≠ '\n') (t : List Char) :
    matchAtoms (l.map Atom.ofChar) (l ++ t) = some t := by
  induction l with
  | nil => simp [matchAtoms]
  | cons a l ih =>
    simp only [List.map_cons, List.cons_append, matchAtoms]
    rw [if_pos (ofChar_accepts a (h a (List.mem_cons_self _ _)))]
    exact ih (fun c hc => h c (List.mem_cons_of_mem _ hc))

theorem fragment_find (atoms : List Atom) (s : String) :
    (NameRegexp.fragment atoms).FindStringSubmatch s =
      match matchAtoms (stemAtoms atoms) s.data with
      | none => []
      | some rest => if rest ≠ [] ∧ rest.all isDigit = true then [s, String.mk rest] else [] := rfl

theorem takeWhile_digits (l : List Char) (x : Char) (t : List Char)
    (hl : ∀ c ∈ l, isDigit c = true) (hx : isDigit x = false) :
    (l ++ x :: t).takeWhile isDigit = l := by
  induction l with
  | nil => simp [List.takeWhile, hx]
  | cons a l ih =>
    rw [List.cons_append, List.takeWhile_cons, hl a (List.mem_cons_self _ _)]
    simp only [if_true]
    rw [ih (fun c hc => hl c (List.mem_cons_of_mem _ hc))]

/-- A string the stem matches ends the stem in `-`. -/
theorem stem_split (atoms : List Atom) (s rest : List Char)
    (h : matchAtoms (stemAtoms atoms) s = some rest) :
    ∃ m, s = m ++ '-' :: rest ∧
      matchAtoms ("deployment-".data.map Atom.lit ++ atoms) s = some ('-' :: rest) := by
  unfold stemAtoms at h
  rw [matchAtoms_append] at h
  cases hm1 : matchAtoms ("deployment-".data.map Atom.lit ++ atoms) s with
  | none => rw [hm1] at h; cases h
  | some r =>
    rw [hm1] at h
    have hr2 : r = '-' :: rest := by
      have := (matchAtoms_lit ['-'] r rest).1 h
      simpa using this
    obtain ⟨m, hs, _⟩ := matchAtoms_split _ _ _ hm1
    exact ⟨m, by rw [hs, hr2], by rw [hr2]⟩

/-- A name the fragment matches splits into a stem that ends in `-` and the
digits it captures, which are the digits the name ends in. -/
theorem fragment_match (atoms : List Atom) (s : String)
    (h : (NameRegexp.fragment atoms).MatchString s = true) :
    ∃ rest : List Char, rest ≠ [] ∧ (∀ c ∈ rest, isDigit c = true) ∧
      matchAtoms (stemAtoms atoms) s.data = some rest ∧
      (NameRegexp.fragment atoms).FindStringSubmatch s = [s, String.mk rest] ∧
      trailingDigits s = rest := by
  unfold NameRegexp.MatchString at h
  rw [fragment_find] at h ⊢
  cases hm : matchAtoms (stemAtoms atoms) s.data with
  | none => rw [hm] at h; simp at h
  | some rest =>
    rw [hm] at h
    by_cases hr : rest ≠ [] ∧ rest.all isDigit = true
    · have hall : ∀ c ∈ rest, isDigit c = true := List.all_eq_true.1 hr.2
      refine ⟨rest, hr.1, hall, rfl, by simp only [if_pos hr], ?_⟩
      obtain ⟨m, hs, _⟩ := stem_split atoms s.data rest hm
      unfold trailingDigits
      rw [hs, List.reverse_append, List.reverse_cons, List.append_assoc,
        List.singleton_append, takeWhile_digits _ _ _ (by simpa using hall) (by decide)]
      simp
    · simp only [if_neg hr] at h
      simp at h

/-- Conversely a stem match followed by digits is a match of the fragment. -/
theorem fragment_match_of (atoms : List Atom) (s : String) (rest : List Char)
    (hm : matchAtoms (stemAtoms atoms) s.data = some rest) (hne : rest ≠ [])
    (hall : ∀ c ∈ rest, isDigit c = true) :
    (NameRegexp.fragment atoms).MatchString s = true := by
  unfold NameRegexp.MatchString
  rw [fragment_find, hm]
  have : rest ≠ [] ∧ rest.all isDigit = true := ⟨hne, List.all_eq_true.2 hall⟩
  simp only [if_pos this]
  simp

/-! ## Listing and the greatest version -/

theorem getVersion_of_match (engine : RegexpEngine) (p : ManifestPersisterImpl)
    (hp : ∀ c ∈ p.deploymentName.data, allowedChar c = true) (name : String)
    (hm : matchesPattern p.deploymentName name = true) :
    getVersionFromSecretName engine p name =
      some (if trailingInteger name ≤ 9223372036854775807 then .ok (trailingInteger name : Int)
        else .error (.wrapf (.atoiRange (String.mk (trailingDigits name)))
          ("invalid secret name " ++ name ++ ", it does not end with a version number"))) := by
  obtain ⟨rest, hne, hall, _, hfind, htd⟩ := fragment_match _ name hm
  unfold getVersionFromSecretName
  rw [mustCompile_of_allowed engine _ _ hp]
  simp only [hfind]
  rw [Atoi_digits rest hne hall]
  unfold trailingInteger
  rw [htd]
  by_cases hb : digitsValue rest ≤ 9223372036854775807
  · simp only [if_pos hb]
  · simp only [if_neg hb]

theorem ListAllVersions_of_allowed (engine : RegexpEngine) (p : ManifestPersisterImpl)
    (hp : ∀ c ∈ p.deploymentName.data, allowedChar c = true) (c : Client)
    (hf : c.nextFault = none) :
    ListAllVersions engine p c =
      .returned (.ok (versionsIn p c.objects)) (c.record (.list .secret p.ns)) := by
  unfold ListAllVersions Client.List
  simp only [hf]
  rw [mustCompile_of_allowed engine _ _ hp]
  rfl

theorem versionsIn_match (p : ManifestPersisterImpl) (objects : List Object) (s : Secret)
    (h : s ∈ versionsIn p objects) : matchesPattern p.deploymentName s.metadata.name = true := by
  unfold versionsIn at h
  exact (List.mem_filter.1 h).2

theorem greatestVersionLoop_spec (engine : RegexpEngine) (p : ManifestPersisterImpl)
    (hp : ∀ c ∈ p.deploymentName.data, allowedChar c = true) :
    ∀ (l : List Secret) (g : Nat),
      (∀ s ∈ l, matchesPattern p.deploymentName s.metadata.name = true) →
      (∀ s ∈ l, trailingInteger s.metadata.name ≤ 9223372036854775807) →
      greatestVersionLoop engine p l (g : Int) =
        some (.ok ((max g ((l.map (fun s => trailingInteger s.metadata.name)).foldr max 0) : Nat)
          : Int)) := by
  intro l
  induction l with
  | nil => intro g _ _; simp [greatestVersionLoop]
  | cons s l ih =>
    intro g hm hb
    unfold greatestVersionLoop
    rw [getVersion_of_match engine p hp _ (hm s (List.mem_cons_self _ _)),
      if_pos (hb s (List.mem_cons_self _ _))]
    simp only
    have hstep : (if (trailingInteger s.metadata.name : Int) > (g : Int)
        then (trailingInteger s.metadata.name : Int) else (g : Int)) =
        ((max g (trailingInteger s.metadata.name) : Nat) : Int) := by
      split
      · rw [max_eq_right (by omega)]
      · rw [max_eq_left (by omega)]
    rw [hstep, ih _ (fun x hx => hm x (List.mem_cons_of_mem _ hx))
      (fun x hx => hb x (List.mem_cons_of_mem _ hx))]
    simp only [List.map_cons, List.foldr_cons]
    congr 3
    omega

/-! ## PersistManifest -/

theorem getGreatestVersion_spec (engine : RegexpEngine) (p : ManifestPersisterImpl)
    (hp : ∀ c ∈ p.deploymentName.data, allowedChar c = true) (c : Client)
    (hf : c.nextFault = none)
    (hb : ∀ s ∈ versionsIn p c.objects, trailingInteger s.metadata.name ≤ 9223372036854775807) :
    getGreatestVersion engine p c =
      .returned (.ok (specGreatestVersion p c.objects : Int)) (c.record (.list .secret p.ns)) := by
  unfold getGreatestVersion
  rw [ListAllVersions_of_allowed engine p hp c hf]
  simp only
  have h := greatestVersionLoop_spec engine p hp (versionsIn p c.objects) 0
    (fun s hs => versionsIn_match p _ s hs) hb
  rw [show ((0 : Nat) : Int) = 0 from rfl] at h
  rw [h]
  simp [specGreatestVersion]

theorem wrapInt_of_range (x : Int) (h1 : -9223372036854775808 ≤ x)
    (h2 : x ≤ 9223372036854775807) : wrapInt x = x := by
  unfold wrapInt
  omega

theorem Create_calls (c : Client) (o : Object) : (c.Create o).2.calls = c.calls ++ [.create o] := by
  unfold Client.Create
  cases c.nextFault <;> simp only
  · cases c.lookup o.kind o.metadata.ns o.metadata.name <;> simp [Client.record]
  · simp [Client.record]

theorem specGreatest_lt (p : ManifestPersisterImpl) (objects : List Object)
    (hb : ∀ s ∈ versionsIn p objects, trailingInteger s.metadata.name < 9223372036854775807) :
    specGreatestVersion p objects < 9223372036854775807 := by
  unfold specGreatestVersion
  generalize versionsIn p objects = l at hb
  induction l with
  | nil => exact Nat.zero_lt_succ _
  | cons s l ih =>
    rw [List.map_cons, List.foldr_cons]
    have h1 := hb s (List.mem_cons_self _ _)
    have h2 := ih (fun x hx => hb x (List.mem_cons_of_mem _ hx))
    exact max_lt h1 h2

/-- What `PersistManifest` does once the greatest version is known. -/
theorem PersistManifest_of_greatest {M : Type} (engine : RegexpEngine)
    (yamlMarshal : M → Except Error Bytes) (p : ManifestPersisterImpl) (manifest : M)
    (sourceDescription : String) (c c0 : Client) (g : Int) (name : String) (data : Bytes)
    (hget : getGreatestVersion engine p c = .returned (.ok g) c0)
    (hname : secretName p (wrapInt (g + 1)) = .ok name)
    (hdata : yamlMarshal manifest = .ok data) :
    PersistManifest engine yamlMarshal p manifest sourceDescription c =
      .returned (some (manifestSecret p name (wrapInt (g + 1)) sourceDescription data),
          (c0.Create (.secret (manifestSecret p name (wrapInt (g + 1)) sourceDescription data))).1)
        (c0.Create (.secret (manifestSecret p name (wrapInt (g + 1)) sourceDescription data))).2 := by
  unfold PersistManifest
  rw [hget]
  simp only [hname, hdata]

theorem mem_versionsIn (p : ManifestPersisterImpl) (objects : List Object) (s : Secret) :
    s ∈ versionsIn p objects ↔
      Object.secret s ∈ objects ∧ (p.ns = "" ∨ s.metadata.ns = p.ns) ∧
        matchesPattern p.deploymentName s.metadata.name = true := by
  unfold versionsIn secretsOf
  simp only [List.mem_filter, List.mem_filterMap]
  constructor
  · rintro ⟨⟨o, ⟨ho, hk⟩, hs⟩, hm⟩
    cases o <;> simp at hs
    subst hs
    simp [Object.kind, Object.metadata, inNamespace] at hk
    exact ⟨ho, hk, hm⟩
  · rintro ⟨ho, hn, hm⟩
    refine ⟨⟨.secret s, ⟨ho, ?_⟩, rfl⟩, hm⟩
    simp [Object.kind, Object.metadata, inNamespace]
    exact hn

/-- What `PersistManifest` submits when the listing call is let through, every
listed name ends in an integer below 2^63 - 1, the identifier of version g + 1
passes `secretName` (g the greatest of those integers) and the manifest
marshals. -/
theorem PersistManifest_next_listed {M : Type} (engine : RegexpEngine)
    (yamlMarshal : M → Except Error Bytes) (p : ManifestPersisterImpl) (manifest : M)
    (sourceDescription : String) (c : Client) (name : String) (data : Bytes)
    (hf : c.nextFault = none)
    (hb : ∀ s ∈ versionsIn p c.objects, trailingInteger s.metadata.name < 9223372036854775807)
    (hname : secretName p ((specGreatestVersion p c.objects : Int) + 1) = .ok name)
    (hdata : yamlMarshal manifest = .ok data) :
    ∃ (secret : Secret) (err : Option Error) (c1 : Client),
      PersistManifest engine yamlMarshal p manifest sourceDescription c
        = .returned (some secret, err) c1 ∧
      c1.calls = c.calls ++ [.list .secret p.ns, .create (.secret secret)] ∧
      secret.metadata.name =
        "deployment-" ++ p.deploymentName ++ "-" ++ Itoa ((specGreatestVersion p c.objects : Int) + 1) ∧
      mapGet secret.metadata.labels versionKeyName =
        some (Itoa ((specGreatestVersion p c.objects : Int) + 1)) ∧
      mapGet secret.metadata.labels deploymentKeyName = some p.deploymentName ∧
      mapGet secret.metadata.annotations sourceKeyName = some sourceDescription := by
  have hp := secretName_allowed p _ name hname
  have hg := specGreatest_lt p c.objects hb
  have hget := getGreatestVersion_spec engine p hp c hf (fun s hs => le_of_lt (hb s hs))
  have hw : wrapInt ((specGreatestVersion p c.objects : Int) + 1)
      = (specGreatestVersion p c.objects : Int) + 1 := wrapInt_of_range _ (by omega) (by omega)
  have hn := (secretName_ok p _ name hname).1
  have hpm := PersistManifest_of_greatest engine yamlMarshal p manifest sourceDescription c _ _
    name data hget (by rw [hw]; exact hname) hdata
  rw [hw] at hpm
  refine ⟨_, _, _, hpm, ?_, hn, ?_, ?_, ?_⟩
  · rw [Create_calls]
    show c.calls ++ [Call.list Kind.secret p.ns] ++ _ = _
    rw [List.append_assoc]
    rfl
  · show (if deploymentKeyName = versionKeyName then _ else
      if versionKeyName = versionKeyName then _ else _) = _
    rw [if_neg (by decide), if_pos rfl]
  · show (if deploymentKeyName = deploymentKeyName then _ else _) = _
    rw [if_pos rfl]
  · show (if sourceKeyName = sourceKeyName then _ else _) = _
    rw [if_pos rfl]

/-- Claim C1, as amended: for a persister whose namespace is not the empty
string, the secrets counted are the stored secrets of that namespace whose name
matches `^deployment-<deploymentName>-\d+$`; when the listing call is let
through, every one of them ends in an integer below 2^63 - 1, the identifier of
version g + 1 passes `secretName` (g the greatest trailing integer among those
secrets, 0 when there is none) and the manifest marshals, `PersistManifest`
lists and then submits for creation the secret named
`deployment-<deploymentName>-<g+1>`, labelled `version` with g + 1 in decimal
and `deployment-name` with the deployment name, and annotated
`source-description` with the given description. -/
theorem persistManifest_next_version {M : Type} (engine : RegexpEngine)
    (yamlMarshal : M → Except Error Bytes) (p : ManifestPersisterImpl) (manifest : M)
    (sourceDescription : String) (c : Client) (name : String) (data : Bytes)
    (hns : p.ns ≠ "")
    (hf : c.nextFault = none)
    (hb : ∀ s ∈ versionsIn p c.objects, trailingInteger s.metadata.name < 9223372036854775807)
    (hname : secretName p ((specGreatestVersion p c.objects : Int) + 1) = .ok name)
    (hdata : yamlMarshal manifest = .ok data) :
    (∀ s : Secret, s ∈ versionsIn p c.objects ↔
      (Object.secret s ∈ c.objects ∧ s.metadata.ns = p.ns ∧
        matchesPattern p.deploymentName s.metadata.name = true)) ∧
    ∃ (secret : Secret) (err : Option Error) (c1 : Client),
      PersistManifest engine yamlMarshal p manifest sourceDescription c
        = .returned (some secret, err) c1 ∧
      c1.calls = c.calls ++ [.list .secret p.ns, .create (.secret secret)] ∧
      secret.metadata.name =
        "deployment-" ++ p.deploymentName ++ "-" ++ Itoa ((specGreatestVersion p c.objects : Int) + 1) ∧
      mapGet secret.metadata.labels versionKeyName =
        some (Itoa ((specGreatestVersion p c.objects : Int) + 1)) ∧
      mapGet secret.metadata.labels deploymentKeyName = some p.deploymentName ∧
      mapGet secret.metadata.annotations sourceKeyName = some sourceDescription := by
  refine ⟨?_, PersistManifest_next_listed engine yamlMarshal p manifest sourceDescription c name
    data hf hb hname hdata⟩
  intro s
  rw [mem_versionsIn]
  constructor
  · rintro ⟨h1, h2, h3⟩
    rcases h2 with h2 | h2
    · exact absurd h2 hns
    · exact ⟨h1, h2, h3⟩
  · rintro ⟨h1, h2, h3⟩
    exact ⟨h1, Or.inr h2, h3⟩

/-- Witness for C1: on a store that holds version 1 of deployment `x`, the call
submits `deployment-x-2`. -/
theorem persistManifest_next_version_witness :
    ∃ (secret : Secret) (err : Option Error) (c1 : Client),
      PersistManifest noEngine unitMarshal ⟨"ns", "x"⟩ () "crd"
          (reliable [.secret { metadata := { name := "deployment-x-1", ns := "ns" } }])
        = .returned (some secret, err) c1 ∧
      c1.calls = [] ++ [.list .secret "ns", .create (.secret secret)] ∧
      secret.metadata.name = "deployment-" ++ "x" ++ "-" ++ Itoa ((1 : Nat) + 1) ∧
      mapGet secret.metadata.labels versionKeyName = some (Itoa ((1 : Nat) + 1)) ∧
      mapGet secret.metadata.labels deploymentKeyName = some "x" ∧
      mapGet secret.metadata.annotations sourceKeyName = some "crd" :=
  (persistManifest_next_version noEngine unitMarshal ⟨"ns", "x"⟩ () "crd"
    (reliable [.secret { metadata := { name := "deployment-x-1", ns := "ns" } }])
    "deployment-x-2" [] (by decide) rfl (by decide) (by decide) rfl).2

/-- Counterexample to C1 as stated: the name `x` passes `secretName`.  On a
store whose matching secret ends in 9223372036854775808 `PersistManifest`
returns the range error of `strconv.Atoi` and submits nothing.  And the
persister of `x` with the empty namespace, on a store that holds
`deployment-x-1` in namespace `ns` and `deployment-x-2` in namespace `other`
and so no secret of the persister's namespace, lists both and submits
`deployment-x-3`, not `deployment-x-1`. -/
theorem persistManifest_next_version_counterexample :
    secretName ⟨"ns", "x"⟩ 1 = .ok "deployment-x-1" ∧
    PersistManifest noEngine unitMarshal ⟨"ns", "x"⟩ () "crd"
        (reliable [.secret { metadata := { name := "deployment-x-9223372036854775808", ns := "ns" } }])
      = .returned (none, some (.wrapf (.atoiRange "9223372036854775808")
          "invalid secret name deployment-x-9223372036854775808, it does not end with a version number"))
        { objects := [.secret { metadata := { name := "deployment-x-9223372036854775808", ns := "ns" } }]
          faults := []
          calls := [.list .secret "ns"] } ∧
    (versionOne.metadata.ns ≠ "" ∧ otherNamespaceTwo.metadata.ns ≠ "" ∧
      (PersistManifest noEngine unitMarshal ⟨"", "x"⟩ () "crd"
          (reliable [.secret versionOne, .secret otherNamespaceTwo])).client.calls
        = [.list .secret "",
            .create (.secret (manifestSecret ⟨"", "x"⟩ "deployment-x-3" 3 "crd" []))]) := by
  refine ⟨?_, ?_, ?_, ?_, ?_⟩ <;> decide

/-- The derived identifier of a non-negative version. -/
theorem nameOf_data (name : String) (v : Nat) :
    ("deployment-" ++ name ++ "-" ++ Itoa (v : Int)).data =
      "deployment-".data ++ name.data ++ '-' :: natDigits v := by
  rw [proposedName_data]
  show _ ++ (String.mk (natDigits v)).data = _
  simp

theorem self_match (deploymentName : String)
    (hp : ∀ c ∈ deploymentName.data, allowedChar c = true) (v : Nat) :
    matchAtoms (stemAtoms (deploymentName.data.map Atom.ofChar))
      ("deployment-" ++ deploymentName ++ "-" ++ Itoa (v : Int)).data = some (natDigits v) := by
  rw [nameOf_data]
  unfold stemAtoms
  rw [List.append_assoc, List.append_assoc, matchAtoms_append]
  have h1 : matchAtoms ("deployment-".data.map Atom.lit)
      ("deployment-".data ++ (deploymentName.data ++ '-' :: natDigits v))
      = some (deploymentName.data ++ '-' :: natDigits v) := (matchAtoms_lit _ _ _).2 rfl
  rw [h1]
  show matchAtoms (deploymentName.data.map Atom.ofChar ++ [Atom.lit '-']) _ = _
  rw [matchAtoms_append, matchAtoms_self _ (fun c hc => allowedChar_ne_newline c (hp c hc))]
  exact (matchAtoms_lit ['-'] _ _).2 rfl

theorem matchesPattern_nameOf (deploymentName : String)
    (hp : ∀ c ∈ deploymentName.data, allowedChar c = true) (v : Nat) :
    matchesPattern deploymentName ("deployment-" ++ deploymentName ++ "-" ++ Itoa (v : Int))
      = true :=
  fragment_match_of _ _ _ (self_match deploymentName hp v) (natDigits_ne_nil v)
    (natDigits_isDigit v)

theorem trailingInteger_nameOf (deploymentName : String) (v : Nat) :
    trailingInteger ("deployment-" ++ deploymentName ++ "-" ++ Itoa (v : Int)) = v := by
  unfold trailingInteger trailingDigits
  rw [nameOf_data, List.reverse_append, List.reverse_cons, List.append_assoc,
    List.singleton_append,
    takeWhile_digits _ _ _ (by simpa using natDigits_isDigit v) (by decide),
    List.reverse_reverse, digitsValue_natDigits]

theorem le_foldr_max (l : List Nat) (x : Nat) (h : x ∈ l) : x ≤ l.foldr max 0 := by
  induction l with
  | nil => cases h
  | cons a l ih =>
    rw [List.foldr_cons]
    rcases List.mem_cons.1 h with h | h
    · subst h; exact le_max_left _ _
    · exact le_trans (ih h) (le_max_right _ _)

theorem le_specGreatest (p : ManifestPersisterImpl) (objects : List Object) (s : Secret)
    (h : s ∈ versionsIn p objects) :
    trailingInteger s.metadata.name ≤ specGreatestVersion p objects :=
  le_foldr_max _ _ (List.mem_map.2 ⟨s, h, rfl⟩)

theorem lookup_some (c : Client) (k : Kind) (ns name : String) (o : Object)
    (h : c.lookup k ns name = some o) :
    o ∈ c.objects ∧ o.kind = k ∧ o.metadata.ns = ns ∧ o.metadata.name = name := by
  unfold Client.lookup at h
  have h1 := List.mem_of_find?_eq_some h
  have h2 := List.find?_some h
  simp [Object.hasKey] at h2
  exact ⟨h1, h2.1.1, h2.1.2, h2.2⟩

/-- The identifier of the version after the greatest is not stored. -/
theorem lookup_next_none (p : ManifestPersisterImpl)
    (hp : ∀ c ∈ p.deploymentName.data, allowedChar c = true) (c : Client) :
    c.lookup .secret p.ns
      ("deployment-" ++ p.deploymentName ++ "-" ++ Itoa ((specGreatestVersion p c.objects : Int) + 1))
      = none := by
  cases h : c.lookup .secret p.ns ("deployment-" ++ p.deploymentName ++ "-" ++
      Itoa ((specGreatestVersion p c.objects : Int) + 1)) with
  | none => rfl
  | some o =>
    exfalso
    obtain ⟨hmem, hk, hns, hname⟩ := lookup_some _ _ _ _ _ h
    cases o with
    | secret s =>
      have hcast : ((specGreatestVersion p c.objects : Int) + 1)
          = ((specGreatestVersion p c.objects + 1 : Nat) : Int) := by push_cast; rfl
      rw [hcast] at hname
      have hs : s ∈ versionsIn p c.objects :=
        (mem_versionsIn p _ s).2 ⟨hmem, Or.inr hns, by
          show matchesPattern _ s.metadata.name = true
          have : s.metadata.name = _ := hname
          rw [this]; exact matchesPattern_nameOf _ hp _⟩
      have hle := le_specGreatest p _ s hs
      have : s.metadata.name = _ := hname
      rw [this, trailingInteger_nameOf] at hle
      omega
    | pod _ => cases hk
    | statefulSet _ => cases hk
    | replicaSet _ => cases hk
    | deployment _ => cases hk

/-- A call of `PersistManifest` that returns a secret got as far as `Create`. -/
theorem PersistManifest_inv {M : Type} (engine : RegexpEngine)
    (yamlMarshal : M → Except Error Bytes) (p : ManifestPersisterImpl) (manifest : M)
    (sourceDescription : String) (c c1 : Client) (secret : Secret) (err : Option Error)
    (h : PersistManifest engine yamlMarshal p manifest sourceDescription c
      = .returned (some secret, err) c1) :
    ∃ (g : Int) (c0 : Client) (name : String) (data : Bytes),
      getGreatestVersion engine p c = .returned (.ok g) c0 ∧
      secretName p (wrapInt (g + 1)) = .ok name ∧
      yamlMarshal manifest = .ok data ∧
      secret = manifestSecret p name (wrapInt (g + 1)) sourceDescription data ∧
      c0.Create (.secret secret) = (err, c1) := by
  unfold PersistManifest at h
  cases hg : getGreatestVersion engine p c with
  | panicked c0 => rw [hg] at h; cases h
  | returned r c0 =>
    rw [hg] at h
    cases r with
    | error e => cases h
    | ok g =>
      simp only at h
      cases hn : secretName p (wrapInt (g + 1)) with
      | error e => rw [hn] at h; cases h
      | ok name =>
        rw [hn] at h
        simp only at h
        cases hd : yamlMarshal manifest with
        | error e => rw [hd] at h; cases h
        | ok data =>
          rw [hd] at h
          simp only at h
          injection h with h1 h2
          injection h1 with h3 h4
          injection h3 with h3
          subst h3
          exact ⟨g, c0, name, data, rfl, hn, rfl, rfl, by rw [← h4, ← h2]⟩

/-- With a deployment name of allowed characters, `getGreatestVersion` returns a
version only if the listing was let through. -/
theorem getGreatestVersion_ok_fault (engine : RegexpEngine) (p : ManifestPersisterImpl)
    (c c0 : Client) (g : Int) (h : getGreatestVersion engine p c = .returned (.ok g) c0) :
    c.nextFault = none := by
  cases hf : c.nextFault with
  | none => rfl
  | some e =>
    exfalso
    unfold getGreatestVersion ListAllVersions Client.List at h
    simp only [hf] at h
    cases h

/-- Claim C8, as amended: when every matching secret ends in an integer below
2^63 - 1 and `PersistManifest` got as far as `Create`, no secret of the
namespace bears the derived name; the create then fails only by an injected
failure of the call, a failed one leaves the store as it was, and a successful
one appends the secret to the store. -/
theorem persistManifest_fresh_name {M : Type} (engine : RegexpEngine)
    (yamlMarshal : M → Except Error Bytes) (p : ManifestPersisterImpl) (manifest : M)
    (sourceDescription : String) (c c1 : Client) (secret : Secret) (err : Option Error)
    (h : PersistManifest engine yamlMarshal p manifest sourceDescription c
      = .returned (some secret, err) c1)
    (hb : ∀ s ∈ versionsIn p c.objects, trailingInteger s.metadata.name < 9223372036854775807) :
    c.lookup .secret p.ns secret.metadata.name = none ∧
      (err = none → c1.objects = c.objects ++ [.secret secret]) ∧
      (err ≠ none → c1.objects = c.objects) ∧
      (∀ e, err = some e → (c.record (.list .secret p.ns)).nextFault = some e) := by
  obtain ⟨g, c0, name, data, hg, hn, _, hs, hc⟩ :=
    PersistManifest_inv engine yamlMarshal p manifest sourceDescription c c1 secret err h
  have hp := secretName_allowed p _ name hn
  have hf := getGreatestVersion_ok_fault engine p c c0 g hg
  rw [getGreatestVersion_spec engine p hp c hf (fun s hs => le_of_lt (hb s hs))] at hg
  injection hg with hg1 hg2
  injection hg1 with hg1
  subst hg1
  subst hg2
  have hlt := specGreatest_lt p c.objects hb
  rw [wrapInt_of_range _ (by omega) (by omega)] at hn hs
  have hname : secret.metadata.name = name := by rw [hs]; rfl
  have hns : secret.metadata.ns = p.ns := by rw [hs]; rfl
  have hlk : c.lookup .secret p.ns secret.metadata.name = none := by
    rw [hname, (secretName_ok p _ name hn).1]
    exact lookup_next_none p hp c
  have hlk' : (c.record (.list .secret p.ns)).lookup (Object.secret secret).kind
      (Object.secret secret).metadata.ns (Object.secret secret).metadata.name = none := by
    show (c.record (.list .secret p.ns)).lookup .secret secret.metadata.ns secret.metadata.name = none
    rw [hns]
    exact hlk
  unfold Client.Create at hc
  rw [hlk'] at hc
  cases hf2 : (c.record (.list .secret p.ns)).nextFault with
  | none =>
    rw [hf2] at hc
    simp only at hc
    injection hc with hc1 hc2
    subst hc1
    subst hc2
    exact ⟨hlk, fun _ => rfl, fun hne => absurd rfl hne, fun e he => by cases he⟩
  | some e =>
    rw [hf2] at hc
    simp only at hc
    injection hc with hc1 hc2
    subst hc1
    subst hc2
    refine ⟨hlk, ?_, fun _ => rfl, ?_⟩
    · intro he; cases he
    · intro e' he; exact he

/-! ## Closed runs -/

/-- Witness for C8: on a store that holds version 1 of deployment `x` the name
`deployment-x-2` is free. -/
theorem persistManifest_fresh_name_witness :
    (reliable [.secret { metadata := { name := "deployment-x-1", ns := "ns" } }]).lookup
        .secret "ns" "deployment-x-2" = none :=
  (persistManifest_fresh_name noEngine unitMarshal ⟨"ns", "x"⟩ () "crd"
    (reliable [.secret { metadata := { name := "deployment-x-1", ns := "ns" } }])
    { objects := [.secret { metadata := { name := "deployment-x-1", ns := "ns" } },
        .secret (manifestSecret ⟨"ns", "x"⟩ "deployment-x-2" 2 "crd" [])]
      faults := []
      calls := [.list .secret "ns",
        .create (.secret (manifestSecret ⟨"ns", "x"⟩ "deployment-x-2" 2 "crd" []))] }
    (manifestSecret ⟨"ns", "x"⟩ "deployment-x-2" 2 "crd" []) none (by decide) (by decide)).1

/-- Counterexample to C8 as stated: with greatest version 2^63 - 1 the derived
version wraps around to -2^63, and its name is that of a stored secret:
`Create` answers AlreadyExists. -/
theorem persistManifest_wrap_collision :
    PersistManifest noEngine unitMarshal ⟨"ns", "x"⟩ () "crd"
        (reliable [.secret { metadata := { name := "deployment-x-9223372036854775807", ns := "ns" } },
          .secret { metadata := { name := "deployment-x--9223372036854775808", ns := "ns" } }])
      = .returned
          (some (manifestSecret ⟨"ns", "x"⟩ "deployment-x--9223372036854775808"
            (-9223372036854775808) "crd" []),
           some (.alreadyExists "deployment-x--9223372036854775808"))
          { objects :=
              [.secret { metadata := { name := "deployment-x-9223372036854775807", ns := "ns" } },
               .secret { metadata := { name := "deployment-x--9223372036854775808", ns := "ns" } }]
            faults := []
            calls := [.list .secret "ns",
              .create (.secret (manifestSecret ⟨"ns", "x"⟩ "deployment-x--9223372036854775808"
                (-9223372036854775808) "crd" []))] } := by
  decide

/-- Claim C5, failing input: for the deployment name `(` the pattern of the
listing does not compile, and `PersistManifest` panics after the list call
instead of returning an error, whatever the regexp package does on other
patterns. -/
theorem persistManifest_panics_on_open_paren (engine : RegexpEngine) :
    PersistManifest engine unitMarshal ⟨"ns", "("⟩ () "crd" (reliable [])
      = .panicked { objects := [], faults := [], calls := [.list .secret "ns"] } := by
  rfl

/-- Claim C6, failing input: `a.b` and `a-b` both pass `secretName`, and the
listing pattern of `a.b` matches `deployment-a-b-7`: `ListAllVersions` for
`a.b` returns that secret of `a-b`, and `getGreatestVersion` for `a.b` is 7. -/
theorem listAllVersions_lists_other_deployment :
    secretName ⟨"ns", "a.b"⟩ 1 = .ok "deployment-a.b-1" ∧
    secretName ⟨"ns", "a-b"⟩ 7 = .ok "deployment-a-b-7" ∧
    matchesPattern "a.b" "deployment-a-b-7" = true ∧
    ListAllVersions noEngine ⟨"ns", "a.b"⟩
        (reliable [.secret { metadata := { name := "deployment-a-b-7", ns := "ns" } }])
      = .returned (.ok [{ metadata := { name := "deployment-a-b-7", ns := "ns" } }])
          { objects := [.secret { metadata := { name := "deployment-a-b-7", ns := "ns" } }]
            faults := []
            calls := [.list .secret "ns"] } ∧
    getGreatestVersion noEngine ⟨"ns", "a.b"⟩
        (reliable [.secret { metadata := { name := "deployment-a-b-7", ns := "ns" } }])
      = .returned (.ok 7)
          { objects := [.secret { metadata := { name := "deployment-a-b-7", ns := "ns" } }]
            faults := []
            calls := [.list .secret "ns"] } := by
  refine ⟨?_, ?_, ?_, ?_, ?_⟩ <;> decide

/-- Counterexample to C7 as stated: when the backing list holds version 2
before version 1, `ListAllVersions` returns them in that order. -/
theorem listAllVersions_not_sorted :
    ListAllVersions noEngine ⟨"ns", "x"⟩
        (reliable [.secret { metadata := { name := "deployment-x-2", ns := "ns" } },
          .secret { metadata := { name := "deployment-x-1", ns := "ns" } }])
      = .returned (.ok [{ metadata := { name := "deployment-x-2", ns := "ns" } },
            { metadata := { name := "deployment-x-1", ns := "ns" } }])
          { objects := [.secret { metadata := { name := "deployment-x-2", ns := "ns" } },
              .secret { metadata := { name := "deployment-x-1", ns := "ns" } }]
            faults := []
            calls := [.list .secret "ns"] } ∧
    getVersionFromSecretName noEngine ⟨"ns", "x"⟩ "deployment-x-2" = some (.ok 2) ∧
    getVersionFromSecretName noEngine ⟨"ns", "x"⟩ "deployment-x-1" = some (.ok 1) := by
  refine ⟨?_, ?_, ?_⟩ <;> decide

/-! ## Order of the listing, and invalid names -/

theorem secretsOf_sublist (l : List Object) : ((secretsOf l).map Object.secret).Sublist l := by
  induction l with
  | nil => exact List.Sublist.slnil
  | cons o l ih =>
    cases o with
    | secret s =>
      show (Object.secret s :: (secretsOf l).map Object.secret).Sublist _
      exact ih.cons₂ _
    | pod _ => exact ih.cons _
    | statefulSet _ => exact ih.cons _
    | replicaSet _ => exact ih.cons _
    | deployment _ => exact ih.cons _

/-- Claim C7, as amended: the list `ListAllVersions` returns is a sub-list of
the stored objects, in their order, and for a deployment name of allowed
characters it is the secrets that the list call covers whose name matches, in
the order of the store. -/
theorem listAllVersions_backing_order (engine : RegexpEngine) (p : ManifestPersisterImpl)
    (c c1 : Client) (list : List Secret)
    (h : ListAllVersions engine p c = .returned (.ok list) c1) :
    (list.map Object.secret).Sublist c.objects ∧
      ((∀ ch ∈ p.deploymentName.data, allowedChar ch = true) →
        list = versionsIn p c.objects) := by
  constructor
  · unfold ListAllVersions Client.List at h
    cases hf : c.nextFault with
    | some e => simp only [hf] at h; cases h
    | none =>
      simp only [hf] at h
      cases hc : mustCompileNamePattern engine p.deploymentName "-\\d+$" with
      | none => rw [hc] at h; cases h
      | some re =>
        rw [hc] at h
        simp only at h
        injection h with h1 _
        injection h1 with h1
        subst h1
        exact ((List.filter_sublist _).map _).trans
          ((secretsOf_sublist _).trans (List.filter_sublist _))
  · intro hp
    have hf : c.nextFault = none := by
      cases hf : c.nextFault with
      | none => rfl
      | some e =>
        unfold ListAllVersions Client.List at h
        simp only [hf] at h
        cases h
    rw [ListAllVersions_of_allowed engine p hp c hf] at h
    injection h with h1 _
    injection h1 with h1
    exact h1.symm

/-- Witness for C7: the two listed secrets are a sub-list of a store that holds
them around a pod. -/
theorem listAllVersions_backing_order_witness :
    ([({ metadata := { name := "deployment-x-2", ns := "ns" } } : Secret),
        { metadata := { name := "deployment-x-1", ns := "ns" } }].map Object.secret).Sublist
      [.secret { metadata := { name := "deployment-x-2", ns := "ns" } },
        .pod { metadata := { name := "deployment-x-3", ns := "ns" } },
        .secret { metadata := { name := "deployment-x-1", ns := "ns" } }] :=
  (listAllVersions_backing_order noEngine ⟨"ns", "x"⟩
    (reliable [.secret { metadata := { name := "deployment-x-2", ns := "ns" } },
        .pod { metadata := { name := "deployment-x-3", ns := "ns" } },
        .secret { metadata := { name := "deployment-x-1", ns := "ns" } }])
    { objects := [.secret { metadata := { name := "deployment-x-2", ns := "ns" } },
        .pod { metadata := { name := "deployment-x-3", ns := "ns" } },
        .secret { metadata := { name := "deployment-x-1", ns := "ns" } }]
      faults := []
      calls := [.list .secret "ns"] }
    [{ metadata := { name := "deployment-x-2", ns := "ns" } },
      { metadata := { name := "deployment-x-1", ns := "ns" } }] (by decide)).1

theorem getGreatestVersion_client (engine : RegexpEngine) (p : ManifestPersisterImpl)
    (c : Client) : (getGreatestVersion engine p c).client = c.record (.list .secret p.ns) := by
  unfold getGreatestVersion ListAllVersions Client.List
  cases c.nextFault with
  | some e => rfl
  | none =>
    simp only
    cases mustCompileNamePattern engine p.deploymentName "-\\d+$" with
    | none => rfl
    | some re =>
      simp only
      cases greatestVersionLoop engine p _ 0 <;> rfl

/-- With a deployment name no version of which passes `secretName`, a call of
`PersistManifest` lists and does nothing else: no secret is handed to `Create`,
and the store is as it was. -/
theorem persistManifest_invalid_no_write {M : Type} (engine : RegexpEngine)
    (yamlMarshal : M → Except Error Bytes) (p : ManifestPersisterImpl) (manifest : M)
    (sourceDescription : String) (c : Client)
    (hbad : ∀ v, ∃ e, secretName p v = .error e) :
    (PersistManifest engine yamlMarshal p manifest sourceDescription c).client
        = c.record (.list .secret p.ns) ∧
      ∀ secret err c1, PersistManifest engine yamlMarshal p manifest sourceDescription c
        ≠ .returned (some secret, err) c1 := by
  have hcl := getGreatestVersion_client engine p c
  constructor
  · unfold PersistManifest
    cases hg : getGreatestVersion engine p c with
    | panicked c0 => rw [hg] at hcl; exact hcl
    | returned r c0 =>
      rw [hg] at hcl
      cases r with
      | error e => exact hcl
      | ok g =>
        obtain ⟨e, he⟩ := hbad (wrapInt (g + 1))
        simp only [he]
        exact hcl
  · intro secret err c1 h
    obtain ⟨g, c0, name, data, _, hn, _⟩ :=
      PersistManifest_inv engine yamlMarshal p manifest sourceDescription c c1 secret err h
    obtain ⟨e, he⟩ := hbad (wrapInt (g + 1))
    rw [he] at hn
    cases hn

/-! ## The name check in characters -/

theorem utf8Size_pos (c : Char) : 1 ≤ c.utf8Size := by
  unfold Char.utf8Size
  simp only
  split
  · exact le_refl _
  · split
    · decide
    · split <;> decide

theorem utf8Size_of_allowed (c : Char) (h : allowedChar c = true) : c.utf8Size = 1 := by
  have hle : c.val ≤ UInt32.ofNatCore 127 (by decide) := by
    unfold allowedChar at h
    simp only [Bool.or_eq_true, Bool.and_eq_true, decide_eq_true_eq] at h
    have hz : c ≤ 'z' → c.val ≤ UInt32.ofNatCore 127 (by decide) := fun hz => by
      have h1 : c.val.toNat ≤ 'z'.val.toNat := hz
      have h2 : 'z'.val.toNat ≤ (UInt32.ofNatCore 127 (by decide)).toNat := by decide
      exact Nat.le_trans h1 h2
    have h9 : c ≤ '9' → c.val ≤ UInt32.ofNatCore 127 (by decide) := fun hz => by
      have h1 : c.val.toNat ≤ '9'.val.toNat := hz
      have h2 : '9'.val.toNat ≤ (UInt32.ofNatCore 127 (by decide)).toNat := by decide
      exact Nat.le_trans h1 h2
    rcases h with ((h | h) | h) | h
    · exact hz h.2
    · exact h9 h.2
    · subst h; decide
    · subst h; decide
  unfold Char.utf8Size
  simp only
  rw [if_pos hle]

theorem utf8ByteSize_go_ge (l : List Char) : l.length ≤ String.utf8ByteSize.go l := by
  induction l with
  | nil => exact le_refl _
  | cons c l ih =>
    show l.length + 1 ≤ String.utf8ByteSize.go l + c.utf8Size
    have := utf8Size_pos c
    omega

theorem utf8ByteSize_go_allowed (l : List Char) (h : ∀ c ∈ l, allowedChar c = true) :
    String.utf8ByteSize.go l = l.length := by
  induction l with
  | nil => rfl
  | cons c l ih =>
    show String.utf8ByteSize.go l + c.utf8Size = l.length + 1
    rw [ih (fun x hx => h x (List.mem_cons_of_mem _ hx)),
      utf8Size_of_allowed c (h c (List.mem_cons_self _ _))]

/-- The function `secretName` in terms of characters: it returns the proposed
name when that has at most 253 characters, all of them lower case letters,
digits, dots or dashes, and an error otherwise. -/
theorem secretName_iff (p : ManifestPersisterImpl) (v : Int) (n : String) :
    secretName p v = .ok n ↔
      n = "deployment-" ++ p.deploymentName ++ "-" ++ Itoa v ∧ n.length ≤ 253 ∧
        ∀ c ∈ n.data, allowedChar c = true := by
  constructor
  · intro h
    obtain ⟨h1, h2, h3⟩ := secretName_ok p v n h
    refine ⟨h1, ?_, h3⟩
    have := utf8ByteSize_go_allowed n.data h3
    have h4 : n.utf8ByteSize = n.length := this
    omega
  · rintro ⟨h1, h2, h3⟩
    subst h1
    have h4 : ("deployment-" ++ p.deploymentName ++ "-" ++ Itoa v).utf8ByteSize
        = ("deployment-" ++ p.deploymentName ++ "-" ++ Itoa v).length :=
      utf8ByteSize_go_allowed _ h3
    unfold secretName
    simp only
    rw [if_neg (by omega), if_neg]
    simp only [List.any_eq_true, not_exists, not_and]
    intro c hc
    simp [h3 c hc]

theorem secretName_total (p : ManifestPersisterImpl) (v : Int) :
    (∃ n, secretName p v = .ok n) ∨ ∃ e, secretName p v = .error e := by
  cases h : secretName p v with
  | ok n => exact Or.inl ⟨n, rfl⟩
  | error e => exact Or.inr ⟨e, rfl⟩

/-- A deployment name with a character outside the allowed set passes
`secretName` at no version. -/
theorem secretName_error_of_char (p : ManifestPersisterImpl) (ch : Char)
    (hch : ch ∈ p.deploymentName.data) (hbad : allowedChar ch = false) (v : Int) :
    ∃ e, secretName p v = .error e := by
  rcases secretName_total p v with ⟨n, hn⟩ | h
  · have := secretName_allowed p v n hn ch hch
    rw [hbad] at this
    cases this
  · exact h

/-- A derived identifier of more than 253 characters does not pass `secretName`. -/
theorem secretName_error_of_length (p : ManifestPersisterImpl) (v : Int)
    (hlen : 253 < ("deployment-" ++ p.deploymentName ++ "-" ++ Itoa v).length) :
    ∃ e, secretName p v = .error e := by
  rcases secretName_total p v with ⟨n, hn⟩ | h
  · obtain ⟨h1, h2, _⟩ := (secretName_iff p v n).1 hn
    subst h1
    omega
  · exact h

/-! ## Immutability of a stored version -/

theorem Create_objects (c : Client) (o : Object) :
    ((c.Create o).1 = none ∧ c.lookup o.kind o.metadata.ns o.metadata.name = none ∧
        (c.Create o).2.objects = c.objects ++ [o]) ∨
      ((c.Create o).1 ≠ none ∧ (c.Create o).2.objects = c.objects) := by
  unfold Client.Create
  cases c.nextFault with
  | some e => exact Or.inr ⟨by simp, rfl⟩
  | none =>
    cases h : c.lookup o.kind o.metadata.ns o.metadata.name with
    | some x => exact Or.inr ⟨by simp, rfl⟩
    | none => exact Or.inl ⟨rfl, rfl, rfl⟩

/-- A call of `PersistManifest` leaves the stored objects in place and adds at
most one, under a key that was free. -/
theorem PersistManifest_objects {M : Type} (engine : RegexpEngine)
    (yamlMarshal : M → Except Error Bytes) (p : ManifestPersisterImpl) (manifest : M)
    (sourceDescription : String) (c : Client) :
    (PersistManifest engine yamlMarshal p manifest sourceDescription c).client.objects = c.objects ∨
      ∃ o, c.lookup o.kind o.metadata.ns o.metadata.name = none ∧
        (PersistManifest engine yamlMarshal p manifest sourceDescription c).client.objects
          = c.objects ++ [o] := by
  have hcl := getGreatestVersion_client engine p c
  unfold PersistManifest
  cases hg : getGreatestVersion engine p c with
  | panicked c0 => rw [hg] at hcl; left; show c0.objects = _; rw [show c0 = _ from hcl]; rfl
  | returned r c0 =>
    rw [hg] at hcl
    have hc0 : c0 = c.record (.list .secret p.ns) := hcl
    cases r with
    | error e => left; show c0.objects = _; rw [hc0]; rfl
    | ok g =>
      simp only
      cases secretName p (wrapInt (g + 1)) with
      | error e => left; show c0.objects = _; rw [hc0]; rfl
      | ok name =>
        simp only
        cases yamlMarshal manifest with
        | error e => left; show c0.objects = _; rw [hc0]; rfl
        | ok data =>
          simp only
          rcases Create_objects c0 (.secret (manifestSecret p name (wrapInt (g + 1))
            sourceDescription data)) with ⟨_, h2, h3⟩ | ⟨_, h3⟩
          · right
            refine ⟨.secret (manifestSecret p name (wrapInt (g + 1)) sourceDescription data),
              ?_, ?_⟩
            · rw [hc0] at h2; exact h2
            · show (c0.Create _).2.objects = _
              rw [h3, hc0]; rfl
          · left
            show (c0.Create _).2.objects = _
            rw [h3, hc0]; rfl

theorem lookup_congr (c c1 : Client) (h : c1.objects = c.objects) (k : Kind) (ns name : String) :
    c1.lookup k ns name = c.lookup k ns name := by
  unfold Client.lookup
  rw [h]

theorem lookup_append (objs extra : List Object) (k : Kind) (ns name : String) (o : Object)
    (h : objs.find? (fun o => o.hasKey k ns name) = some o) :
    (objs ++ extra).find? (fun o => o.hasKey k ns name) = some o := by
  rw [List.find?_append, h]
  rfl

/-- A run of `PersistManifest` calls keeps every stored object under its key. -/
theorem persistSeq_lookup {M : Type} (engine : RegexpEngine)
    (yamlMarshal : M → Except Error Bytes) (p : ManifestPersisterImpl)
    (k : Kind) (ns name : String) (o : Object) :
    ∀ (later : List (M × String)) (c : Client), c.lookup k ns name = some o →
      (persistSeq engine yamlMarshal p later c).lookup k ns name = some o := by
  intro later
  induction later with
  | nil => intro c h; exact h
  | cons x rest ih =>
    intro c h
    obtain ⟨manifest, sourceDescription⟩ := x
    show (persistSeq engine yamlMarshal p rest _).lookup k ns name = some o
    apply ih
    rcases PersistManifest_objects engine yamlMarshal p manifest sourceDescription c with h1 | ⟨x, _, h1⟩
    · rw [lookup_congr c _ h1]; exact h
    · unfold Client.lookup
      rw [h1]
      exact lookup_append _ _ _ _ _ _ h

/-- What a successful `RetrieveVersion` read. -/
theorem RetrieveVersion_ok_iff (p : ManifestPersisterImpl) (v : Int) (c : Client) (s : Secret) :
    (RetrieveVersion p v c).1 = (some s, none) ↔
      ∃ name, secretName p v = .ok name ∧ c.nextFault = none ∧
        c.lookup .secret p.ns name = some (.secret s) := by
  unfold RetrieveVersion
  cases hn : secretName p v with
  | error e => simp
  | ok name =>
    simp only [Except.ok.injEq, exists_eq_left']
    unfold getSecret Client.Get
    cases hf : c.nextFault with
    | some e => simp
    | none =>
      cases hl : c.lookup .secret p.ns name with
      | none => simp
      | some o =>
        have hk := (lookup_some _ _ _ _ _ hl).2.1
        cases o with
        | secret s' => simp
        | pod _ => cases hk
        | statefulSet _ => cases hk
        | replicaSet _ => cases hk
        | deployment _ => cases hk

/-- Claim C3 (immutability): a version that `RetrieveVersion` read is read back
unchanged, the same secret and so the same payload, after any later run of
`PersistManifest` calls, whatever those calls end in. -/
theorem retrieveVersion_immutable {M : Type} (engine : RegexpEngine)
    (yamlMarshal : M → Except Error Bytes) (p : ManifestPersisterImpl) (v : Int)
    (c : Client) (s : Secret) (later : List (M × String)) (c1 c2 : Client)
    (h : (RetrieveVersion p v c).1 = (some s, none))
    (h1 : c1.objects = c.objects)
    (h2 : c2.objects = (persistSeq engine yamlMarshal p later c1).objects)
    (hf : c2.nextFault = none) :
    (RetrieveVersion p v c2).1 = (some s, none) := by
  obtain ⟨name, hn, _, hl⟩ := (RetrieveVersion_ok_iff p v c s).1 h
  refine (RetrieveVersion_ok_iff p v c2 s).2 ⟨name, hn, hf, ?_⟩
  rw [lookup_congr _ _ h2]
  apply persistSeq_lookup
  rw [lookup_congr _ _ h1]
  exact hl


/-- Witness for C3: version 1 of deployment `x` is read back unchanged after two
more calls of `PersistManifest`. -/
theorem retrieveVersion_immutable_witness :
    (RetrieveVersion ⟨"ns", "x"⟩ 1 (reliable [.secret versionOne])).1
      = (some versionOne, none) ∧
    (RetrieveVersion ⟨"ns", "x"⟩ 1
        (reliable (persistSeq noEngine unitMarshal ⟨"ns", "x"⟩ [((), "crd"), ((), "crd")]
          (reliable [.secret versionOne])).objects)).1
      = (some versionOne, none) :=
  ⟨by decide,
    retrieveVersion_immutable noEngine unitMarshal ⟨"ns", "x"⟩ 1
      (reliable [.secret versionOne]) versionOne [((), "crd"), ((), "crd")]
      (reliable [.secret versionOne])
      (reliable (persistSeq noEngine unitMarshal ⟨"ns", "x"⟩ [((), "crd"), ((), "crd")]
          (reliable [.secret versionOne])).objects)
      (by decide) rfl rfl rfl⟩

/-! ## Deletion -/

theorem Delete_ok (c c1 : Client) (o : Object) (h : c.Delete o = (none, c1)) :
    c1.objects = c.objects.filter
      (fun x => !x.hasKey o.kind o.metadata.ns o.metadata.name) := by
  unfold Client.Delete at h
  cases hf : c.nextFault with
  | some e => rw [hf] at h; simp only at h; injection h with h1 _; cases h1
  | none =>
    rw [hf] at h
    simp only at h
    cases hl : c.lookup o.kind o.metadata.ns o.metadata.name with
    | none => rw [hl] at h; simp only at h; injection h with h1 _; cases h1
    | some x =>
      rw [hl] at h
      simp only at h
      injection h with _ h2
      rw [← h2]

/-- After a `deleteLoop` without an error no object is left under the key of a
secret of the list, and every object left was there before. -/
theorem deleteLoop_ok : ∀ (l : List Secret) (c c1 : Client), deleteLoop l c = (none, c1) →
    c1.objects = c.objects.filter
      (fun x => l.all (fun s => !x.hasKey .secret s.metadata.ns s.metadata.name)) := by
  intro l
  induction l with
  | nil =>
    intro c c1 h
    unfold deleteLoop at h
    injection h with _ h2
    rw [← h2]
    simp
  | cons s l ih =>
    intro c c1 h
    unfold deleteLoop at h
    cases hd : c.Delete (.secret s) with
    | mk e c0 =>
      rw [hd] at h
      cases e with
      | some err => simp only at h; injection h with h1 _; cases h1
      | none =>
        simp only at h
        rw [ih c0 c1 h, Delete_ok c c0 _ hd, List.filter_filter]
        congr 1
        funext x
        simp only [List.all_cons, Object.kind, Object.metadata]
        rw [Bool.and_comm]

theorem versionsIn_nil_lookup (p : ManifestPersisterImpl)
    (hp : ∀ c ∈ p.deploymentName.data, allowedChar c = true) (objects : List Object)
    (h : versionsIn p objects = []) (v : Nat) :
    (reliable objects).lookup .secret p.ns
      ("deployment-" ++ p.deploymentName ++ "-" ++ Itoa (v : Int)) = none := by
  cases hl : (reliable objects).lookup .secret p.ns
      ("deployment-" ++ p.deploymentName ++ "-" ++ Itoa (v : Int)) with
  | none => rfl
  | some o =>
    exfalso
    obtain ⟨hmem, hk, hns, hname⟩ := lookup_some _ _ _ _ _ hl
    cases o with
    | secret s =>
      have hs : s ∈ versionsIn p objects :=
        (mem_versionsIn p _ s).2 ⟨hmem, Or.inr hns, by
          have : s.metadata.name = _ := hname
          rw [this]; exact matchesPattern_nameOf _ hp _⟩
      rw [h] at hs
      cases hs
    | pod _ => cases hk
    | statefulSet _ => cases hk
    | replicaSet _ => cases hk
    | deployment _ => cases hk

/-- After `DeleteManifest` returned without an error, for a deployment name that
passes `secretName` at version 0: the listing is empty and the latest version is
not found, under the name of version 0. -/
theorem DeleteManifest_empties (engine : RegexpEngine) (p : ManifestPersisterImpl)
    (c c1 : Client) (name : String)
    (hname : secretName p 0 = .ok name)
    (h : DeleteManifest engine p c = .returned none c1) :
    ListAllVersions engine p (reliable c1.objects)
        = .returned (.ok []) ((reliable c1.objects).record (.list .secret p.ns)) ∧
      RetrieveLatestVersion engine p (reliable c1.objects)
        = .returned (some {}, some (.notFound name))
            (((reliable c1.objects).record (.list .secret p.ns)).record
              (.get .secret p.ns name)) := by
  have hp := secretName_allowed p _ name hname
  have hnil : versionsIn p c1.objects = [] := by
    unfold DeleteManifest at h
    cases hf : c.nextFault with
    | some e =>
      unfold ListAllVersions Client.List at h
      simp only [hf] at h
      cases h
    | none =>
      rw [ListAllVersions_of_allowed engine p hp c hf] at h
      simp only at h
      cases hd : deleteLoop (versionsIn p c.objects) (c.record (.list .secret p.ns)) with
      | mk e c2 =>
        rw [hd] at h
        simp only at h
        injection h with h1 h2
        subst h1
        subst h2
        have hobj := deleteLoop_ok _ _ _ hd
        rw [List.eq_nil_iff_forall_not_mem]
        intro s hs
        obtain ⟨hmem, hns, hm⟩ := (mem_versionsIn p _ s).1 hs
        rw [hobj] at hmem
        obtain ⟨hmem0, hall⟩ := List.mem_filter.1 hmem
        have hs0 : s ∈ versionsIn p c.objects := (mem_versionsIn p _ s).2 ⟨hmem0, hns, hm⟩
        have := List.all_eq_true.1 hall s hs0
        simp [Object.hasKey, Object.kind, Object.metadata] at this
  have hl := ListAllVersions_of_allowed engine p hp (reliable c1.objects) rfl
  have hl2 : ListAllVersions engine p (reliable c1.objects)
      = .returned (.ok []) ((reliable c1.objects).record (.list .secret p.ns)) := by
    rw [hl]
    show Outcome.returned (Except.ok (versionsIn p c1.objects)) _ = _
    rw [hnil]
  refine ⟨hl2, ?_⟩
  have hn := (secretName_ok p _ name hname).1
  have hlk := versionsIn_nil_lookup p hp c1.objects hnil 0
  rw [show ((0 : Nat) : Int) = 0 from rfl, ← hn] at hlk
  unfold RetrieveLatestVersion getGreatestVersion
  rw [hl2]
  simp only [greatestVersionLoop]
  unfold RetrieveVersion
  rw [hname]
  simp only
  unfold getSecret Client.Get
  have hlk2 : ((reliable c1.objects).record (.list .secret p.ns)).lookup .secret p.ns name
      = none := hlk
  rw [hlk2]
  rfl

/-! ## DecorateManifest -/

theorem mapGet_mapSet_self (m : StrMap) (k v : String) : mapGet (mapSet m k v) k = some v := by
  induction m with
  | nil => simp [mapSet, mapGet]
  | cons a m ih =>
    obtain ⟨k', v'⟩ := a
    unfold mapSet
    by_cases h : k' = k
    · rw [if_pos h]; simp [mapGet]
    · rw [if_neg h]; unfold mapGet; rw [if_neg h]; exact ih

theorem mapGet_mapSet_other (m : StrMap) (k v k2 : String) (hne : k2 ≠ k) :
    mapGet (mapSet m k v) k2 = mapGet m k2 := by
  induction m with
  | nil =>
    unfold mapSet mapGet
    rw [if_neg (fun h => hne h.symm)]
    rfl
  | cons a m ih =>
    obtain ⟨k', v'⟩ := a
    unfold mapSet
    by_cases h : k' = k
    · rw [if_pos h]
      unfold mapGet
      rw [if_neg (fun h2 => hne h2.symm), if_neg (fun h2 => hne (h2.symm.trans h))]
    · rw [if_neg h]
      unfold mapGet
      by_cases h2 : k' = k2
      · rw [if_pos h2, if_pos h2]
      · rw [if_neg h2, if_neg h2]; exact ih

/-- Claim C9, as amended: on a client without pending failures, when every
listed name ends in an integer that fits Go's `int` and the store holds, in the
persister's namespace, the secret under the identifier that `secretName` derives
from the greatest of those integers, `DecorateManifest` lists, reads that secret
and submits one update: the secret read with the label `key` set to `value`,
every other label, the annotations, the data, the name and the namespace
unchanged; in the store only the object under that key is replaced. -/
theorem decorateManifest_labels_latest (engine : RegexpEngine) (p : ManifestPersisterImpl)
    (key value : String) (c : Client) (name : String) (secret : Secret)
    (hf : c.faults = [])
    (hb : ∀ s ∈ versionsIn p c.objects, trailingInteger s.metadata.name ≤ 9223372036854775807)
    (hname : secretName p (specGreatestVersion p c.objects : Int) = .ok name)
    (hlatest : c.lookup .secret p.ns name = some (.secret secret)) :
    ∃ (updated : Secret) (c1 : Client),
      DecorateManifest engine p key value c = .returned (some updated, none) c1 ∧
      c1.calls = c.calls ++
        [.list .secret p.ns, .get .secret p.ns name, .update (.secret updated)] ∧
      c1.objects = c.objects.map
        (fun x => if x.hasKey .secret p.ns name then .secret updated else x) ∧
      mapGet updated.metadata.labels key = some value ∧
      (∀ k, k ≠ key → mapGet updated.metadata.labels k = mapGet secret.metadata.labels k) ∧
      updated.metadata.annotations = secret.metadata.annotations ∧
      updated.data = secret.data ∧
      updated.metadata.name = secret.metadata.name ∧
      updated.metadata.ns = secret.metadata.ns ∧
      updated.metadata.ownerReferences = secret.metadata.ownerReferences := by
  have hp := secretName_allowed p _ name hname
  have hnf : c.nextFault = none := by unfold Client.nextFault; rw [hf]
  have hget := getGreatestVersion_spec engine p hp c hnf hb
  obtain ⟨_, _, hns, hnm⟩ := lookup_some _ _ _ _ _ hlatest
  have hns' : secret.metadata.ns = p.ns := hns
  have hnm' : secret.metadata.name = name := hnm
  have hg : getSecret (c.record (.list .secret p.ns)) p.ns name
      = (.ok secret, (c.record (.list .secret p.ns)).record (.get .secret p.ns name)) := by
    unfold getSecret Client.Get
    have h1 : (c.record (.list .secret p.ns)).nextFault = none := by
      unfold Client.nextFault Client.record; rw [hf]; rfl
    have h2 : (c.record (.list .secret p.ns)).lookup .secret p.ns name
        = some (.secret secret) := hlatest
    rw [h1, h2]
  have hu : ((c.record (.list .secret p.ns)).record (.get .secret p.ns name)).Update
      (.secret (secret.setLabels (mapSet secret.metadata.labels key value)))
      = (none, Client.mk
          (c.objects.map (fun x => if x.hasKey .secret p.ns name then
              .secret (secret.setLabels (mapSet secret.metadata.labels key value)) else x))
          []
          (c.calls ++ [.list .secret p.ns, .get .secret p.ns name,
            .update (.secret (secret.setLabels (mapSet secret.metadata.labels key value)))])) := by
    unfold Client.Update
    have h1 : ((c.record (.list .secret p.ns)).record (.get .secret p.ns name)).nextFault
        = none := by
      unfold Client.nextFault Client.record; rw [hf]; rfl
    have h2 : ((c.record (.list .secret p.ns)).record (.get .secret p.ns name)).lookup
        (Object.secret (secret.setLabels (mapSet secret.metadata.labels key value))).kind
        (Object.secret (secret.setLabels (mapSet secret.metadata.labels key value))).metadata.ns
        (Object.secret (secret.setLabels (mapSet secret.metadata.labels key value))).metadata.name
        = some (.secret secret) := by
      show c.lookup .secret secret.metadata.ns secret.metadata.name = _
      rw [hns', hnm']
      exact hlatest
    rw [h1, h2]
    simp only [Object.kind, Object.metadata, Secret.setLabels, hns', hnm', Client.record, hf,
      List.tail_nil, List.append_assoc, List.singleton_append, List.cons_append,
      List.nil_append]
  refine ⟨secret.setLabels (mapSet secret.metadata.labels key value), Client.mk
      (c.objects.map (fun x => if x.hasKey .secret p.ns name then
          .secret (secret.setLabels (mapSet secret.metadata.labels key value)) else x))
      []
      (c.calls ++ [.list .secret p.ns, .get .secret p.ns name,
        .update (.secret (secret.setLabels (mapSet secret.metadata.labels key value)))]),
    ?_, rfl, rfl,
    mapGet_mapSet_self _ _ _, fun k hk => mapGet_mapSet_other _ _ _ k hk,
    rfl, rfl, rfl, rfl, rfl⟩
  unfold DecorateManifest
  rw [hget]
  simp only [hname]
  rw [hg]
  simp only
  rw [hu]

/-- Witness for C9: decorating version 1 of deployment `x` with `ready` set to
`true`. -/
theorem decorateManifest_labels_latest_witness :
    ∃ (updated : Secret) (c1 : Client),
      DecorateManifest noEngine ⟨"ns", "x"⟩ "ready" "true" (reliable [.secret versionOne])
        = .returned (some updated, none) c1 ∧
      c1.calls = [] ++
        [.list .secret "ns", .get .secret "ns" "deployment-x-1", .update (.secret updated)] ∧
      c1.objects = [Object.secret versionOne].map
        (fun x => if x.hasKey .secret "ns" "deployment-x-1" then .secret updated else x) ∧
      mapGet updated.metadata.labels "ready" = some "true" ∧
      (∀ k, k ≠ "ready" → mapGet updated.metadata.labels k = mapGet versionOne.metadata.labels k) ∧
      updated.metadata.annotations = versionOne.metadata.annotations ∧
      updated.data = versionOne.data ∧
      updated.metadata.name = versionOne.metadata.name ∧
      updated.metadata.ns = versionOne.metadata.ns ∧
      updated.metadata.ownerReferences = versionOne.metadata.ownerReferences :=
  decorateManifest_labels_latest noEngine ⟨"ns", "x"⟩ "ready" "true"
    (reliable [.secret versionOne]) "deployment-x-1" versionOne rfl (by decide) (by decide)
    (by decide)

/-! ## A run of creations -/

theorem foldr_max_le (l : List Nat) (k : Nat) (h : ∀ x ∈ l, x ≤ k) : l.foldr max 0 ≤ k := by
  induction l with
  | nil => exact Nat.zero_le _
  | cons a l ih =>
    rw [List.foldr_cons]
    exact max_le (h a (List.mem_cons_self _ _)) (ih (fun x hx => h x (List.mem_cons_of_mem _ hx)))

theorem VersionsUpTo.bound {p : ManifestPersisterImpl} {objects : List Object} {k : Nat}
    (h : VersionsUpTo p objects k) :
    ∀ s ∈ versionsIn p objects, trailingInteger s.metadata.name ≤ k := by
  intro s hs
  obtain ⟨v, _, hv, hn⟩ := h.1 s hs
  rw [hn, trailingInteger_nameOf]
  exact hv

theorem VersionsUpTo.greatest {p : ManifestPersisterImpl} {objects : List Object} {k : Nat}
    (h : VersionsUpTo p objects k) : specGreatestVersion p objects = k := by
  apply le_antisymm
  · unfold specGreatestVersion
    apply foldr_max_le
    intro x hx
    obtain ⟨s, hs, rfl⟩ := List.mem_map.1 hx
    exact h.bound s hs
  · by_cases hk : k = 0
    · omega
    · obtain ⟨s, hs, hn⟩ := h.2.1 k (by omega) (le_refl _)
      have := le_specGreatest p objects s hs
      rw [hn, trailingInteger_nameOf] at this
      exact this

theorem versionsIn_append (p : ManifestPersisterImpl) (a b : List Object) :
    versionsIn p (a ++ b) = versionsIn p a ++ versionsIn p b := by
  unfold versionsIn secretsOf
  rw [List.filter_append, List.filterMap_append, List.filter_append]

theorem inNamespace_secret (ns : String) (s : Secret) :
    inNamespace ns (.secret s) = true ↔ (ns = "" ∨ s.metadata.ns = ns) := by
  unfold inNamespace
  rw [Bool.or_eq_true, decide_eq_true_eq, decide_eq_true_eq]
  rfl

theorem versionsIn_singleton (p : ManifestPersisterImpl) (s : Secret) :
    versionsIn p [.secret s] =
      if (p.ns = "" ∨ s.metadata.ns = p.ns) ∧
        matchesPattern p.deploymentName s.metadata.name = true
      then [s] else [] := by
  unfold versionsIn secretsOf
  by_cases h1 : p.ns = "" ∨ s.metadata.ns = p.ns
  · have hin : inNamespace p.ns (.secret s) = true := (inNamespace_secret p.ns s).2 h1
    by_cases h2 : matchesPattern p.deploymentName s.metadata.name = true
    · rw [if_pos ⟨h1, h2⟩]
      simp [Object.kind, hin, h2]
    · rw [if_neg (fun h => h2 h.2)]
      simp [Object.kind, hin, h2]
  · have hin : inNamespace p.ns (.secret s) = false := by
      cases hv : inNamespace p.ns (.secret s) with
      | false => rfl
      | true => exact absurd ((inNamespace_secret p.ns s).1 hv) h1
    rw [if_neg (fun h => h1 h.1)]
    simp [Object.kind, hin]

/-- Adding the secret of version `k + 1`. -/
theorem VersionsUpTo.step {p : ManifestPersisterImpl} {objects : List Object} {k : Nat}
    (h : VersionsUpTo p objects k)
    (hp : ∀ c ∈ p.deploymentName.data, allowedChar c = true) (s : Secret)
    (hns : s.metadata.ns = p.ns)
    (hname : s.metadata.name
      = "deployment-" ++ p.deploymentName ++ "-" ++ Itoa ((k + 1 : Nat) : Int)) :
    VersionsUpTo p (objects ++ [.secret s]) (k + 1) := by
  have hm : matchesPattern p.deploymentName s.metadata.name = true := by
    rw [hname]; exact matchesPattern_nameOf _ hp _
  have hv : versionsIn p (objects ++ [.secret s]) = versionsIn p objects ++ [s] := by
    rw [versionsIn_append, versionsIn_singleton, if_pos ⟨Or.inr hns, hm⟩]
  refine ⟨?_, ?_, ?_⟩
  · intro x hx
    rw [hv] at hx
    rcases List.mem_append.1 hx with hx | hx
    · obtain ⟨v, h1, h2, h3⟩ := h.1 x hx
      exact ⟨v, h1, by omega, h3⟩
    · rw [List.mem_singleton] at hx
      subst hx
      exact ⟨k + 1, by omega, le_refl _, hname⟩
  · intro v h1 h2
    rw [hv]
    by_cases hvk : v ≤ k
    · obtain ⟨x, hx, hn⟩ := h.2.1 v h1 hvk
      exact ⟨x, List.mem_append_left _ hx, hn⟩
    · have : v = k + 1 := by omega
      subst this
      exact ⟨s, List.mem_append_right _ (List.mem_singleton.2 rfl), hname⟩
  · rw [hv, List.length_append, h.2.2]
    rfl

theorem lookup_append_new (c : Client) (o : Object)
    (h : c.lookup o.kind o.metadata.ns o.metadata.name = none) :
    (c.objects ++ [o]).find? (fun x => x.hasKey o.kind o.metadata.ns o.metadata.name)
      = some o := by
  unfold Client.lookup at h
  rw [List.find?_append, h]
  simp [Object.hasKey]

/-- One successful `PersistManifest` on a store that holds the versions
`1 .. k`: it creates version `k + 1`. -/
theorem PersistManifest_step {M : Type} (engine : RegexpEngine)
    (yamlMarshal : M → Except Error Bytes) (p : ManifestPersisterImpl) (manifest : M)
    (sourceDescription : String) (c c1 : Client) (secret : Secret) (k : Nat)
    (hinv : VersionsUpTo p c.objects k) (hk : k < 9223372036854775807)
    (h : PersistManifest engine yamlMarshal p manifest sourceDescription c
      = .returned (some secret, none) c1) :
    VersionsUpTo p c1.objects (k + 1) ∧
      secretName p ((k + 1 : Nat) : Int)
        = .ok ("deployment-" ++ p.deploymentName ++ "-" ++ Itoa ((k + 1 : Nat) : Int)) ∧
      c1.lookup .secret p.ns ("deployment-" ++ p.deploymentName ++ "-" ++ Itoa ((k + 1 : Nat) : Int))
        = some (.secret secret) ∧
      ∃ data, yamlMarshal manifest = .ok data ∧
        secret = manifestSecret p
          ("deployment-" ++ p.deploymentName ++ "-" ++ Itoa ((k + 1 : Nat) : Int))
          ((k + 1 : Nat) : Int) sourceDescription data := by
  obtain ⟨g, c0, name, data, hg, hn, hd, hs, hc⟩ :=
    PersistManifest_inv engine yamlMarshal p manifest sourceDescription c c1 secret none h
  have hp := secretName_allowed p _ name hn
  have hf := getGreatestVersion_ok_fault engine p c c0 g hg
  rw [getGreatestVersion_spec engine p hp c hf
    (fun s hs => le_trans (hinv.bound s hs) (by omega))] at hg
  injection hg with hg1 hg2
  injection hg1 with hg1
  subst hg1
  subst hg2
  rw [hinv.greatest] at hn hs
  have hcast : ((k : Nat) : Int) + 1 = ((k + 1 : Nat) : Int) := by push_cast; rfl
  rw [wrapInt_of_range _ (by omega) (by omega), hcast] at hn hs
  have hname := (secretName_ok p _ name hn).1
  subst hname
  have hsn : secret.metadata.name
      = "deployment-" ++ p.deploymentName ++ "-" ++ Itoa ((k + 1 : Nat) : Int) := by
    rw [hs]; rfl
  have hsns : secret.metadata.ns = p.ns := by rw [hs]; rfl
  rcases Create_objects (c.record (.list .secret p.ns)) (.secret secret) with
    ⟨_, h2, h3⟩ | ⟨h1, _⟩
  · rw [hc] at h3
    have h3' : c1.objects = c.objects ++ [.secret secret] := h3
    refine ⟨?_, hn, ?_, data, hd, hs⟩
    · rw [h3']
      exact hinv.step hp secret hsns hsn
    · unfold Client.lookup
      rw [h3', ← hsn, ← hsns]
      exact lookup_append_new c (.secret secret) h2
  · rw [hc] at h1
    exact absurd rfl h1

/-- A successful run of `PersistManifest` calls from a store that holds the
versions `1 .. k` leaves the versions `1 .. k + n`, and the secret of its last
call is stored under the identifier of version `k + n`. -/
theorem persistAll_run {M : Type} (engine : RegexpEngine)
    (yamlMarshal : M → Except Error Bytes) (p : ManifestPersisterImpl) :
    ∀ (ms : List (M × String)) (c c1 : Client) (last last1 : Option Secret) (k : Nat),
      VersionsUpTo p c.objects k → k + ms.length ≤ 9223372036854775807 →
      persistAll engine yamlMarshal p ms (c, last) = some (c1, last1) →
      VersionsUpTo p c1.objects (k + ms.length) ∧
        ∀ m src, ms.getLast? = some (m, src) →
          ∃ secret data, last1 = some secret ∧ yamlMarshal m = .ok data ∧
            secretName p ((k + ms.length : Nat) : Int)
              = .ok ("deployment-" ++ p.deploymentName ++ "-" ++ Itoa ((k + ms.length : Nat) : Int)) ∧
            c1.lookup .secret p.ns
              ("deployment-" ++ p.deploymentName ++ "-" ++ Itoa ((k + ms.length : Nat) : Int))
              = some (.secret secret) ∧
            secret = manifestSecret p
              ("deployment-" ++ p.deploymentName ++ "-" ++ Itoa ((k + ms.length : Nat) : Int))
              ((k + ms.length : Nat) : Int) src data := by
  intro ms
  induction ms with
  | nil =>
    intro c c1 last last1 k hinv _ hrun
    unfold persistAll at hrun
    injection hrun with hrun
    injection hrun with h1 h2
    subst h1
    refine ⟨hinv, ?_⟩
    intro m src hl
    cases hl
  | cons x rest ih =>
    intro c c1 last last1 k hinv hk hrun
    obtain ⟨manifest, sourceDescription⟩ := x
    rw [List.length_cons] at hk
    unfold persistAll at hrun
    cases hpm : PersistManifest engine yamlMarshal p manifest sourceDescription c with
    | panicked c0 => rw [hpm] at hrun; cases hrun
    | returned r c0 =>
      rw [hpm] at hrun
      obtain ⟨os, oe⟩ := r
      cases os with
      | none => cases hrun
      | some secret =>
        cases oe with
        | some e => cases hrun
        | none =>
          simp only at hrun
          obtain ⟨hinv1, hsn, hlk, data, hd, hs⟩ :=
            PersistManifest_step engine yamlMarshal p manifest sourceDescription c c0 secret k
              hinv (by omega) hpm
          have hlen : k + (rest.length + 1) = (k + 1) + rest.length := by omega
          cases rest with
          | nil =>
            unfold persistAll at hrun
            injection hrun with hrun
            injection hrun with h1 h2
            subst h1
            subst h2
            refine ⟨hinv1, ?_⟩
            intro m src hl
            have hm : (manifest, sourceDescription) = (m, src) := by
              simpa using hl
            injection hm with hm1 hm2
            subst hm1
            subst hm2
            exact ⟨secret, data, rfl, hd, hsn, hlk, hs⟩
          | cons y rest2 =>
            have := ih c0 c1 (some secret) last1 (k + 1) hinv1 (by
              simp only [List.length_cons] at hk ⊢; omega) hrun
            rw [List.length_cons, hlen]
            refine ⟨this.1, ?_⟩
            intro m src hl
            apply this.2 m src
            rw [List.getLast?_cons_cons] at hl
            exact hl

theorem VersionsUpTo.zero (p : ManifestPersisterImpl) (objects : List Object)
    (h : versionsIn p objects = []) : VersionsUpTo p objects 0 := by
  refine ⟨?_, ?_, ?_⟩
  · intro s hs; rw [h] at hs; cases hs
  · intro v h1 h2; omega
  · rw [h]; rfl

theorem getVersion_nameOf (engine : RegexpEngine) (p : ManifestPersisterImpl)
    (hp : ∀ c ∈ p.deploymentName.data, allowedChar c = true) (v : Nat)
    (hv : v ≤ 9223372036854775807) :
    getVersionFromSecretName engine p
      ("deployment-" ++ p.deploymentName ++ "-" ++ Itoa (v : Int)) = some (.ok (v : Int)) := by
  rw [getVersion_of_match engine p hp _ (matchesPattern_nameOf _ hp v), trailingInteger_nameOf,
    if_pos hv]

/-- Claim C2 (version monotonicity): for a deployment name of allowed characters
and a run of N successful `PersistManifest` calls from a store in which the
listing finds no secret matching the pattern (N below 2^63: each call of the run
stores a secret, and the version is a Go `int`), the listing then holds N
secrets, the versions parsed from their names are exactly 1 .. N, and
`RetrieveLatestVersion` returns the secret of the last call, which is version N
and holds the last payload. -/
theorem persistAll_versions {M : Type} (engine : RegexpEngine)
    (yamlMarshal : M → Except Error Bytes) (p : ManifestPersisterImpl)
    (ms : List (M × String)) (c c1 : Client) (last : Option Secret)
    (hp : ∀ ch ∈ p.deploymentName.data, allowedChar ch = true)
    (hstart : versionsIn p c.objects = [])
    (hN : ms.length < 9223372036854775808)
    (hrun : persistAll engine yamlMarshal p ms (c, none) = some (c1, last)) :
    ∃ list : List Secret,
      ListAllVersions engine p (reliable c1.objects)
        = .returned (.ok list) ((reliable c1.objects).record (.list .secret p.ns)) ∧
      list.length = ms.length ∧
      (∀ s ∈ list, ∃ v : Nat, 1 ≤ v ∧ v ≤ ms.length ∧
        getVersionFromSecretName engine p s.metadata.name = some (.ok (v : Int))) ∧
      (∀ v : Nat, 1 ≤ v → v ≤ ms.length → ∃ s ∈ list,
        getVersionFromSecretName engine p s.metadata.name = some (.ok (v : Int))) ∧
      (∀ m src, ms.getLast? = some (m, src) →
        ∃ secret data, last = some secret ∧ yamlMarshal m = .ok data ∧
          secret = manifestSecret p
            ("deployment-" ++ p.deploymentName ++ "-" ++ Itoa (ms.length : Int))
            (ms.length : Int) src data ∧
          RetrieveLatestVersion engine p (reliable c1.objects)
            = .returned (some secret, none)
                (((reliable c1.objects).record (.list .secret p.ns)).record
                  (.get .secret p.ns
                    ("deployment-" ++ p.deploymentName ++ "-" ++ Itoa (ms.length : Int))))) := by
  obtain ⟨hinv, hlast⟩ := persistAll_run engine yamlMarshal p ms c c1 none last 0
    (VersionsUpTo.zero p _ hstart) (by omega) hrun
  rw [Nat.zero_add] at hinv hlast
  refine ⟨versionsIn p c1.objects, ListAllVersions_of_allowed engine p hp _ rfl, hinv.2.2, ?_, ?_,
    ?_⟩
  · intro s hs
    obtain ⟨v, h1, h2, h3⟩ := hinv.1 s hs
    exact ⟨v, h1, h2, by rw [h3]; exact getVersion_nameOf engine p hp v (by omega)⟩
  · intro v h1 h2
    obtain ⟨s, hs, h3⟩ := hinv.2.1 v h1 h2
    exact ⟨s, hs, by rw [h3]; exact getVersion_nameOf engine p hp v (by omega)⟩
  · intro m src hl
    obtain ⟨secret, data, h1, h2, h3, h4, h5⟩ := hlast m src hl
    refine ⟨secret, data, h1, h2, h5, ?_⟩
    have hget := getGreatestVersion_spec engine p hp (reliable c1.objects) rfl
      (fun s hs => le_trans (hinv.bound s hs) (by omega))
    have hg : specGreatestVersion p (reliable c1.objects).objects = ms.length := hinv.greatest
    rw [hg] at hget
    unfold RetrieveLatestVersion
    rw [hget]
    simp only
    unfold RetrieveVersion
    rw [h3]
    simp only
    unfold getSecret Client.Get
    have hl2 : ((reliable c1.objects).record (.list .secret p.ns)).lookup .secret p.ns
        ("deployment-" ++ p.deploymentName ++ "-" ++ Itoa (ms.length : Int))
        = some (.secret secret) := h4
    rw [hl2]
    rfl

/-- Witness for C2: two successful calls for deployment `x` from the empty store
leave a listing of two secrets. -/
theorem persistAll_versions_witness :
    ∃ list : List Secret,
      ListAllVersions noEngine ⟨"ns", "x"⟩
          (reliable [.secret (manifestSecret ⟨"ns", "x"⟩ "deployment-x-1" 1 "one" []),
            .secret (manifestSecret ⟨"ns", "x"⟩ "deployment-x-2" 2 "two" [])])
        = .returned (.ok list) ((reliable
            [.secret (manifestSecret ⟨"ns", "x"⟩ "deployment-x-1" 1 "one" []),
            .secret (manifestSecret ⟨"ns", "x"⟩ "deployment-x-2" 2 "two" [])]).record
              (.list .secret "ns")) ∧
      list.length = 2 :=
  let h := persistAll_versions noEngine unitMarshal ⟨"ns", "x"⟩ [((), "one"), ((), "two")]
    (reliable [])
    { objects := [.secret (manifestSecret ⟨"ns", "x"⟩ "deployment-x-1" 1 "one" []),
        .secret (manifestSecret ⟨"ns", "x"⟩ "deployment-x-2" 2 "two" [])]
      faults := []
      calls := [.list .secret "ns",
        .create (.secret (manifestSecret ⟨"ns", "x"⟩ "deployment-x-1" 1 "one" [])),
        .list .secret "ns",
        .create (.secret (manifestSecret ⟨"ns", "x"⟩ "deployment-x-2" 2 "two" []))] }
    (some (manifestSecret ⟨"ns", "x"⟩ "deployment-x-2" 2 "two" []))
    (by decide) (by decide) (by decide) (by decide)
  ⟨h.choose, h.choose_spec.1, h.choose_spec.2.1⟩

/-! ## A run past the greatest int -/

theorem persistAll_cons {M : Type} (engine : RegexpEngine)
    (yamlMarshal : M → Except Error Bytes) (p : ManifestPersisterImpl) (m : M) (src : String)
    (rest : List (M × String)) (st : Client × Option Secret) :
    persistAll engine yamlMarshal p ((m, src) :: rest) st =
      match PersistManifest engine yamlMarshal p m src st.1 with
      | .returned (some secret, none) c1 => persistAll engine yamlMarshal p rest (c1, some secret)
      | _ => none := rfl

theorem persistAll_append {M : Type} (engine : RegexpEngine)
    (yamlMarshal : M → Except Error Bytes) (p : ManifestPersisterImpl) :
    ∀ (a b : List (M × String)) (st : Client × Option Secret),
      persistAll engine yamlMarshal p (a ++ b) st
        = (persistAll engine yamlMarshal p a st).bind (persistAll engine yamlMarshal p b) := by
  intro a
  induction a with
  | nil => intro b st; rfl
  | cons x a ih =>
    intro b st
    obtain ⟨m, src⟩ := x
    rw [List.cons_append, persistAll_cons, persistAll_cons]
    cases PersistManifest engine yamlMarshal p m src st.1 with
    | panicked c0 => rfl
    | returned r c0 =>
      obtain ⟨os, oe⟩ := r
      cases os with
      | none => rfl
      | some s =>
        cases oe with
        | some e => rfl
        | none => exact ih b _

theorem isDigit_allowed (c : Char) (h : isDigit c = true) : allowedChar c = true := by
  unfold isDigit Char.isDigit at h
  unfold allowedChar
  simp only [Bool.and_eq_true, decide_eq_true_eq, ge_iff_le] at h
  have h1 : '0' ≤ c := h.1
  have h2 : c ≤ '9' := h.2
  simp [h1, h2]

theorem natDigits_length (v : Nat) (hv : v ≤ 9223372036854775807) :
    (natDigits v).length ≤ 19 := by
  have := Nat.repr_length v 19 (by decide) (lt_of_le_of_lt hv (by norm_num))
  exact this

/-- On a client without pending failures whose store holds the versions
`1 .. k`, `PersistManifest` succeeds and appends version `k + 1`. -/
theorem PersistManifest_success {M : Type} (engine : RegexpEngine)
    (yamlMarshal : M → Except Error Bytes) (p : ManifestPersisterImpl) (manifest : M)
    (sourceDescription : String) (c : Client) (k : Nat) (name : String) (data : Bytes)
    (hinv : VersionsUpTo p c.objects k) (hk : k < 9223372036854775807)
    (hf : c.faults = [])
    (hname : secretName p ((k : Int) + 1) = .ok name)
    (hdata : yamlMarshal manifest = .ok data) :
    PersistManifest engine yamlMarshal p manifest sourceDescription c =
      .returned (some (manifestSecret p name ((k : Int) + 1) sourceDescription data), none)
        (Client.mk
          (c.objects ++ [.secret (manifestSecret p name ((k : Int) + 1) sourceDescription data)])
          []
          (c.calls ++ [.list .secret p.ns,
            .create (.secret (manifestSecret p name ((k : Int) + 1) sourceDescription data))])) := by
  have hp := secretName_allowed p _ name hname
  have hnf : c.nextFault = none := by unfold Client.nextFault; rw [hf]
  have hget := getGreatestVersion_spec engine p hp c hnf
    (fun s hs => le_trans (hinv.bound s hs) (by omega))
  rw [hinv.greatest] at hget
  have hw : wrapInt ((k : Int) + 1) = (k : Int) + 1 := wrapInt_of_range _ (by omega) (by omega)
  have hpm := PersistManifest_of_greatest engine yamlMarshal p manifest sourceDescription c _ _
    name data hget (by rw [hw]; exact hname) hdata
  rw [hw] at hpm
  rw [hpm]
  have hlk := lookup_next_none p hp c
  rw [hinv.greatest, ← (secretName_ok p _ name hname).1] at hlk
  have hcr : (c.record (.list .secret p.ns)).Create
      (.secret (manifestSecret p name ((k : Int) + 1) sourceDescription data))
      = (none, Client.mk
          (c.objects ++ [.secret (manifestSecret p name ((k : Int) + 1) sourceDescription data)])
          []
          (c.calls ++ [.list .secret p.ns,
            .create (.secret (manifestSecret p name ((k : Int) + 1) sourceDescription data))])) := by
    unfold Client.Create
    have h1 : (c.record (.list .secret p.ns)).nextFault = none := by
      unfold Client.nextFault Client.record; rw [hf]; rfl
    have h2 : (c.record (.list .secret p.ns)).lookup
        (Object.secret (manifestSecret p name ((k : Int) + 1) sourceDescription data)).kind
        (Object.secret (manifestSecret p name ((k : Int) + 1) sourceDescription data)).metadata.ns
        (Object.secret (manifestSecret p name ((k : Int) + 1) sourceDescription data)).metadata.name
        = none := hlk
    rw [h1, h2]
    simp only [Client.record, hf, List.tail_nil, List.append_assoc, List.singleton_append]
  rw [hcr]

theorem secretName_deploymentX (v : Nat) (hv : v ≤ 9223372036854775807) :
    secretName deploymentX (v : Int)
      = .ok ("deployment-" ++ deploymentX.deploymentName ++ "-" ++ Itoa (v : Int)) := by
  rw [secretName_iff]
  refine ⟨rfl, ?_, ?_⟩
  · have h1 : ("deployment-" ++ deploymentX.deploymentName ++ "-" ++ Itoa (v : Int)).length
        = ("deployment-" ++ deploymentX.deploymentName ++ "-" ++ Itoa (v : Int)).data.length := rfl
    rw [h1, nameOf_data, List.length_append, List.length_cons]
    have := natDigits_length v hv
    have h2 : ("deployment-".data ++ deploymentX.deploymentName.data).length = 12 := by decide
    omega
  · intro c hc
    rw [nameOf_data] at hc
    rcases List.mem_append.1 hc with hc | hc
    · have : ∀ c ∈ "deployment-".data ++ deploymentX.deploymentName.data,
          allowedChar c = true := by decide
      exact this c hc
    · rcases List.mem_cons.1 hc with hc | hc
      · subst hc; decide
      · exact isDigit_allowed c (natDigits_isDigit v c hc)

/-- From a store that holds the versions `1 .. k` of deployment `x` and nothing
else, `n` calls of `PersistManifest` all succeed while `k + n` fits an `int`. -/
theorem persistAll_deploymentX : ∀ (n k : Nat) (c : Client) (last : Option Secret),
    VersionsUpTo deploymentX c.objects k → c.faults = [] → k + n ≤ 9223372036854775807 →
    (∀ o ∈ c.objects, ∃ s, o = .secret s ∧ matchesPattern "x" s.metadata.name = true) →
    ∃ c1 last1,
      persistAll noEngine unitMarshal deploymentX (List.replicate n ((), "crd")) (c, last)
        = some (c1, last1) ∧
      VersionsUpTo deploymentX c1.objects (k + n) ∧ c1.faults = [] ∧
      ∀ o ∈ c1.objects, ∃ s, o = .secret s ∧ matchesPattern "x" s.metadata.name = true := by
  intro n
  induction n with
  | zero =>
    intro k c last hinv hf _ hall
    exact ⟨c, last, rfl, hinv, hf, hall⟩
  | succ n ih =>
    intro k c last hinv hf hk hall
    have hname := secretName_deploymentX (k + 1) (by omega)
    have hcast : ((k + 1 : Nat) : Int) = (k : Int) + 1 := by push_cast; rfl
    rw [hcast] at hname
    have hstep := PersistManifest_success noEngine unitMarshal deploymentX () "crd" c k _ []
      hinv (by omega) hf hname rfl
    rw [List.replicate_succ, persistAll_cons]
    simp only [hstep]
    have hinv1 := hinv.step (by decide)
      (manifestSecret deploymentX ("deployment-" ++ deploymentX.deploymentName ++ "-"
        ++ Itoa ((k : Int) + 1)) ((k : Int) + 1) "crd" []) rfl (by rw [hcast]; rfl)
    obtain ⟨c1, last1, h1, h2, h3, h4⟩ := ih (k + 1) (Client.mk
        (c.objects ++ [.secret (manifestSecret deploymentX
          ("deployment-" ++ deploymentX.deploymentName ++ "-" ++ Itoa ((k : Int) + 1))
          ((k : Int) + 1) "crd" [])])
        []
        (c.calls ++ [.list .secret deploymentX.ns,
          .create (.secret (manifestSecret deploymentX
            ("deployment-" ++ deploymentX.deploymentName ++ "-" ++ Itoa ((k : Int) + 1))
            ((k : Int) + 1) "crd" []))]))
      (some _) hinv1 rfl (by omega) (by
      intro o ho
      rcases List.mem_append.1 ho with ho | ho
      · exact hall o ho
      · rw [List.mem_singleton] at ho
        refine ⟨_, ho, ?_⟩
        show matchesPattern deploymentX.deploymentName
          ("deployment-" ++ deploymentX.deploymentName ++ "-" ++ Itoa ((k : Int) + 1)) = true
        rw [← hcast]
        exact matchesPattern_nameOf _ (by decide) _)
    refine ⟨c1, last1, h1, ?_, h3, h4⟩
    rw [show k + (n + 1) = k + 1 + n by omega]
    exact h2

/-- On a store that holds the versions `1 .. 2^63 - 1` of deployment `x` and
nothing else, `PersistManifest` succeeds with a version that has wrapped around,
under a name the listing does not match. -/
theorem PersistManifest_wrapped (c : Client)
    (hinv : VersionsUpTo deploymentX c.objects 9223372036854775807) (hf : c.faults = [])
    (hall : ∀ o ∈ c.objects, ∃ s, o = .secret s ∧ matchesPattern "x" s.metadata.name = true) :
    PersistManifest noEngine unitMarshal deploymentX () "crd" c =
      .returned (some wrappedSecret, none)
        (Client.mk (c.objects ++ [.secret wrappedSecret]) []
          (c.calls ++ [.list .secret "ns", .create (.secret wrappedSecret)])) := by
  have hnf : c.nextFault = none := by unfold Client.nextFault; rw [hf]
  have hget := getGreatestVersion_spec noEngine deploymentX (by decide) c hnf
    (fun s hs => hinv.bound s hs)
  rw [hinv.greatest] at hget
  have hw : wrapInt (((9223372036854775807 : Nat) : Int) + 1) = -9223372036854775808 := by
    decide
  have hpm := PersistManifest_of_greatest noEngine unitMarshal deploymentX () "crd" c _ _
    "deployment-x--9223372036854775808" [] hget (by rw [hw]; decide) rfl
  rw [hw] at hpm
  rw [hpm]
  have hlk : c.lookup .secret "ns" "deployment-x--9223372036854775808" = none := by
    cases hl : c.lookup .secret "ns" "deployment-x--9223372036854775808" with
    | none => rfl
    | some o =>
      exfalso
      obtain ⟨hmem, _, _, hname⟩ := lookup_some _ _ _ _ _ hl
      obtain ⟨s, hs, hm⟩ := hall o hmem
      subst hs
      have hname' : s.metadata.name = "deployment-x--9223372036854775808" := hname
      rw [hname'] at hm
      revert hm
      decide
  have hcr : (c.record (.list .secret deploymentX.ns)).Create (.secret wrappedSecret)
      = (none, Client.mk (c.objects ++ [.secret wrappedSecret]) []
          (c.calls ++ [.list .secret "ns", .create (.secret wrappedSecret)])) := by
    unfold Client.Create
    have h1 : (c.record (.list .secret deploymentX.ns)).nextFault = none := by
      unfold Client.nextFault Client.record; rw [hf]; rfl
    have h2 : (c.record (.list .secret deploymentX.ns)).lookup (Object.secret wrappedSecret).kind
        (Object.secret wrappedSecret).metadata.ns (Object.secret wrappedSecret).metadata.name
        = none := hlk
    rw [h1, h2]
    simp only [Client.record, hf, List.tail_nil, List.append_assoc, List.singleton_append]
    rfl
  exact congrArg₂ _ (congrArg _ (congrArg Prod.fst hcr)) (congrArg Prod.snd hcr)

/-- Past the greatest `int`, on a store without a bound on its size: 2^63 calls
for deployment `x` from the empty store all succeed, and the listing then holds
2^63 - 1 secrets, as the version of the last call wrapped around to -2^63 and
its name does not match the pattern. -/
theorem persistAll_past_maxInt :
    ∃ (c1 : Client) (last : Option Secret) (list : List Secret),
      versionsIn deploymentX (reliable []).objects = [] ∧
      persistAll noEngine unitMarshal deploymentX
          (List.replicate 9223372036854775808 ((), "crd")) (reliable [], none)
        = some (c1, last) ∧
      ListAllVersions noEngine deploymentX (reliable c1.objects)
        = .returned (.ok list) ((reliable c1.objects).record (.list .secret "ns")) ∧
      list.length = 9223372036854775807 := by
  obtain ⟨c0, last0, h1, hinv, hf, hall⟩ :=
    persistAll_deploymentX 9223372036854775807 0 (reliable []) none
      (VersionsUpTo.zero _ _ rfl) rfl (by omega) (by intro o ho; cases ho)
  rw [Nat.zero_add] at hinv
  have hstep := PersistManifest_wrapped c0 hinv hf hall
  refine ⟨Client.mk (c0.objects ++ [.secret wrappedSecret]) []
      (c0.calls ++ [.list .secret "ns", .create (.secret wrappedSecret)]),
    some wrappedSecret, versionsIn deploymentX (c0.objects ++ [.secret wrappedSecret]),
    rfl, ?_,
    ListAllVersions_of_allowed noEngine deploymentX (by decide)
      (reliable (c0.objects ++ [.secret wrappedSecret])) rfl, ?_⟩
  · rw [show (9223372036854775808 : Nat) = 9223372036854775807 + 1 from rfl,
      List.replicate_succ', persistAll_append, h1]
    show persistAll noEngine unitMarshal deploymentX [((), "crd")] (c0, last0) = _
    rw [persistAll_cons]
    simp only [hstep]
    rfl
  · rw [versionsIn_append, versionsIn_singleton, if_neg (by decide), List.append_nil]
    exact hinv.2.2

/-! ## The client under a reconcile -/

theorem Get_client (c : Client) (k : Kind) (ns name : String) :
    (c.Get k ns name).2 = c.record (.get k ns name) := by
  unfold Client.Get
  cases c.nextFault with
  | some e => rfl
  | none => cases c.lookup k ns name <;> rfl

theorem Get_ok (c : Client) (k : Kind) (ns name : String) (o : Object)
    (h : (c.Get k ns name).1 = .ok o) : c.lookup k ns name = some o := by
  unfold Client.Get at h
  cases hf : c.nextFault with
  | some e => rw [hf] at h; cases h
  | none =>
    rw [hf] at h
    cases hl : c.lookup k ns name with
    | none => rw [hl] at h; cases h
    | some x => rw [hl] at h; injection h with h; rw [h]

theorem getStatefulSet_client (c : Client) (ns name : String) :
    (getStatefulSet c ns name).2 = c.record (.get .statefulSet ns name) := by
  have h := Get_client c .statefulSet ns name
  unfold getStatefulSet
  cases hg : c.Get .statefulSet ns name with
  | mk r c1 =>
    rw [hg] at h
    cases r with
    | error e => exact h
    | ok o => cases o <;> exact h

theorem getStatefulSet_ok (c : Client) (ns name : String) (sts : StatefulSet)
    (h : (getStatefulSet c ns name).1 = .ok sts) :
    c.lookup .statefulSet ns name = some (.statefulSet sts) := by
  have hk := Get_ok c .statefulSet ns name
  unfold getStatefulSet at h
  cases hg : c.Get .statefulSet ns name with
  | mk r c1 =>
    rw [hg] at h hk
    cases r with
    | error e => cases h
    | ok o =>
      cases o with
      | statefulSet x => injection h with h; subst h; exact hk _ rfl
      | secret _ => cases h
      | pod _ => cases h
      | replicaSet _ => cases h
      | deployment _ => cases h

theorem getReplicaSet_client (c : Client) (ns name : String) :
    (getReplicaSet c ns name).2 = c.record (.get .replicaSet ns name) := by
  have h := Get_client c .replicaSet ns name
  unfold getReplicaSet
  cases hg : c.Get .replicaSet ns name with
  | mk r c1 =>
    rw [hg] at h
    cases r with
    | error e => exact h
    | ok o => cases o <;> exact h

theorem getReplicaSet_ok (c : Client) (ns name : String) (rs : ReplicaSet)
    (h : (getReplicaSet c ns name).1 = .ok rs) :
    c.lookup .replicaSet ns name = some (.replicaSet rs) := by
  have hk := Get_ok c .replicaSet ns name
  unfold getReplicaSet at h
  cases hg : c.Get .replicaSet ns name with
  | mk r c1 =>
    rw [hg] at h hk
    cases r with
    | error e => cases h
    | ok o =>
      cases o with
      | replicaSet x => injection h with h; subst h; exact hk _ rfl
      | secret _ => cases h
      | pod _ => cases h
      | statefulSet _ => cases h
      | deployment _ => cases h

theorem getDeployment_client (c : Client) (ns name : String) :
    (getDeployment c ns name).2 = c.record (.get .deployment ns name) := by
  have h := Get_client c .deployment ns name
  unfold getDeployment
  cases hg : c.Get .deployment ns name with
  | mk r c1 =>
    rw [hg] at h
    cases r with
    | error e => exact h
    | ok o => cases o <;> exact h

theorem getDeployment_ok (c : Client) (ns name : String) (d : Deployment)
    (h : (getDeployment c ns name).1 = .ok d) :
    c.lookup .deployment ns name = some (.deployment d) := by
  have hk := Get_ok c .deployment ns name
  unfold getDeployment at h
  cases hg : c.Get .deployment ns name with
  | mk r c1 =>
    rw [hg] at h hk
    cases r with
    | error e => cases h
    | ok o =>
      cases o with
      | deployment x => injection h with h; subst h; exact hk _ rfl
      | secret _ => cases h
      | pod _ => cases h
      | statefulSet _ => cases h
      | replicaSet _ => cases h

theorem getPod_client (c : Client) (ns name : String) :
    (getPod c ns name).2 = c.record (.get .pod ns name) := by
  have h := Get_client c .pod ns name
  unfold getPod
  cases hg : c.Get .pod ns name with
  | mk r c1 =>
    rw [hg] at h
    cases r with
    | error e => exact h
    | ok o => cases o <;> exact h

theorem getPod_found (c : Client) (ns name : String) (pod : Pod)
    (hf : c.nextFault = none) (hl : c.lookup .pod ns name = some (.pod pod)) :
    getPod c ns name = (.ok pod, c.record (.get .pod ns name)) := by
  unfold getPod Client.Get
  rw [hf, hl]

theorem Update_calls (c : Client) (o : Object) :
    (c.Update o).2.calls = c.calls ++ [.update o] := by
  unfold Client.Update
  cases c.nextFault with
  | some e => rfl
  | none => cases c.lookup o.kind o.metadata.ns o.metadata.name <;> rfl

theorem find_map_other (l : List Object) (o : Object) (k : Kind) (ns name : String)
    (hk : o.kind ≠ k) :
    (l.map (fun x => if x.hasKey o.kind o.metadata.ns o.metadata.name then o else x)).find?
        (fun x => x.hasKey k ns name)
      = l.find? (fun x => x.hasKey k ns name) := by
  induction l with
  | nil => rfl
  | cons a l ih =>
    rw [List.map_cons, List.find?_cons, List.find?_cons, ih]
    by_cases ha : a.hasKey o.kind o.metadata.ns o.metadata.name = true
    · rw [if_pos ha]
      have h1 : o.hasKey k ns name = false := by simp [Object.hasKey, hk]
      have h2 : a.hasKey k ns name = false := by
        have hak : a.kind = o.kind := by
          simp only [Object.hasKey, Bool.and_eq_true, decide_eq_true_eq] at ha
          exact ha.1.1
        simp [Object.hasKey, hak, hk]
      rw [h1, h2]
    · rw [if_neg ha]

/-- An `Update` of an object of another kind leaves every lookup of kind `k`. -/
theorem Update_lookup_other (c : Client) (o : Object) (k : Kind) (ns name : String)
    (hk : o.kind ≠ k) : (c.Update o).2.lookup k ns name = c.lookup k ns name := by
  unfold Client.Update
  cases c.nextFault with
  | some e => rfl
  | none =>
    cases c.lookup o.kind o.metadata.ns o.metadata.name with
    | none => rfl
    | some x => exact find_map_other c.objects o k ns name hk

/-! ## Touching the owners -/

theorem restart_annotation_set (env : Collaborators) (m : StrMap) (t : Time) :
    mapGet (UnionMaps m ( restartAnnotation env t)) (RestartKey env)
      = some (Itoa (unixSeconds t)) :=
  mapGet_mapSet_self m _ _

/-- What `touchStatefulSet` does to the client, and what a successful one issued. -/
theorem touchStatefulSet_spec (env : Collaborators) (ns name : String) (w : World) :
    ∃ new : List Call,
      (touchStatefulSet env ns name w).2.client.calls = w.client.calls ++ new ∧
      (∀ o, Call.update o ∈ new → o.kind ≠ .replicaSet) ∧
      (∀ ns1 n1, (touchStatefulSet env ns name w).2.client.lookup .replicaSet ns1 n1
        = w.client.lookup .replicaSet ns1 n1) ∧
      ((touchStatefulSet env ns name w).1 = none →
        ∃ sts : StatefulSet, sts.metadata.name = name ∧ sts.metadata.ns = ns ∧
          Call.update (.statefulSet (sts.touched env w.clock.now)) ∈ new) := by
  have hc := getStatefulSet_client w.client ns name
  have hok := getStatefulSet_ok w.client ns name
  unfold touchStatefulSet
  cases hg : getStatefulSet w.client ns name with
  | mk r c1 =>
    rw [hg] at hc hok
    have hc1 : c1 = w.client.record (.get .statefulSet ns name) := hc
    subst hc1
    cases r with
    | error e =>
      refine ⟨[.get .statefulSet ns name], rfl, ?_, fun _ _ => rfl, ?_⟩
      · intro o ho; simp at ho
      · intro h; cases h
    | ok sts =>
      have hl := hok sts rfl
      obtain ⟨_, _, hns, hnm⟩ := lookup_some _ _ _ _ _ hl
      refine ⟨[.get .statefulSet ns name, .update (.statefulSet (sts.touched env w.clock.now))],
        ?_, ?_, ?_, ?_⟩
      · show ((w.client.record (.get .statefulSet ns name)).Update _).2.calls = _
        rw [Update_calls]
        simp [Client.record, Clock.read]
      · intro o ho
        simp at ho
        subst ho
        simp [Object.kind]
      · intro ns1 n1
        show ((w.client.record (.get .statefulSet ns name)).Update _).2.lookup _ _ _ = _
        rw [Update_lookup_other _ _ _ _ _ (by simp [Object.kind])]
        rfl
      · intro _
        exact ⟨sts, hnm, hns, by simp⟩

/-- What `touchDeployment` does to the client, and what a successful one issued. -/
theorem touchDeployment_spec (env : Collaborators) (ns name : String) (w : World) :
    ∃ new : List Call,
      (touchDeployment env ns name w).2.client.calls = w.client.calls ++ new ∧
      (∀ o, Call.update o ∈ new → o.kind ≠ .replicaSet) ∧
      (∀ ns1 n1, (touchDeployment env ns name w).2.client.lookup .replicaSet ns1 n1
        = w.client.lookup .replicaSet ns1 n1) ∧
      ((touchDeployment env ns name w).1 = none →
        ∀ (rs : ReplicaSet) (ref : OwnerReference),
          w.client.lookup .replicaSet ns name = some (.replicaSet rs) →
          rs.metadata.ownerReferences.find? (fun ref => decide (ref.kind = "Deployment"))
            = some ref →
          ∃ d : Deployment, d.metadata.name = ref.name ∧ d.metadata.ns = rs.metadata.ns ∧
            Call.update (.deployment (d.touched env w.clock.now)) ∈ new) := by
  have hc := getReplicaSet_client w.client ns name
  have hok := getReplicaSet_ok w.client ns name
  unfold touchDeployment
  cases hg : getReplicaSet w.client ns name with
  | mk r c1 =>
    rw [hg] at hc hok
    have hc1 : c1 = w.client.record (.get .replicaSet ns name) := hc
    subst hc1
    cases r with
    | error e =>
      refine ⟨[.get .replicaSet ns name], rfl, ?_, fun _ _ => rfl, ?_⟩
      · intro o ho; simp at ho
      · intro h; cases h
    | ok rs =>
      have hl := hok rs rfl
      simp only
      unfold findDeployment
      cases hfd : rs.metadata.ownerReferences.find? (fun ref => decide (ref.kind = "Deployment")) with
      | none =>
        refine ⟨[.get .replicaSet ns name], rfl, ?_, fun _ _ => rfl, ?_⟩
        · intro o ho; simp at ho
        · intro h; cases h
      | some dref =>
        simp only
        have hdc := getDeployment_client (w.client.record (.get .replicaSet ns name))
          rs.metadata.ns dref.name
        have hdok := getDeployment_ok (w.client.record (.get .replicaSet ns name))
          rs.metadata.ns dref.name
        cases hgd : getDeployment (w.client.record (.get .replicaSet ns name))
            rs.metadata.ns dref.name with
        | mk r2 c2 =>
          rw [hgd] at hdc hdok
          have hc2 : c2 = (w.client.record (.get .replicaSet ns name)).record
              (.get .deployment rs.metadata.ns dref.name) := hdc
          subst hc2
          cases r2 with
          | error e =>
            refine ⟨[.get .replicaSet ns name, .get .deployment rs.metadata.ns dref.name],
              ?_, ?_, fun _ _ => rfl, ?_⟩
            · simp [Client.record]
            · intro o ho; simp at ho
            · intro h; cases h
          | ok d =>
            have hld := hdok d rfl
            obtain ⟨_, _, hns, hnm⟩ := lookup_some _ _ _ _ _ hld
            refine ⟨[.get .replicaSet ns name, .get .deployment rs.metadata.ns dref.name,
              .update (.deployment (d.touched env w.clock.now))], ?_, ?_, ?_, ?_⟩
            · show (Client.Update _ _).2.calls = _
              rw [Update_calls]
              simp [Client.record, Clock.read]
            · intro o ho
              simp at ho
              subst ho
              simp [Object.kind]
            · intro ns1 n1
              show (Client.Update _ _).2.lookup _ _ _ = _
              rw [Update_lookup_other _ _ _ _ _ (by simp [Object.kind])]
              rfl
            · intro _ rs' ref hl' hf'
              rw [hl] at hl'
              injection hl' with hl'
              injection hl' with hl'
              subst hl'
              rw [hfd] at hf'
              injection hf' with hf'
              subst hf'
              exact ⟨d, hnm, hns, by simp⟩

theorem touchOwners_cons (env : Collaborators) (ns : String) (ref : OwnerReference)
    (rest : List OwnerReference) (w : World) :
    touchOwners env ns (ref :: rest) w =
      if ref.kind = "StatefulSet" then
        match touchStatefulSet env ns ref.name w with
        | (some err, w1) => (some err, w1)
        | (none, w1) => touchOwners env ns rest w1
      else if ref.kind = "ReplicaSet" then
        match touchDeployment env ns ref.name w with
        | (some err, w1) => (some err, w1)
        | (none, w1) => touchOwners env ns rest w1
      else
        touchOwners env ns rest w := rfl

/-- What the loop over the owner references does to the client, and what it
issued when no touch failed. -/
theorem touchOwners_spec (env : Collaborators) (ns : String) :
    ∀ (refs : List OwnerReference) (w : World),
    ∃ new : List Call,
      (touchOwners env ns refs w).2.client.calls = w.client.calls ++ new ∧
      (∀ o, Call.update o ∈ new → o.kind ≠ .replicaSet) ∧
      (∀ ns1 n1, (touchOwners env ns refs w).2.client.lookup .replicaSet ns1 n1
        = w.client.lookup .replicaSet ns1 n1) ∧
      ((touchOwners env ns refs w).1 = none →
        (∀ ref ∈ refs, ref.kind = "StatefulSet" →
          ∃ (sts : StatefulSet) (t : Time), sts.metadata.name = ref.name ∧
            sts.metadata.ns = ns ∧ Call.update (.statefulSet (sts.touched env t)) ∈ new) ∧
        (∀ ref ∈ refs, ref.kind = "ReplicaSet" →
          ∀ (rs : ReplicaSet) (dref : OwnerReference),
            w.client.lookup .replicaSet ns ref.name = some (.replicaSet rs) →
            rs.metadata.ownerReferences.find? (fun ref => decide (ref.kind = "Deployment"))
              = some dref →
            ∃ (d : Deployment) (t : Time), d.metadata.name = dref.name ∧
              d.metadata.ns = rs.metadata.ns ∧
              Call.update (.deployment (d.touched env t)) ∈ new)) := by
  intro refs
  induction refs with
  | nil =>
    intro w
    refine ⟨[], by simp [touchOwners], ?_, fun _ _ => rfl, ?_⟩
    · intro o ho; cases ho
    · intro _
      exact ⟨fun ref h => (by cases h), fun ref h => (by cases h)⟩
  | cons ref rest ih =>
    intro w
    by_cases hs : ref.kind = "StatefulSet"
    · obtain ⟨new1, h1, h2, h3, h4⟩ := touchStatefulSet_spec env ns ref.name w
      rw [touchOwners_cons, if_pos hs]
      cases ht : touchStatefulSet env ns ref.name w with
      | mk e w1 =>
        rw [ht] at h1 h3 h4
        cases e with
        | some err =>
          refine ⟨new1, h1, h2, h3, ?_⟩
          intro h; cases h
        | none =>
          obtain ⟨new2, g1, g2, g3, g4⟩ := ih w1
          refine ⟨new1 ++ new2, ?_, ?_, ?_, ?_⟩
          · show (touchOwners env ns rest w1).2.client.calls = _
            rw [g1, show w1.client.calls = _ from h1, List.append_assoc]
          · intro o ho
            rcases List.mem_append.1 ho with ho | ho
            · exact h2 o ho
            · exact g2 o ho
          · intro ns1 n1
            show (touchOwners env ns rest w1).2.client.lookup _ _ _ = _
            rw [g3, show w1.client.lookup _ _ _ = _ from h3 ns1 n1]
          · intro hnone
            obtain ⟨f1, f2⟩ := g4 hnone
            constructor
            · intro r hr hk
              rcases List.mem_cons.1 hr with hr | hr
              · subst hr
                obtain ⟨sts, a1, a2, a3⟩ := h4 rfl
                exact ⟨sts, w.clock.now, a1, a2, List.mem_append_left _ a3⟩
              · obtain ⟨sts, t, a1, a2, a3⟩ := f1 r hr hk
                exact ⟨sts, t, a1, a2, List.mem_append_right _ a3⟩
            · intro r hr hk rs dref hl hf
              rcases List.mem_cons.1 hr with hr | hr
              · subst hr
                rw [hs] at hk
                exact absurd hk (by decide)
              · have hl' : w1.client.lookup .replicaSet ns r.name = some (.replicaSet rs) := by
                  rw [show w1.client.lookup _ _ _ = _ from h3 ns r.name]; exact hl
                obtain ⟨d, t, a1, a2, a3⟩ := f2 r hr hk rs dref hl' hf
                exact ⟨d, t, a1, a2, List.mem_append_right _ a3⟩
    · by_cases hr : ref.kind = "ReplicaSet"
      · obtain ⟨new1, h1, h2, h3, h4⟩ := touchDeployment_spec env ns ref.name w
        rw [touchOwners_cons, if_neg hs, if_pos hr]
        cases ht : touchDeployment env ns ref.name w with
        | mk e w1 =>
          rw [ht] at h1 h3 h4
          cases e with
          | some err =>
            refine ⟨new1, h1, h2, h3, ?_⟩
            intro h; cases h
          | none =>
            obtain ⟨new2, g1, g2, g3, g4⟩ := ih w1
            refine ⟨new1 ++ new2, ?_, ?_, ?_, ?_⟩
            · show (touchOwners env ns rest w1).2.client.calls = _
              rw [g1, show w1.client.calls = _ from h1, List.append_assoc]
            · intro o ho
              rcases List.mem_append.1 ho with ho | ho
              · exact h2 o ho
              · exact g2 o ho
            · intro ns1 n1
              show (touchOwners env ns rest w1).2.client.lookup _ _ _ = _
              rw [g3, show w1.client.lookup _ _ _ = _ from h3 ns1 n1]
            · intro hnone
              obtain ⟨f1, f2⟩ := g4 hnone
              constructor
              · intro r hr' hk
                rcases List.mem_cons.1 hr' with hr' | hr'
                · subst hr'
                  exact absurd hk hs
                · obtain ⟨sts, t, a1, a2, a3⟩ := f1 r hr' hk
                  exact ⟨sts, t, a1, a2, List.mem_append_right _ a3⟩
              · intro r hr' hk rs dref hl hf
                rcases List.mem_cons.1 hr' with hr' | hr'
                · subst hr'
                  obtain ⟨d, a1, a2, a3⟩ := h4 rfl rs dref hl hf
                  exact ⟨d, w.clock.now, a1, a2, List.mem_append_left _ a3⟩
                · have hl' : w1.client.lookup .replicaSet ns r.name = some (.replicaSet rs) := by
                    rw [show w1.client.lookup _ _ _ = _ from h3 ns r.name]; exact hl
                  obtain ⟨d, t, a1, a2, a3⟩ := f2 r hr' hk rs dref hl' hf
                  exact ⟨d, t, a1, a2, List.mem_append_right _ a3⟩
      · rw [touchOwners_cons, if_neg hs, if_neg hr]
        obtain ⟨new2, g1, g2, g3, g4⟩ := ih w
        refine ⟨new2, g1, g2, g3, ?_⟩
        intro hnone
        obtain ⟨f1, f2⟩ := g4 hnone
        constructor
        · intro r hr' hk
          rcases List.mem_cons.1 hr' with hr' | hr'
          · subst hr'; exact absurd hk hs
          · exact f1 r hr' hk
        · intro r hr' hk
          rcases List.mem_cons.1 hr' with hr' | hr'
          · subst hr'; exact absurd hk hr
          · exact f2 r hr' hk

/-! ## Reconcile and the owners -/

theorem callsSince_append (c c1 : Client) (new : List Call) (h : c1.calls = c.calls ++ new) :
    callsSince c c1 = new := by
  unfold callsSince
  rw [h, List.drop_left]

/-- A reconcile that gets as far as the owners: the pod is found, it is outside
its meltdown window and entangled. -/
theorem Reconcile_walk (env : Collaborators) (r : ReconcileRestart) (request : Request)
    (w : World) (pod : Pod)
    (hf : w.client.nextFault = none)
    (hpod : w.client.lookup .pod request.ns request.name = some (.pod pod))
    (hwin : env.windowContains r.config.MeltdownDuration pod.metadata.annotations w.clock.now
      = false)
    (hent : env.validEntanglement pod.metadata.annotations = true) :
    Reconcile env r request w =
      match touchOwners env request.ns pod.metadata.ownerReferences
          { client := w.client.record (.get .pod request.ns request.name),
            clock := w.clock.read.2 } with
      | (some _, w2) => (({}, none), w2)
      | (none, w2) =>
        (({}, none),
          { client := (w2.client.Update (.pod (pod.stamped env w2.clock.now))).2,
            clock := w2.clock.read.2 }) := by
  unfold Reconcile
  rw [getPod_found _ _ _ pod hf hpod]
  simp only [Clock.read, hwin, hent, Bool.not_true, Bool.false_eq_true, if_false]

/-- Claim C10 (ownership resolution): for a stored pod outside its meltdown
window and entangled, when no touch of the run fails, `Reconcile` issues for
every owner reference of kind StatefulSet an update of the stateful set of that
name with the restart annotation set in its template, for every owner reference
of kind ReplicaSet an update of the deployment that the stored replica set names
as its owner, with the restart annotation set in its template, and no update of
a replica set. -/
theorem reconcile_touches_owners (env : Collaborators) (r : ReconcileRestart)
    (request : Request) (w : World) (pod : Pod)
    (hf : w.client.nextFault = none)
    (hpod : w.client.lookup .pod request.ns request.name = some (.pod pod))
    (hwin : env.windowContains r.config.MeltdownDuration pod.metadata.annotations w.clock.now
      = false)
    (hent : env.validEntanglement pod.metadata.annotations = true)
    (hok : (touchOwners env request.ns pod.metadata.ownerReferences
        { client := w.client.record (.get .pod request.ns request.name),
          clock := w.clock.read.2 }).1 = none) :
    (∀ ref ∈ pod.metadata.ownerReferences, ref.kind = "StatefulSet" →
      ∃ (sts : StatefulSet) (t : Time), sts.metadata.name = ref.name ∧
        sts.metadata.ns = request.ns ∧
        Call.update (.statefulSet (sts.touched env t))
          ∈ callsSince w.client (Reconcile env r request w).2.client ∧
        (sts.touched env t).metadata = sts.metadata ∧
        mapGet (sts.touched env t).template.annotations (RestartKey env)
          = some (Itoa (unixSeconds t))) ∧
    (∀ ref ∈ pod.metadata.ownerReferences, ref.kind = "ReplicaSet" →
      ∀ (rs : ReplicaSet) (dref : OwnerReference),
        w.client.lookup .replicaSet request.ns ref.name = some (.replicaSet rs) →
        rs.metadata.ownerReferences.find? (fun ref => decide (ref.kind = "Deployment"))
          = some dref →
        ∃ (d : Deployment) (t : Time), d.metadata.name = dref.name ∧
          d.metadata.ns = rs.metadata.ns ∧
          Call.update (.deployment (d.touched env t))
            ∈ callsSince w.client (Reconcile env r request w).2.client ∧
          (d.touched env t).metadata = d.metadata ∧
          mapGet (d.touched env t).template.annotations (RestartKey env)
            = some (Itoa (unixSeconds t))) ∧
    (∀ o, Call.update o ∈ callsSince w.client (Reconcile env r request w).2.client →
      o.kind ≠ .replicaSet) := by
  obtain ⟨new, h1, h2, h3, h4⟩ := touchOwners_spec env request.ns pod.metadata.ownerReferences
    { client := w.client.record (.get .pod request.ns request.name), clock := w.clock.read.2 }
  obtain ⟨f1, f2⟩ := h4 hok
  have hcalls : ∃ stamped : Pod, (Reconcile env r request w).2.client.calls = w.client.calls ++
      ([.get .pod request.ns request.name] ++ new ++ [.update (.pod stamped)]) := by
    rw [Reconcile_walk env r request w pod hf hpod hwin hent]
    cases ht : touchOwners env request.ns pod.metadata.ownerReferences
        { client := w.client.record (.get .pod request.ns request.name),
          clock := w.clock.read.2 } with
    | mk e w2 =>
      rw [ht] at hok h1
      have he : e = none := hok
      subst he
      refine ⟨pod.stamped env w2.clock.now, ?_⟩
      show (w2.client.Update _).2.calls = _
      rw [Update_calls, show w2.client.calls = _ from h1]
      simp only [Client.record, List.append_assoc]
  obtain ⟨stamped, hcalls⟩ := hcalls
  rw [callsSince_append _ _ _ hcalls]
  refine ⟨?_, ?_, ?_⟩
  · intro ref hr hk
    obtain ⟨sts, t, a1, a2, a3⟩ := f1 ref hr hk
    refine ⟨sts, t, a1, a2, ?_, rfl, restart_annotation_set env _ t⟩
    exact List.mem_append_left _ (List.mem_append_right _ a3)
  · intro ref hr hk rs dref hl hfd
    obtain ⟨d, t, a1, a2, a3⟩ := f2 ref hr hk rs dref hl hfd
    refine ⟨d, t, a1, a2, ?_, rfl, restart_annotation_set env _ t⟩
    exact List.mem_append_left _ (List.mem_append_right _ a3)
  · intro o ho
    rcases List.mem_append.1 ho with ho | ho
    · rcases List.mem_append.1 ho with ho | ho
      · simp at ho
      · exact h2 o ho
    · simp at ho
      subst ho
      simp [Object.kind]


/-- Witness for C10: the reconcile of a pod owned by the stateful set `s` and by
the replica set `r` of the deployment `d` updates `s` and `d`. -/
theorem reconcile_touches_owners_witness :
    (∃ (sts : StatefulSet) (t : Time), sts.metadata.name = "s" ∧ sts.metadata.ns = "ns" ∧
        Call.update (.statefulSet (sts.touched sampleEnv t))
          ∈ callsSince sampleWorld.client (Reconcile sampleEnv {} ⟨"ns", "p"⟩ sampleWorld).2.client ∧
        (sts.touched sampleEnv t).metadata = sts.metadata ∧
        mapGet (sts.touched sampleEnv t).template.annotations (RestartKey sampleEnv)
          = some (Itoa (unixSeconds t))) ∧
    (∃ (d : Deployment) (t : Time), d.metadata.name = "d" ∧ d.metadata.ns = "ns" ∧
        Call.update (.deployment (d.touched sampleEnv t))
          ∈ callsSince sampleWorld.client (Reconcile sampleEnv {} ⟨"ns", "p"⟩ sampleWorld).2.client ∧
        (d.touched sampleEnv t).metadata = d.metadata ∧
        mapGet (d.touched sampleEnv t).template.annotations (RestartKey sampleEnv)
          = some (Itoa (unixSeconds t))) :=
  let h := reconcile_touches_owners sampleEnv {} ⟨"ns", "p"⟩ sampleWorld samplePod rfl
    (by decide) rfl rfl (by decide)
  ⟨h.1 ⟨"StatefulSet", "s"⟩ (by decide) rfl,
    h.2.1 ⟨"ReplicaSet", "r"⟩ (by decide) rfl sampleReplicaSet ⟨"Deployment", "d"⟩ (by decide)
      (by decide)⟩

/-! ## Names without metacharacters -/

theorem mustCompile_of_plain (engine : RegexpEngine) (name suffix : String)
    (h : ∀ c ∈ name.data, c = '.' ∨ c ∉ regexpMeta) :
    mustCompileNamePattern engine name suffix =
      some (.fragment (name.data.map Atom.ofChar)) := by
  unfold mustCompileNamePattern
  rw [if_pos]
  rw [List.all_eq_true]
  intro c hc
  rcases h c hc with h1 | h1
  · simp [h1]
  · simp [h1]

theorem fragment_find_shape (atoms : List Atom) (s : String) :
    (NameRegexp.fragment atoms).FindStringSubmatch s = [] ∨
      ∃ rest, (NameRegexp.fragment atoms).FindStringSubmatch s = [s, String.mk rest] := by
  rw [fragment_find]
  cases matchAtoms (stemAtoms atoms) s.data with
  | none => exact Or.inl rfl
  | some rest =>
    by_cases hr : rest ≠ [] ∧ rest.all isDigit = true
    · exact Or.inr ⟨rest, by simp only [if_pos hr]⟩
    · exact Or.inl (by simp only [if_neg hr])

/-- With a deployment name free of metacharacters other than `.`,
`getVersionFromSecretName` does not panic. -/
theorem getVersion_plain (engine : RegexpEngine) (p : ManifestPersisterImpl)
    (h : ∀ c ∈ p.deploymentName.data, c = '.' ∨ c ∉ regexpMeta) (name : String) :
    ∃ r, getVersionFromSecretName engine p name = some r := by
  unfold getVersionFromSecretName
  rw [mustCompile_of_plain engine _ _ h]
  simp only
  rcases fragment_find_shape (p.deploymentName.data.map Atom.ofChar) name with h1 | ⟨rest, h1⟩
  · rw [h1]; exact ⟨_, rfl⟩
  · rw [h1]
    simp only
    cases Atoi (String.mk rest) with
    | error e => exact ⟨_, rfl⟩
    | ok n => exact ⟨_, rfl⟩

theorem greatestVersionLoop_plain (engine : RegexpEngine) (p : ManifestPersisterImpl)
    (h : ∀ c ∈ p.deploymentName.data, c = '.' ∨ c ∉ regexpMeta) :
    ∀ (l : List Secret) (g : Int), ∃ r, greatestVersionLoop engine p l g = some r := by
  intro l
  induction l with
  | nil => intro g; exact ⟨_, rfl⟩
  | cons s l ih =>
    intro g
    obtain ⟨r, hr⟩ := getVersion_plain engine p h s.metadata.name
    unfold greatestVersionLoop
    rw [hr]
    cases r with
    | error e => exact ⟨_, rfl⟩
    | ok v => exact ih _

/-- With a deployment name free of metacharacters other than `.` (an upper
case letter or an underscore are of that kind) no version of which passes
`secretName`, `PersistManifest` returns an error and no secret. -/
theorem persistManifest_invalid_error {M : Type} (engine : RegexpEngine)
    (yamlMarshal : M → Except Error Bytes) (p : ManifestPersisterImpl) (manifest : M)
    (sourceDescription : String) (c : Client)
    (hplain : ∀ c ∈ p.deploymentName.data, c = '.' ∨ c ∉ regexpMeta)
    (hbad : ∀ v, ∃ e, secretName p v = .error e) :
    ∃ err, PersistManifest engine yamlMarshal p manifest sourceDescription c
      = .returned (none, some err) (c.record (.list .secret p.ns)) := by
  unfold PersistManifest getGreatestVersion ListAllVersions Client.List
  cases c.nextFault with
  | some e => exact ⟨e, rfl⟩
  | none =>
    simp only
    rw [mustCompile_of_plain engine _ _ hplain]
    simp only
    obtain ⟨r, hr⟩ := greatestVersionLoop_plain engine p hplain
      ((secretsOf (c.objects.filter
        (fun o => decide (o.kind = .secret) && inNamespace p.ns o))).filter
        (fun secret => (NameRegexp.fragment (p.deploymentName.data.map Atom.ofChar)).MatchString
          secret.metadata.name)) 0
    rw [hr]
    cases r with
    | error e => exact ⟨e, rfl⟩
    | ok g =>
      obtain ⟨e, he⟩ := hbad (wrapInt (g + 1))
      simp only [he]
      exact ⟨e, rfl⟩

theorem append_sep_inj (x : Char) : ∀ (a b d1 d2 : List Char), x ∉ d1 → x ∉ d2 →
    a ++ x :: d1 = b ++ x :: d2 → a = b := by
  intro a
  induction a with
  | nil =>
    intro b d1 d2 h1 h2 h
    cases b with
    | nil => rfl
    | cons y b =>
      exfalso
      rw [List.nil_append, List.cons_append] at h
      injection h with _ h
      apply h1
      rw [h]
      simp
  | cons y a ih =>
    intro b d1 d2 h1 h2 h
    cases b with
    | nil =>
      exfalso
      rw [List.nil_append, List.cons_append] at h
      injection h with _ h
      apply h2
      rw [← h]
      simp
    | cons z b =>
      rw [List.cons_append, List.cons_append] at h
      injection h with hyz h
      rw [hyz, ih b d1 d2 h1 h2 h]

theorem isDigit_not_dash (l : List Char) (h : ∀ c ∈ l, isDigit c = true) : '-' ∉ l := by
  intro hmem
  have := h _ hmem
  revert this
  decide

/-- The pattern of a deployment name without a dot matches no identifier
derived for another deployment name. -/
theorem matchesPattern_other_name (k1 k2 : String) (n : Nat)
    (hdot : ∀ c ∈ k1.data, c ≠ '.') (hne : k1 ≠ k2) :
    matchesPattern k1 ("deployment-" ++ k2 ++ "-" ++ Itoa (n : Int)) = false := by
  cases hm : matchesPattern k1 ("deployment-" ++ k2 ++ "-" ++ Itoa (n : Int)) with
  | false => rfl
  | true =>
    exfalso
    obtain ⟨rest, _, hall, hmatch, _, _⟩ := fragment_match _ _ hm
    have hlit : k1.data.map Atom.ofChar = k1.data.map Atom.lit := by
      apply List.map_congr_left
      intro c hc
      unfold Atom.ofChar
      rw [if_neg (hdot c hc)]
    have hstem : stemAtoms (k1.data.map Atom.ofChar)
        = ("deployment-".data ++ k1.data ++ ['-']).map Atom.lit := by
      unfold stemAtoms
      rw [hlit, List.map_append, List.map_append]
      rfl
    rw [hstem, matchAtoms_lit, nameOf_data] at hmatch
    rw [List.append_assoc, List.append_assoc, List.append_assoc] at hmatch
    have h2 := List.append_cancel_left hmatch
    have h3 : k2.data = k1.data :=
      append_sep_inj '-' _ _ _ _ (isDigit_not_dash _ (natDigits_isDigit n))
        (isDigit_not_dash _ hall) (by simpa using h2)
    exact hne (String.ext h3.symm)

/-! ## The pod is absent -/

/-- The result of a reconcile whose pod lookup fails. -/
theorem Reconcile_pod_error (env : Collaborators) (r : ReconcileRestart) (request : Request)
    (w : World) (err : Error)
    (h : (getPod w.client request.ns request.name).1 = .error err) :
    Reconcile env r request w =
      if IsNotFound err then
        ((Result.mk false 0, none), World.mk (w.client.record (.get .pod request.ns request.name)) w.clock)
      else
        ((Result.mk false 0, some err),
          World.mk (w.client.record (.get .pod request.ns request.name)) w.clock) := by
  have hc := getPod_client w.client request.ns request.name
  unfold Reconcile
  cases hg : getPod w.client request.ns request.name with
  | mk res c1 =>
    rw [hg] at h hc
    have hc1 : c1 = w.client.record (.get .pod request.ns request.name) := hc
    subst hc1
    cases res with
    | ok pod => cases h
    | error e =>
      have he : e = err := by injection h
      subst he
      rfl

/-- Claim C12 (pod absent): when the lookup of the pod fails with NotFound,
`Reconcile` returns the empty result (no requeue, zero delay) and a nil error,
the only call it issued is the lookup, so no object is updated and the store is
as it was; when the lookup fails with any other error, `Reconcile` returns that
error. -/
theorem reconcile_pod_absent (env : Collaborators) (r : ReconcileRestart) (request : Request)
    (w : World) (err : Error)
    (h : (getPod w.client request.ns request.name).1 = .error err) :
    (IsNotFound err = true →
      (Reconcile env r request w).1 = (Result.mk false 0, none) ∧
      callsSince w.client (Reconcile env r request w).2.client
        = [.get .pod request.ns request.name] ∧
      (Reconcile env r request w).2.client.objects = w.client.objects) ∧
    (IsNotFound err = false → (Reconcile env r request w).1.2 = some err) := by
  rw [Reconcile_pod_error env r request w err h]
  constructor
  · intro hnf
    rw [if_pos hnf]
    exact ⟨rfl, callsSince_append _ _ _ rfl, rfl⟩
  · intro hnf
    rw [if_neg (by rw [hnf]; decide)]

/-- Witness for C12: in a store without the pod the lookup fails with NotFound
and the reconcile ends with the empty result and nil; when the lookup times out
the reconcile returns the timeout. -/
theorem reconcile_pod_absent_witness :
    ((Reconcile sampleEnv {} ⟨"ns", "p"⟩ {}).1 = (Result.mk false 0, none) ∧
      callsSince {} (Reconcile sampleEnv {} ⟨"ns", "p"⟩ {}).2.client = [.get .pod "ns" "p"] ∧
      (Reconcile sampleEnv {} ⟨"ns", "p"⟩ {}).2.client.objects = []) ∧
    (Reconcile sampleEnv {} ⟨"ns", "p"⟩ timeoutWorld).1.2
      = some (.api "context deadline exceeded") :=
  ⟨(reconcile_pod_absent sampleEnv {} ⟨"ns", "p"⟩ {} (.notFound "p") rfl).1 rfl,
    (reconcile_pod_absent sampleEnv {} ⟨"ns", "p"⟩ timeoutWorld
      (.api "context deadline exceeded") rfl).2 rfl⟩

/-! ## The skipping branches -/

/-- A reconcile of a stored pod inside its meltdown window. -/
theorem Reconcile_meltdown (env : Collaborators) (r : ReconcileRestart) (request : Request)
    (w : World) (pod : Pod)
    (hf : w.client.nextFault = none)
    (hpod : w.client.lookup .pod request.ns request.name = some (.pod pod))
    (hwin : env.windowContains r.config.MeltdownDuration pod.metadata.annotations w.clock.now
      = true) :
    Reconcile env r request w =
      ((Result.mk false r.config.MeltdownRequeueAfter, none),
        World.mk (w.client.record (.get .pod request.ns request.name)) w.clock.read.2) := by
  unfold Reconcile
  rw [getPod_found _ _ _ pod hf hpod]
  simp only [Clock.read, hwin, if_true]

/-- A reconcile of a stored pod outside its meltdown window whose marker is not
valid. -/
theorem Reconcile_invalid (env : Collaborators) (r : ReconcileRestart) (request : Request)
    (w : World) (pod : Pod)
    (hf : w.client.nextFault = none)
    (hpod : w.client.lookup .pod request.ns request.name = some (.pod pod))
    (hwin : env.windowContains r.config.MeltdownDuration pod.metadata.annotations w.clock.now
      = false)
    (hent : env.validEntanglement pod.metadata.annotations = false) :
    Reconcile env r request w =
      ((Result.mk false 0, none),
        World.mk (w.client.record (.get .pod request.ns request.name)) w.clock.read.2) := by
  unfold Reconcile
  rw [getPod_found _ _ _ pod hf hpod]
  simp only [Clock.read, hwin, hent, Bool.not_false, Bool.false_eq_true, if_false, if_true]

/-- Claim C11, as amended: for a stored pod inside its meltdown window,
`Reconcile` returns no error and a result that asks for a requeue after the
configured `MeltdownRequeueAfter`, whatever the stamp, the duration and the time
are; the only call it issues is the lookup of the pod. -/
theorem reconcile_meltdown_requeue (env : Collaborators) (r : ReconcileRestart)
    (request : Request) (w : World) (pod : Pod)
    (hf : w.client.nextFault = none)
    (hpod : w.client.lookup .pod request.ns request.name = some (.pod pod))
    (hwin : env.windowContains r.config.MeltdownDuration pod.metadata.annotations w.clock.now
      = true) :
    (Reconcile env r request w).1.2 = none ∧
    (Reconcile env r request w).1.1.RequeueAfter = r.config.MeltdownRequeueAfter ∧
    (Reconcile env r request w).1.1.Requeue = false ∧
    callsSince w.client (Reconcile env r request w).2.client
      = [.get .pod request.ns request.name] := by
  rw [Reconcile_meltdown env r request w pod hf hpod hwin]
  exact ⟨rfl, rfl, rfl, callsSince_append _ _ _ rfl⟩

/-- Witness for C11 as amended: a pod stamped at 4 s and reconciled at 5 s under
a meltdown of one minute is requeued after the configured thirty seconds. -/
theorem reconcile_meltdown_requeue_witness :
    (Reconcile meltdownEnv meltdownReconciler ⟨"ns", "p"⟩ meltdownWorld).1.2 = none ∧
    (Reconcile meltdownEnv meltdownReconciler ⟨"ns", "p"⟩ meltdownWorld).1.1.RequeueAfter
      = 30000000000 ∧
    (Reconcile meltdownEnv meltdownReconciler ⟨"ns", "p"⟩ meltdownWorld).1.1.Requeue = false ∧
    callsSince meltdownWorld.client
        (Reconcile meltdownEnv meltdownReconciler ⟨"ns", "p"⟩ meltdownWorld).2.client
      = [.get .pod "ns" "p"] :=
  reconcile_meltdown_requeue meltdownEnv meltdownReconciler ⟨"ns", "p"⟩ meltdownWorld
    meltdownPod rfl (by decide) (by decide)

/-- Counterexample to C11 as stated: with the last reconcile at L = 4 s, a
meltdown duration D = 60 s and the clock at 5 s, the pod is inside its window
and now < L + D, yet the requested delay is the configured 30 s and not
(L + D) - now = 59 s. -/
theorem reconcile_meltdown_delay_counterexample :
    meltdownEnv.windowContains meltdownReconciler.config.MeltdownDuration
        meltdownPod.metadata.annotations meltdownWorld.clock.now = true ∧
    meltdownWorld.clock.now < 4000000000 + meltdownReconciler.config.MeltdownDuration ∧
    (Reconcile meltdownEnv meltdownReconciler ⟨"ns", "p"⟩ meltdownWorld).1
      = (Result.mk false 30000000000, none) ∧
    (Reconcile meltdownEnv meltdownReconciler ⟨"ns", "p"⟩ meltdownWorld).1.1.RequeueAfter
      ≠ (4000000000 + meltdownReconciler.config.MeltdownDuration) - meltdownWorld.clock.now := by
  refine ⟨by decide, by decide, by decide, by decide⟩

/-- Claim C17 (skips have no side effect): for a stored pod that is inside its
meltdown window, or whose annotations carry no valid entanglement marker,
`Reconcile` returns a nil error, the only call it issues is the lookup of the
pod, so neither the pod nor an owner is updated and the store is as it was; and
when the pod is outside its window (the invalid-marker case) the result is the
empty one, which requests no requeue. -/
theorem reconcile_skip_no_effect (env : Collaborators) (r : ReconcileRestart)
    (request : Request) (w : World) (pod : Pod)
    (hf : w.client.nextFault = none)
    (hpod : w.client.lookup .pod request.ns request.name = some (.pod pod))
    (hskip : env.windowContains r.config.MeltdownDuration pod.metadata.annotations w.clock.now
        = true ∨ env.validEntanglement pod.metadata.annotations = false) :
    (Reconcile env r request w).1.2 = none ∧
    callsSince w.client (Reconcile env r request w).2.client
      = [.get .pod request.ns request.name] ∧
    (∀ o, Call.update o ∉ callsSince w.client (Reconcile env r request w).2.client) ∧
    (Reconcile env r request w).2.client.objects = w.client.objects ∧
    (env.windowContains r.config.MeltdownDuration pod.metadata.annotations w.clock.now = false →
      (Reconcile env r request w).1.1 = Result.mk false 0) := by
  cases hwin : env.windowContains r.config.MeltdownDuration pod.metadata.annotations w.clock.now with
  | true =>
    rw [Reconcile_meltdown env r request w pod hf hpod hwin]
    have hcalls : callsSince w.client (w.client.record (.get .pod request.ns request.name))
        = [.get .pod request.ns request.name] := callsSince_append _ _ _ rfl
    refine ⟨rfl, hcalls, ?_, rfl, ?_⟩
    · intro o ho
      rw [show callsSince w.client (World.mk (w.client.record (.get .pod request.ns request.name))
        w.clock.read.2).client = _ from hcalls] at ho
      simp at ho
    · intro h; cases h
  | false =>
    have hent : env.validEntanglement pod.metadata.annotations = false := by
      rcases hskip with h | h
      · rw [hwin] at h; cases h
      · exact h
    rw [Reconcile_invalid env r request w pod hf hpod hwin hent]
    have hcalls : callsSince w.client (w.client.record (.get .pod request.ns request.name))
        = [.get .pod request.ns request.name] := callsSince_append _ _ _ rfl
    refine ⟨rfl, hcalls, ?_, rfl, fun _ => rfl⟩
    intro o ho
    rw [show callsSince w.client (World.mk (w.client.record (.get .pod request.ns request.name))
      w.clock.read.2).client = _ from hcalls] at ho
    simp at ho

/-- Witness for C17: the reconcile of a pod inside its window issues only the
lookup and leaves the store as it was, and the reconcile of a pod without the
marker, outside any window, ends with the empty result. -/
theorem reconcile_skip_no_effect_witness :
    ((Reconcile meltdownEnv meltdownReconciler ⟨"ns", "p"⟩ meltdownWorld).1.2 = none ∧
      callsSince meltdownWorld.client
          (Reconcile meltdownEnv meltdownReconciler ⟨"ns", "p"⟩ meltdownWorld).2.client
        = [.get .pod "ns" "p"] ∧
      (Reconcile meltdownEnv meltdownReconciler ⟨"ns", "p"⟩ meltdownWorld).2.client.objects
        = meltdownWorld.client.objects) ∧
    ((Reconcile meltdownEnv meltdownReconciler ⟨"ns", "p"⟩ sampleWorld).1
        = (Result.mk false 0, none) ∧
      callsSince sampleWorld.client
          (Reconcile meltdownEnv meltdownReconciler ⟨"ns", "p"⟩ sampleWorld).2.client
        = [.get .pod "ns" "p"]) :=
  let h := reconcile_skip_no_effect meltdownEnv meltdownReconciler ⟨"ns", "p"⟩ meltdownWorld
    meltdownPod rfl (by decide) (Or.inl (by decide))
  let g := reconcile_skip_no_effect meltdownEnv meltdownReconciler ⟨"ns", "p"⟩ sampleWorld
    samplePod rfl (by decide) (Or.inr (by decide))
  ⟨⟨h.1, h.2.1, h.2.2.2.1⟩, Prod.ext (g.2.2.2.2 (by decide)) g.1, g.2.1⟩

/-! ## The calls of the touches -/

/-- An `Update` that fails leaves the objects. -/
theorem Update_fail_objects (c : Client) (o : Object) (e : Error)
    (h : (c.Update o).1 = some e) : (c.Update o).2.objects = c.objects := by
  unfold Client.Update at h ⊢
  cases hf : c.nextFault with
  | some e1 => rfl
  | none =>
    rw [hf] at h
    cases hl : c.lookup o.kind o.metadata.ns o.metadata.name with
    | none => rfl
    | some x => rw [hl] at h; cases h

/-- The calls of `touchStatefulSet`: it updates stateful sets only, and a touch
that fails leaves the objects. -/
theorem touchStatefulSet_calls (env : Collaborators) (ns name : String) (w : World) :
    ∃ new : List Call,
      (touchStatefulSet env ns name w).2.client.calls = w.client.calls ++ new ∧
      (∀ o, Call.update o ∈ new → o.kind = .statefulSet) ∧
      (∀ e, (touchStatefulSet env ns name w).1 = some e →
        (touchStatefulSet env ns name w).2.client.objects = w.client.objects) := by
  have hc := getStatefulSet_client w.client ns name
  unfold touchStatefulSet
  cases hg : getStatefulSet w.client ns name with
  | mk res c1 =>
    rw [hg] at hc
    have hc1 : c1 = w.client.record (.get .statefulSet ns name) := hc
    subst hc1
    cases res with
    | error e =>
      refine ⟨[.get .statefulSet ns name], rfl, ?_, fun _ _ => rfl⟩
      intro o ho; simp at ho
    | ok sts =>
      refine ⟨[.get .statefulSet ns name, .update (.statefulSet (sts.touched env w.clock.now))],
        ?_, ?_, ?_⟩
      · show ((w.client.record (.get .statefulSet ns name)).Update _).2.calls = _
        rw [Update_calls]
        simp [Client.record, Clock.read]
      · intro o ho
        simp at ho
        subst ho
        rfl
      · intro e he
        exact Update_fail_objects _ _ e he

/-- The calls of `touchDeployment`: it updates deployments only, and a touch
that fails leaves the objects. -/
theorem touchDeployment_calls (env : Collaborators) (ns name : String) (w : World) :
    ∃ new : List Call,
      (touchDeployment env ns name w).2.client.calls = w.client.calls ++ new ∧
      (∀ o, Call.update o ∈ new → o.kind = .deployment) ∧
      (∀ e, (touchDeployment env ns name w).1 = some e →
        (touchDeployment env ns name w).2.client.objects = w.client.objects) := by
  have hc := getReplicaSet_client w.client ns name
  unfold touchDeployment
  cases hg : getReplicaSet w.client ns name with
  | mk res c1 =>
    rw [hg] at hc
    have hc1 : c1 = w.client.record (.get .replicaSet ns name) := hc
    subst hc1
    cases res with
    | error e =>
      refine ⟨[.get .replicaSet ns name], rfl, ?_, fun _ _ => rfl⟩
      intro o ho; simp at ho
    | ok rs =>
      simp only
      unfold findDeployment
      cases hfd : rs.metadata.ownerReferences.find? (fun ref => decide (ref.kind = "Deployment")) with
      | none =>
        refine ⟨[.get .replicaSet ns name], rfl, ?_, fun _ _ => rfl⟩
        intro o ho; simp at ho
      | some dref =>
        simp only
        have hdc := getDeployment_client (w.client.record (.get .replicaSet ns name))
          rs.metadata.ns dref.name
        cases hgd : getDeployment (w.client.record (.get .replicaSet ns name))
            rs.metadata.ns dref.name with
        | mk r2 c2 =>
          rw [hgd] at hdc
          have hc2 : c2 = (w.client.record (.get .replicaSet ns name)).record
              (.get .deployment rs.metadata.ns dref.name) := hdc
          subst hc2
          cases r2 with
          | error e =>
            refine ⟨[.get .replicaSet ns name, .get .deployment rs.metadata.ns dref.name],
              ?_, ?_, fun _ _ => rfl⟩
            · simp [Client.record]
            · intro o ho; simp at ho
          | ok d =>
            refine ⟨[.get .replicaSet ns name, .get .deployment rs.metadata.ns dref.name,
              .update (.deployment (d.touched env w.clock.now))], ?_, ?_, ?_⟩
            · show (Client.Update _ _).2.calls = _
              rw [Update_calls]
              simp [Client.record, Clock.read]
            · intro o ho
              simp at ho
              subst ho
              rfl
            · intro e he
              exact Update_fail_objects _ _ e he

/-- The loop over a list of owner references that ends in two parts. -/
theorem touchOwners_append (env : Collaborators) (ns : String) :
    ∀ (pre rest : List OwnerReference) (w : World),
    touchOwners env ns (pre ++ rest) w =
      match touchOwners env ns pre w with
      | (some err, w1) => (some err, w1)
      | (none, w1) => touchOwners env ns rest w1 := by
  intro pre
  induction pre with
  | nil => intro rest w; rfl
  | cons ref pre ih =>
    intro rest w
    rw [List.cons_append, touchOwners_cons, touchOwners_cons]
    by_cases hs : ref.kind = "StatefulSet"
    · rw [if_pos hs, if_pos hs]
      cases ht : touchStatefulSet env ns ref.name w with
      | mk e w1 =>
        cases e with
        | some err => rfl
        | none => exact ih rest w1
    · rw [if_neg hs, if_neg hs]
      by_cases hr : ref.kind = "ReplicaSet"
      · rw [if_pos hr, if_pos hr]
        cases ht : touchDeployment env ns ref.name w with
        | mk e w1 =>
          cases e with
          | some err => rfl
          | none => exact ih rest w1
      · rw [if_neg hr, if_neg hr]
        exact ih rest w

/-- The loop stops at an owner whose touch fails: what follows it in the list
plays no part. -/
theorem touchOwners_stop (env : Collaborators) (ns : String) (ref : OwnerReference)
    (post : List OwnerReference) (w : World) (err : Error)
    (h : (touchOwners env ns [ref] w).1 = some err) :
    touchOwners env ns (ref :: post) w = touchOwners env ns [ref] w := by
  have happ := touchOwners_append env ns [ref] post w
  rw [List.singleton_append] at happ
  rw [happ]
  cases ht : touchOwners env ns [ref] w with
  | mk e w1 =>
    rw [ht] at h
    cases e with
    | some e1 => rfl
    | none => cases h

/-- The calls of the loop over the owner references: it updates stateful sets
and deployments only, and a loop over one owner that fails leaves the objects. -/
theorem touchOwners_calls (env : Collaborators) (ns : String) :
    ∀ (refs : List OwnerReference) (w : World),
    ∃ new : List Call,
      (touchOwners env ns refs w).2.client.calls = w.client.calls ++ new ∧
      (∀ o, Call.update o ∈ new → o.kind = .statefulSet ∨ o.kind = .deployment) := by
  intro refs
  induction refs with
  | nil =>
    intro w
    refine ⟨[], by simp [touchOwners], ?_⟩
    intro o ho; cases ho
  | cons ref rest ih =>
    intro w
    rw [touchOwners_cons]
    by_cases hs : ref.kind = "StatefulSet"
    · rw [if_pos hs]
      obtain ⟨new1, h1, h2, _⟩ := touchStatefulSet_calls env ns ref.name w
      cases ht : touchStatefulSet env ns ref.name w with
      | mk e w1 =>
        rw [ht] at h1
        cases e with
        | some err => exact ⟨new1, h1, fun o ho => Or.inl (h2 o ho)⟩
        | none =>
          obtain ⟨new2, g1, g2⟩ := ih w1
          refine ⟨new1 ++ new2, ?_, ?_⟩
          · show (touchOwners env ns rest w1).2.client.calls = _
            rw [g1, show w1.client.calls = _ from h1, List.append_assoc]
          · intro o ho
            rcases List.mem_append.1 ho with ho | ho
            · exact Or.inl (h2 o ho)
            · exact g2 o ho
    · rw [if_neg hs]
      by_cases hr : ref.kind = "ReplicaSet"
      · rw [if_pos hr]
        obtain ⟨new1, h1, h2, _⟩ := touchDeployment_calls env ns ref.name w
        cases ht : touchDeployment env ns ref.name w with
        | mk e w1 =>
          rw [ht] at h1
          cases e with
          | some err => exact ⟨new1, h1, fun o ho => Or.inr (h2 o ho)⟩
          | none =>
            obtain ⟨new2, g1, g2⟩ := ih w1
            refine ⟨new1 ++ new2, ?_, ?_⟩
            · show (touchOwners env ns rest w1).2.client.calls = _
              rw [g1, show w1.client.calls = _ from h1, List.append_assoc]
            · intro o ho
              rcases List.mem_append.1 ho with ho | ho
              · exact Or.inr (h2 o ho)
              · exact g2 o ho
      · rw [if_neg hr]
        exact ih w

/-- A loop over one owner whose touch fails leaves the objects. -/
theorem touchOwners_single_fail (env : Collaborators) (ns : String) (ref : OwnerReference)
    (w : World) (err : Error) (h : (touchOwners env ns [ref] w).1 = some err) :
    (touchOwners env ns [ref] w).2.client.objects = w.client.objects := by
  rw [touchOwners_cons] at h ⊢
  by_cases hs : ref.kind = "StatefulSet"
  · rw [if_pos hs] at h ⊢
    obtain ⟨_, _, _, h3⟩ := touchStatefulSet_calls env ns ref.name w
    cases ht : touchStatefulSet env ns ref.name w with
    | mk e w1 =>
      rw [ht] at h h3
      cases e with
      | some e1 => exact h3 e1 rfl
      | none => cases h
  · rw [if_neg hs] at h ⊢
    by_cases hr : ref.kind = "ReplicaSet"
    · rw [if_pos hr] at h ⊢
      obtain ⟨_, _, _, h3⟩ := touchDeployment_calls env ns ref.name w
      cases ht : touchDeployment env ns ref.name w with
      | mk e w1 =>
        rw [ht] at h h3
        cases e with
        | some e1 => exact h3 e1 rfl
        | none => cases h
    · rw [if_neg hr] at h
      cases h

/-! ## Failing touches -/

/-- Claim C13, as amended: for a stored pod outside its meltdown window and
entangled, when the touch of one of its owners fails, with NotFound or with any
other error, `Reconcile` stops at that owner, leaves the world as the failed
touch left it (no further owner is looked up and the pod is not updated), and
returns the empty result and a nil error: the failure is not returned. -/
theorem reconcile_owner_failure_swallowed (env : Collaborators) (r : ReconcileRestart)
    (request : Request) (w : World) (pod : Pod) (err : Error)
    (hf : w.client.nextFault = none)
    (hpod : w.client.lookup .pod request.ns request.name = some (.pod pod))
    (hwin : env.windowContains r.config.MeltdownDuration pod.metadata.annotations w.clock.now
      = false)
    (hent : env.validEntanglement pod.metadata.annotations = true)
    (hfail : (touchOwners env request.ns pod.metadata.ownerReferences
        { client := w.client.record (.get .pod request.ns request.name),
          clock := w.clock.read.2 }).1 = some err) :
    (Reconcile env r request w).1 = (Result.mk false 0, none) ∧
    (Reconcile env r request w).2 =
      (touchOwners env request.ns pod.metadata.ownerReferences
        { client := w.client.record (.get .pod request.ns request.name),
          clock := w.clock.read.2 }).2 := by
  rw [Reconcile_walk env r request w pod hf hpod hwin hent]
  cases ht : touchOwners env request.ns pod.metadata.ownerReferences
      { client := w.client.record (.get .pod request.ns request.name),
        clock := w.clock.read.2 } with
  | mk e w2 =>
    rw [ht] at hfail
    cases e with
    | none => cases hfail
    | some e1 => exact ⟨rfl, rfl⟩

/-- Witness for C13 as amended: the lookup of the stateful set `s` fails with an
API error, and the reconcile ends with the empty result and nil after the two
lookups. -/
theorem reconcile_owner_failure_swallowed_witness :
    (Reconcile sampleEnv {} ⟨"ns", "p"⟩ ownerFaultWorld).1 = (Result.mk false 0, none) ∧
    (Reconcile sampleEnv {} ⟨"ns", "p"⟩ ownerFaultWorld).2.client.calls
      = [.get .pod "ns" "p", .get .statefulSet "ns" "s"] :=
  let h := reconcile_owner_failure_swallowed sampleEnv {} ⟨"ns", "p"⟩ ownerFaultWorld samplePod
    (.api "etcd unavailable") rfl (by decide) rfl rfl (by decide)
  ⟨h.1, by decide⟩

/-- Counterexample to C13 as stated: the lookup of the owner `s` fails with an
API error that is not NotFound, and `Reconcile` returns a nil error. -/
theorem reconcile_owner_failure_counterexample :
    (touchStatefulSet sampleEnv "ns" "s"
      (World.mk (ownerFaultWorld.client.record (.get .pod "ns" "p"))
        ownerFaultWorld.clock.read.2)).1 = some (.api "etcd unavailable") ∧
    IsNotFound (.api "etcd unavailable") = false ∧
    (Reconcile sampleEnv {} ⟨"ns", "p"⟩ ownerFaultWorld).1.2 = none := by
  refine ⟨by decide, by decide, by decide⟩

/-- Claim C14, as amended: for a stored pod outside its meltdown window and
entangled whose owner references are `pre`, then `ref`, then `post`, when the
touches of `pre` succeed and the touch of `ref` fails (the owner is not found,
as a replica set without a deployment among its owners, or any other failure),
`Reconcile` stops there: the world it leaves is the one the failed touch left,
which holds the objects as the touches of `pre` left them, so no owner of `post`
is looked up or touched and the pod is not updated; it returns the empty result
and a nil error. -/
theorem reconcile_stops_at_failed_owner (env : Collaborators) (r : ReconcileRestart)
    (request : Request) (w : World) (pod : Pod) (pre post : List OwnerReference)
    (ref : OwnerReference) (err : Error)
    (hf : w.client.nextFault = none)
    (hpod : w.client.lookup .pod request.ns request.name = some (.pod pod))
    (hwin : env.windowContains r.config.MeltdownDuration pod.metadata.annotations w.clock.now
      = false)
    (hent : env.validEntanglement pod.metadata.annotations = true)
    (hrefs : pod.metadata.ownerReferences = pre ++ ref :: post)
    (hpre : (touchOwners env request.ns pre
        { client := w.client.record (.get .pod request.ns request.name),
          clock := w.clock.read.2 }).1 = none)
    (hfail : (touchOwners env request.ns [ref]
        (touchOwners env request.ns pre
          { client := w.client.record (.get .pod request.ns request.name),
            clock := w.clock.read.2 }).2).1 = some err) :
    Reconcile env r request w =
      ((Result.mk false 0, none),
        (touchOwners env request.ns [ref]
          (touchOwners env request.ns pre
            { client := w.client.record (.get .pod request.ns request.name),
              clock := w.clock.read.2 }).2).2) ∧
    (touchOwners env request.ns [ref]
        (touchOwners env request.ns pre
          { client := w.client.record (.get .pod request.ns request.name),
            clock := w.clock.read.2 }).2).2.client.objects
      = (touchOwners env request.ns pre
          { client := w.client.record (.get .pod request.ns request.name),
            clock := w.clock.read.2 }).2.client.objects := by
  refine ⟨?_, touchOwners_single_fail env request.ns ref _ err hfail⟩
  rw [Reconcile_walk env r request w pod hf hpod hwin hent, hrefs, touchOwners_append]
  cases hp : touchOwners env request.ns pre
      { client := w.client.record (.get .pod request.ns request.name),
        clock := w.clock.read.2 } with
  | mk e w1 =>
    rw [hp] at hpre hfail
    have he : e = none := hpre
    subst he
    show (match touchOwners env request.ns (ref :: post) w1 with
      | (some _, w2) => ((Result.mk false 0, none), w2)
      | (none, w2) => _) = _
    rw [touchOwners_stop env request.ns ref post w1 err hfail]
    cases ht : touchOwners env request.ns [ref] w1 with
    | mk e2 w2 =>
      rw [ht] at hfail
      cases e2 with
      | none => cases hfail
      | some e3 => rfl

/-- Witness for C14 as amended: the pod `q` is owned by `s`, `r0` and `t`; `s`
is touched, no deployment is found for `r0`, and the reconcile ends there. -/
theorem reconcile_stops_at_failed_owner_witness :
    Reconcile sampleEnv {} ⟨"ns", "q"⟩ orphanWorld =
      ((Result.mk false 0, none),
        (touchOwners sampleEnv "ns" [⟨"ReplicaSet", "r0"⟩]
          (touchOwners sampleEnv "ns" [⟨"StatefulSet", "s"⟩]
            (World.mk (orphanWorld.client.record (.get .pod "ns" "q"))
              orphanWorld.clock.read.2)).2).2) :=
  (reconcile_stops_at_failed_owner sampleEnv {} ⟨"ns", "q"⟩ orphanWorld orphanPod
    [⟨"StatefulSet", "s"⟩] [⟨"StatefulSet", "t"⟩] ⟨"ReplicaSet", "r0"⟩
    (.errorf "deployment for replica set 'r0' was not found")
    rfl (by decide) rfl rfl rfl (by decide) (by decide)).1

/-- Counterexample to C14 as stated: the pod `q` is owned by the stateful set
`s`, the replica set `r0` without a deployment, and the stateful set `t`; the
touch of `r0` fails, and `t`, which comes after it, is neither looked up nor
updated. -/
theorem reconcile_later_owner_untouched :
    (touchDeployment sampleEnv "ns" "r0"
      (touchOwners sampleEnv "ns" [⟨"StatefulSet", "s"⟩]
        (World.mk (orphanWorld.client.record (.get .pod "ns" "q"))
          orphanWorld.clock.read.2)).2).1
      = some (.errorf "deployment for replica set 'r0' was not found") ∧
    callsSince orphanWorld.client (Reconcile sampleEnv {} ⟨"ns", "q"⟩ orphanWorld).2.client
      = [.get .pod "ns" "q", .get .statefulSet "ns" "s",
          .update (.statefulSet (StatefulSet.touched
            (StatefulSet.mk (ObjectMeta.mk "s" "ns" [] [] []) (ObjectMeta.mk "" "" [] [] []))
            sampleEnv 5000000000)),
          .get .replicaSet "ns" "r0"] ∧
    (Reconcile sampleEnv {} ⟨"ns", "q"⟩ orphanWorld).2.client.lookup .statefulSet "ns" "t"
      = some (.statefulSet (StatefulSet.mk (ObjectMeta.mk "t" "ns" [] [] [])
          (ObjectMeta.mk "" "" [] [] []))) := by
  refine ⟨by decide, by decide, by decide⟩

/-! ## The stamp on the pod -/

/-- Claim C15 (stamp failure is swallowed): for a stored pod outside its
meltdown window and entangled, when every owner touch succeeded and the final
update of the pod, which writes the last-reconcile timestamp, fails, `Reconcile`
returns the empty result and a nil error, and the store is as the touches left
it. -/
theorem reconcile_stamp_failure_swallowed (env : Collaborators) (r : ReconcileRestart)
    (request : Request) (w : World) (pod : Pod) (err : Error)
    (hf : w.client.nextFault = none)
    (hpod : w.client.lookup .pod request.ns request.name = some (.pod pod))
    (hwin : env.windowContains r.config.MeltdownDuration pod.metadata.annotations w.clock.now
      = false)
    (hent : env.validEntanglement pod.metadata.annotations = true)
    (htouch : (touchOwners env request.ns pod.metadata.ownerReferences
        { client := w.client.record (.get .pod request.ns request.name),
          clock := w.clock.read.2 }).1 = none)
    (hstamp : ((touchOwners env request.ns pod.metadata.ownerReferences
        { client := w.client.record (.get .pod request.ns request.name),
          clock := w.clock.read.2 }).2.client.Update
        (.pod (pod.stamped env (touchOwners env request.ns pod.metadata.ownerReferences
          { client := w.client.record (.get .pod request.ns request.name),
            clock := w.clock.read.2 }).2.clock.now))).1 = some err) :
    (Reconcile env r request w).1 = (Result.mk false 0, none) ∧
    (Reconcile env r request w).2.client.objects =
      (touchOwners env request.ns pod.metadata.ownerReferences
        { client := w.client.record (.get .pod request.ns request.name),
          clock := w.clock.read.2 }).2.client.objects := by
  rw [Reconcile_walk env r request w pod hf hpod hwin hent]
  cases ht : touchOwners env request.ns pod.metadata.ownerReferences
      { client := w.client.record (.get .pod request.ns request.name),
        clock := w.clock.read.2 } with
  | mk e w2 =>
    rw [ht] at htouch hstamp
    have he : e = none := htouch
    subst he
    exact ⟨rfl, Update_fail_objects _ _ err hstamp⟩

/-- Witness for C15: both owners of the pod are touched, the update of the pod
fails with a conflict, and the reconcile ends with the empty result and nil. -/
theorem reconcile_stamp_failure_swallowed_witness :
    (Reconcile sampleEnv {} ⟨"ns", "p"⟩ stampFaultWorld).1 = (Result.mk false 0, none) ∧
    (Reconcile sampleEnv {} ⟨"ns", "p"⟩ stampFaultWorld).2.client.lookup .pod "ns" "p"
      = some (.pod samplePod) :=
  ⟨(reconcile_stamp_failure_swallowed sampleEnv {} ⟨"ns", "p"⟩ stampFaultWorld samplePod
    (.api "conflict") rfl (by decide) rfl rfl (by decide) (by decide)).1, by decide⟩

/-- A reconcile of a pod that the lookup returned. -/
theorem Reconcile_found (env : Collaborators) (r : ReconcileRestart) (request : Request)
    (w : World) (pod : Pod)
    (h : (getPod w.client request.ns request.name).1 = .ok pod) :
    Reconcile env r request w =
      if env.windowContains r.config.MeltdownDuration pod.metadata.annotations w.clock.now then
        ((Result.mk false r.config.MeltdownRequeueAfter, none),
          World.mk (getPod w.client request.ns request.name).2 w.clock.read.2)
      else if !env.validEntanglement pod.metadata.annotations then
        ((Result.mk false 0, none),
          World.mk (getPod w.client request.ns request.name).2 w.clock.read.2)
      else
        match touchOwners env request.ns pod.metadata.ownerReferences
            (World.mk (getPod w.client request.ns request.name).2 w.clock.read.2) with
        | (some _, w2) => ((Result.mk false 0, none), w2)
        | (none, w2) =>
          ((Result.mk false 0, none),
            World.mk (w2.client.Update (.pod (pod.stamped env w2.clock.now))).2
              w2.clock.read.2) := by
  unfold Reconcile
  cases hg : getPod w.client request.ns request.name with
  | mk res c1 =>
    rw [hg] at h
    cases res with
    | error e => cases h
    | ok p =>
      have hp : p = pod := by injection h
      subst hp
      rfl

/-- Claim C16 (stamp only after success): whenever a run of `Reconcile` issues
an update of a pod, the lookup had returned the pod, the pod was outside its
meltdown window, its entanglement marker was valid, the loop over its owner
references ended without a failed touch, and the updated pod is the looked-up
one stamped with the time read after the touches; and when a touch of the
looked-up pod fails, no update of a pod is issued. -/
theorem reconcile_stamp_only_after_success (env : Collaborators) (r : ReconcileRestart)
    (request : Request) (w : World) :
    (∀ x : Pod, Call.update (.pod x) ∈ callsSince w.client (Reconcile env r request w).2.client →
      ∃ pod : Pod, (getPod w.client request.ns request.name).1 = .ok pod ∧
        env.windowContains r.config.MeltdownDuration pod.metadata.annotations w.clock.now
          = false ∧
        env.validEntanglement pod.metadata.annotations = true ∧
        (touchOwners env request.ns pod.metadata.ownerReferences
          (World.mk (getPod w.client request.ns request.name).2 w.clock.read.2)).1 = none ∧
        x = pod.stamped env (touchOwners env request.ns pod.metadata.ownerReferences
          (World.mk (getPod w.client request.ns request.name).2 w.clock.read.2)).2.clock.now) ∧
    (∀ (pod : Pod) (err : Error), (getPod w.client request.ns request.name).1 = .ok pod →
      (touchOwners env request.ns pod.metadata.ownerReferences
        (World.mk (getPod w.client request.ns request.name).2 w.clock.read.2)).1 = some err →
      ∀ x : Pod,
        Call.update (.pod x) ∉ callsSince w.client (Reconcile env r request w).2.client) := by
  have main : ∀ x : Pod,
      Call.update (.pod x) ∈ callsSince w.client (Reconcile env r request w).2.client →
      ∃ pod : Pod, (getPod w.client request.ns request.name).1 = .ok pod ∧
        env.windowContains r.config.MeltdownDuration pod.metadata.annotations w.clock.now
          = false ∧
        env.validEntanglement pod.metadata.annotations = true ∧
        (touchOwners env request.ns pod.metadata.ownerReferences
          (World.mk (getPod w.client request.ns request.name).2 w.clock.read.2)).1 = none ∧
        x = pod.stamped env (touchOwners env request.ns pod.metadata.ownerReferences
          (World.mk (getPod w.client request.ns request.name).2 w.clock.read.2)).2.clock.now := by
    intro x hx
    have hget : callsSince w.client (w.client.record (.get .pod request.ns request.name))
        = [.get .pod request.ns request.name] := callsSince_append _ _ _ rfl
    cases hres : (getPod w.client request.ns request.name).1 with
    | error e =>
      exfalso
      rw [Reconcile_pod_error env r request w e hres] at hx
      by_cases hnf : IsNotFound e = true
      · rw [if_pos hnf] at hx
        rw [show callsSince w.client (World.mk (w.client.record
          (.get .pod request.ns request.name)) w.clock).client = _ from hget] at hx
        simp at hx
      · rw [if_neg hnf] at hx
        rw [show callsSince w.client (World.mk (w.client.record
          (.get .pod request.ns request.name)) w.clock).client = _ from hget] at hx
        simp at hx
    | ok pod =>
      refine ⟨pod, rfl, ?_⟩
      rw [Reconcile_found env r request w pod hres] at hx
      rw [getPod_client] at hx ⊢
      cases hwin : env.windowContains r.config.MeltdownDuration pod.metadata.annotations
          w.clock.now with
      | true =>
        exfalso
        rw [hwin, if_pos rfl] at hx
        rw [show callsSince w.client (World.mk (w.client.record
          (.get .pod request.ns request.name)) w.clock.read.2).client = _ from hget] at hx
        simp at hx
      | false =>
        rw [hwin, if_neg (by decide)] at hx
        cases hent : env.validEntanglement pod.metadata.annotations with
        | false =>
          exfalso
          rw [hent, if_pos (by decide)] at hx
          rw [show callsSince w.client (World.mk (w.client.record
            (.get .pod request.ns request.name)) w.clock.read.2).client = _ from hget] at hx
          simp at hx
        | true =>
          rw [hent, if_neg (by decide)] at hx
          refine ⟨rfl, rfl, ?_⟩
          obtain ⟨new, h1, h2⟩ := touchOwners_calls env request.ns pod.metadata.ownerReferences
            (World.mk (w.client.record (.get .pod request.ns request.name)) w.clock.read.2)
          cases ht : touchOwners env request.ns pod.metadata.ownerReferences
              (World.mk (w.client.record (.get .pod request.ns request.name))
                w.clock.read.2) with
          | mk e w2 =>
            rw [ht] at hx h1
            have h1a : w2.client.calls
                = w.client.calls ++ ([.get .pod request.ns request.name] ++ new) := by
              rw [show w2.client.calls = _ from h1]
              simp [Client.record]
            cases e with
            | some e1 =>
              exfalso
              rw [show callsSince w.client w2.client = _ from callsSince_append _ _ _ h1a] at hx
              rcases List.mem_append.1 hx with hx | hx
              · simp at hx
              · rcases h2 _ hx with hk | hk <;> cases hk
            | none =>
              refine ⟨rfl, ?_⟩
              have h1b : (w2.client.Update (.pod (pod.stamped env w2.clock.now))).2.calls
                  = w.client.calls ++ ([.get .pod request.ns request.name] ++ new
                    ++ [.update (.pod (pod.stamped env w2.clock.now))]) := by
                rw [Update_calls, h1a]
                simp
              rw [show callsSince w.client (World.mk
                (w2.client.Update (.pod (pod.stamped env w2.clock.now))).2
                w2.clock.read.2).client = _ from callsSince_append _ _ _ h1b] at hx
              rcases List.mem_append.1 hx with hx | hx
              · exfalso
                rcases List.mem_append.1 hx with hx | hx
                · simp at hx
                · rcases h2 _ hx with hk | hk <;> cases hk
              · simp at hx
                exact hx
  refine ⟨main, ?_⟩
  intro pod err hpod hfail x hx
  obtain ⟨pod2, g1, _, _, g4, _⟩ := main x hx
  rw [hpod] at g1
  have hp : pod = pod2 := by injection g1
  subst hp
  rw [hfail] at g4
  cases g4

/-- Witness for C16: the reconcile of the pod `p`, found, outside any window,
entangled and with both owners touched, updates the pod with the stamp of the
time read after the touches, eight seconds. -/
theorem reconcile_stamp_only_after_success_witness :
    ∃ pod : Pod, (getPod sampleWorld.client "ns" "p").1 = .ok pod ∧
      sampleEnv.windowContains 0 pod.metadata.annotations sampleWorld.clock.now = false ∧
      sampleEnv.validEntanglement pod.metadata.annotations = true ∧
      (touchOwners sampleEnv "ns" pod.metadata.ownerReferences
        (World.mk (getPod sampleWorld.client "ns" "p").2 sampleWorld.clock.read.2)).1 = none ∧
      samplePod.stamped sampleEnv 8000000000 =
        pod.stamped sampleEnv (touchOwners sampleEnv "ns" pod.metadata.ownerReferences
          (World.mk (getPod sampleWorld.client "ns" "p").2 sampleWorld.clock.read.2)).2.clock.now :=
  (reconcile_stamp_only_after_success sampleEnv {} ⟨"ns", "p"⟩ sampleWorld).1
    (samplePod.stamped sampleEnv 8000000000) (by decide)

/-! ## What a touch writes -/

theorem hasKey_self (o : Object) : o.hasKey o.kind o.metadata.ns o.metadata.name = true := by
  simp [Object.hasKey]

theorem find_map_self (l : List Object) (o x : Object)
    (h : l.find? (fun y => y.hasKey o.kind o.metadata.ns o.metadata.name) = some x) :
    (l.map (fun y => if y.hasKey o.kind o.metadata.ns o.metadata.name then o else y)).find?
        (fun y => y.hasKey o.kind o.metadata.ns o.metadata.name) = some o := by
  induction l with
  | nil => cases h
  | cons a l ih =>
    rw [List.map_cons, List.find?_cons]
    rw [List.find?_cons] at h
    by_cases ha : a.hasKey o.kind o.metadata.ns o.metadata.name = true
    · rw [if_pos ha, hasKey_self]
    · have ha2 : a.hasKey o.kind o.metadata.ns o.metadata.name = false := by
        simpa using ha
      rw [if_neg ha, ha2]
      rw [ha2] at h
      exact ih h

/-- An `Update` of a stored object that is let through succeeds, and the object
is then stored under its key. -/
theorem Update_lookup_self (c : Client) (o x : Object) (hf : c.nextFault = none)
    (hl : c.lookup o.kind o.metadata.ns o.metadata.name = some x) :
    (c.Update o).1 = none ∧
      (c.Update o).2.lookup o.kind o.metadata.ns o.metadata.name = some o := by
  unfold Client.Update
  rw [hf, hl]
  exact ⟨rfl, find_map_self c.objects o x hl⟩

theorem nextFault_of_faults (c : Client) (h : c.faults = []) : c.nextFault = none := by
  unfold Client.nextFault
  rw [h]

/-- On a client without pending failures, `touchStatefulSet` of a stored
stateful set succeeds and stores it with the restart annotation merged into its
template. -/
theorem touchStatefulSet_writes (env : Collaborators) (ns name : String) (w : World)
    (sts : StatefulSet) (hf : w.client.faults = [])
    (hl : w.client.lookup .statefulSet ns name = some (.statefulSet sts)) :
    (touchStatefulSet env ns name w).1 = none ∧
      (touchStatefulSet env ns name w).2.client.lookup .statefulSet ns name
        = some (.statefulSet (sts.touched env w.clock.now)) := by
  obtain ⟨_, _, hns, hnm⟩ := lookup_some _ _ _ _ _ hl
  have hget : getStatefulSet w.client ns name
      = (.ok sts, w.client.record (.get .statefulSet ns name)) := by
    unfold getStatefulSet Client.Get
    rw [nextFault_of_faults _ hf, hl]
  have hf1 : (w.client.record (.get .statefulSet ns name)).nextFault = none :=
    nextFault_of_faults _ (by show w.client.faults.tail = []; rw [hf]; rfl)
  have hl1 : (w.client.record (.get .statefulSet ns name)).lookup .statefulSet ns name
      = some (.statefulSet sts) := hl
  have hkey : (w.client.record (.get .statefulSet ns name)).lookup
      (Object.statefulSet (sts.touched env w.clock.now)).kind
      (Object.statefulSet (sts.touched env w.clock.now)).metadata.ns
      (Object.statefulSet (sts.touched env w.clock.now)).metadata.name
      = some (.statefulSet sts) := by
    show (w.client.record (.get .statefulSet ns name)).lookup .statefulSet sts.metadata.ns
      sts.metadata.name = _
    have h1 : sts.metadata.ns = ns := hns
    have h2 : sts.metadata.name = name := hnm
    rw [h1, h2]
    exact hl1
  obtain ⟨u1, u2⟩ := Update_lookup_self _ _ _ hf1 hkey
  have h1 : sts.metadata.ns = ns := hns
  have h2 : sts.metadata.name = name := hnm
  unfold touchStatefulSet
  rw [hget]
  refine ⟨u1, ?_⟩
  have u3 : ((w.client.record (.get .statefulSet ns name)).Update
      (.statefulSet (sts.touched env w.clock.now))).2.lookup .statefulSet sts.metadata.ns
      sts.metadata.name = some (.statefulSet (sts.touched env w.clock.now)) := u2
  rw [h1, h2] at u3
  exact u3

/-- On a client without pending failures, `touchDeployment` of a stored replica
set whose first owner of kind Deployment is stored succeeds and stores that
deployment with the restart annotation merged into its template. -/
theorem touchDeployment_writes (env : Collaborators) (ns name : String) (w : World)
    (rs : ReplicaSet) (dref : OwnerReference) (d : Deployment) (hf : w.client.faults = [])
    (hl : w.client.lookup .replicaSet ns name = some (.replicaSet rs))
    (hfd : rs.metadata.ownerReferences.find? (fun ref => decide (ref.kind = "Deployment"))
      = some dref)
    (hd : w.client.lookup .deployment rs.metadata.ns dref.name = some (.deployment d)) :
    (touchDeployment env ns name w).1 = none ∧
      (touchDeployment env ns name w).2.client.lookup .deployment rs.metadata.ns dref.name
        = some (.deployment (d.touched env w.clock.now)) := by
  obtain ⟨_, _, hns, hnm⟩ := lookup_some _ _ _ _ _ hd
  have h1 : d.metadata.ns = rs.metadata.ns := hns
  have h2 : d.metadata.name = dref.name := hnm
  have hget : getReplicaSet w.client ns name
      = (.ok rs, w.client.record (.get .replicaSet ns name)) := by
    unfold getReplicaSet Client.Get
    rw [nextFault_of_faults _ hf, hl]
  have hf1 : (w.client.record (.get .replicaSet ns name)).faults = [] := by
    show w.client.faults.tail = []; rw [hf]; rfl
  have hfind : findDeployment rs (w.client.record (.get .replicaSet ns name))
      = (.ok d, (w.client.record (.get .replicaSet ns name)).record
          (.get .deployment rs.metadata.ns dref.name)) := by
    unfold findDeployment
    rw [hfd]
    show getDeployment _ _ _ = _
    unfold getDeployment Client.Get
    rw [nextFault_of_faults _ hf1]
    rw [show (w.client.record (.get .replicaSet ns name)).lookup .deployment rs.metadata.ns
      dref.name = some (.deployment d) from hd]
  have hf2 : ((w.client.record (.get .replicaSet ns name)).record
      (.get .deployment rs.metadata.ns dref.name)).nextFault = none :=
    nextFault_of_faults _ (by
      show (w.client.record (.get .replicaSet ns name)).faults.tail = []; rw [hf1]; rfl)
  have hkey : ((w.client.record (.get .replicaSet ns name)).record
      (.get .deployment rs.metadata.ns dref.name)).lookup
      (Object.deployment (d.touched env w.clock.now)).kind
      (Object.deployment (d.touched env w.clock.now)).metadata.ns
      (Object.deployment (d.touched env w.clock.now)).metadata.name
      = some (.deployment d) := by
    show Client.lookup _ .deployment d.metadata.ns d.metadata.name = _
    rw [h1, h2]
    exact hd
  obtain ⟨u1, u2⟩ := Update_lookup_self _ _ _ hf2 hkey
  unfold touchDeployment
  rw [hget]
  simp only
  rw [hfind]
  refine ⟨u1, ?_⟩
  have u3 : (Client.Update ((w.client.record (.get .replicaSet ns name)).record
      (.get .deployment rs.metadata.ns dref.name))
      (.deployment (d.touched env w.clock.now))).2.lookup .deployment d.metadata.ns
      d.metadata.name = some (.deployment (d.touched env w.clock.now)) := u2
  rw [h1, h2] at u3
  exact u3

theorem Itoa_decimal (v : Int) (h : 0 ≤ v) : IsDecimalOf (Itoa v).data v.toNat := by
  cases v with
  | ofNat n => exact natDigits_decimal n
  | negSucc n => exact absurd (Int.negSucc_lt_zero n) (not_lt.2 h)

/-! ## The restart annotation -/

/-- Claim C18 (restart annotation): for every time `t`, the map of
`restartAnnotation` has exactly one entry, under the key
"<group name>/restart-by-entanglement", whose value is the decimal string of the
Unix seconds of `t` (a run of decimal digits of that value when `t` is not
before the epoch).  A touched stateful set or deployment carries this entry in
its pod-template annotations, every other key of the template annotations reads
as before, and its metadata and the other fields of its template are unchanged.
On a client without pending failures the touch of a stored owner succeeds and
stores exactly that touched object. -/
theorem restart_entry_written (env : Collaborators) (t : Time) :
    restartAnnotation env t
      = [(env.groupName ++ "/restart-by-entanglement", Itoa (unixSeconds t))] ∧
    (0 ≤ t → IsDecimalOf (Itoa (unixSeconds t)).data (t / 1000000000).toNat) ∧
    (∀ sts : StatefulSet,
      (sts.touched env t).metadata = sts.metadata ∧
      (sts.touched env t).template.name = sts.template.name ∧
      (sts.touched env t).template.ns = sts.template.ns ∧
      (sts.touched env t).template.labels = sts.template.labels ∧
      (sts.touched env t).template.ownerReferences = sts.template.ownerReferences ∧
      mapGet (sts.touched env t).template.annotations
        (env.groupName ++ "/restart-by-entanglement") = some (Itoa (unixSeconds t)) ∧
      ∀ k, k ≠ env.groupName ++ "/restart-by-entanglement" →
        mapGet (sts.touched env t).template.annotations k
          = mapGet sts.template.annotations k) ∧
    (∀ d : Deployment,
      (d.touched env t).metadata = d.metadata ∧
      (d.touched env t).template.name = d.template.name ∧
      (d.touched env t).template.ns = d.template.ns ∧
      (d.touched env t).template.labels = d.template.labels ∧
      (d.touched env t).template.ownerReferences = d.template.ownerReferences ∧
      mapGet (d.touched env t).template.annotations
        (env.groupName ++ "/restart-by-entanglement") = some (Itoa (unixSeconds t)) ∧
      ∀ k, k ≠ env.groupName ++ "/restart-by-entanglement" →
        mapGet (d.touched env t).template.annotations k = mapGet d.template.annotations k) ∧
    (∀ (ns name : String) (w : World) (sts : StatefulSet), w.client.faults = [] →
      w.clock.now = t →
      w.client.lookup .statefulSet ns name = some (.statefulSet sts) →
      (touchStatefulSet env ns name w).1 = none ∧
        (touchStatefulSet env ns name w).2.client.lookup .statefulSet ns name
          = some (.statefulSet (sts.touched env t))) ∧
    (∀ (ns name : String) (w : World) (rs : ReplicaSet) (dref : OwnerReference)
      (d : Deployment), w.client.faults = [] → w.clock.now = t →
      w.client.lookup .replicaSet ns name = some (.replicaSet rs) →
      rs.metadata.ownerReferences.find? (fun ref => decide (ref.kind = "Deployment"))
        = some dref →
      w.client.lookup .deployment rs.metadata.ns dref.name = some (.deployment d) →
      (touchDeployment env ns name w).1 = none ∧
        (touchDeployment env ns name w).2.client.lookup .deployment rs.metadata.ns dref.name
          = some (.deployment (d.touched env t))) := by
  refine ⟨rfl, ?_, ?_, ?_, ?_, ?_⟩
  · intro h
    exact Itoa_decimal (unixSeconds t) (Int.ediv_nonneg h (by decide))
  · intro sts
    refine ⟨rfl, rfl, rfl, rfl, rfl, restart_annotation_set env _ t, ?_⟩
    intro k hk
    exact mapGet_mapSet_other sts.template.annotations _ _ k hk
  · intro d
    refine ⟨rfl, rfl, rfl, rfl, rfl, restart_annotation_set env _ t, ?_⟩
    intro k hk
    exact mapGet_mapSet_other d.template.annotations _ _ k hk
  · intro ns name w sts hf ht hl
    subst ht
    exact touchStatefulSet_writes env ns name w sts hf hl
  · intro ns name w rs dref d hf ht hl hfd hd
    subst ht
    exact touchDeployment_writes env ns name w rs dref d hf hl hfd hd

/-- Witness for C18: at five seconds the entry is "5" under the key of the
group; the touched deployment `d` keeps its template annotation `a`; and the
touch of the replica set `r` stores the touched deployment. -/
theorem restart_entry_written_witness :
    restartAnnotation sampleEnv 5000000000
      = [("quarks.cloudfoundry.org/restart-by-entanglement", "5")] ∧
    mapGet (Deployment.touched (Deployment.mk (ObjectMeta.mk "d" "ns" [] [] [])
        (ObjectMeta.mk "" "" [] [("a", "b")] [])) sampleEnv 5000000000).template.annotations "a"
      = some "b" ∧
    ((touchDeployment sampleEnv "ns" "r" sampleWorld).1 = none ∧
      (touchDeployment sampleEnv "ns" "r" sampleWorld).2.client.lookup .deployment "ns" "d"
        = some (.deployment (Deployment.touched (Deployment.mk (ObjectMeta.mk "d" "ns" [] [] [])
          (ObjectMeta.mk "" "" [] [("a", "b")] [])) sampleEnv 5000000000))) :=
  let h := restart_entry_written sampleEnv 5000000000
  ⟨h.1, (h.2.2.2.1 _).2.2.2.2.2.2 "a" (by decide),
    h.2.2.2.2.2 "ns" "r" sampleWorld sampleReplicaSet ⟨"Deployment", "d"⟩ _ rfl rfl
      (by decide) (by decide) (by decide)⟩

/-! ## The name and the version -/

/-- Claim C20 (name/version round trip): for every deployment name and every
version `v` of Go's `int` with `v >= 0` for which `secretName` succeeds,
`getVersionFromSecretName` applied to the name `secretName` returned gives `v`
and no error (and does not panic). -/
theorem secretName_version_roundtrip (engine : RegexpEngine) (p : ManifestPersisterImpl)
    (v : Int) (n : String) (h0 : 0 ≤ v) (hmax : v ≤ maxInt)
    (h : secretName p v = .ok n) :
    getVersionFromSecretName engine p n = some (.ok v) := by
  obtain ⟨hn, _, _⟩ := secretName_ok p v n h
  have hp := secretName_allowed p v n h
  obtain ⟨k, hk⟩ := Int.eq_ofNat_of_zero_le h0
  subst hk
  have hk : k ≤ 9223372036854775807 := by
    unfold maxInt at hmax
    omega
  rw [hn]
  exact getVersion_nameOf engine p hp k hk

/-- Witness for C20: version 42 of deployment `x` is named `deployment-x-42`,
from which the version 42 is read back. -/
theorem secretName_version_roundtrip_witness :
    secretName deploymentX 42 = .ok "deployment-x-42" ∧
    getVersionFromSecretName noEngine deploymentX "deployment-x-42" = some (.ok 42) :=
  ⟨by decide, secretName_version_roundtrip noEngine deploymentX 42 "deployment-x-42"
    (by decide) (by decide) (by decide)⟩

/-! ## The resolver -/

/-- Claim C19 (resolver error propagation): for every deployment name, instance
group name and namespace, when `Latest` of the versioned secret store fails,
with NotFound or any other error, `InstanceGroupManifest` returns a nil manifest
and that error wrapped by `errors.Wrapf` ("failed to read latest versioned
secret ..."); when the bytes under "properties.yaml" of the secret read do not
load, it returns a nil manifest and the loader's error wrapped by `errors.Wrapf`
("failed to unmarshal manifest from secret ..."); otherwise it returns the
loaded manifest and a nil error.  In every case it leaves the client as `Latest`
left it: it issues no call of its own, so no write. -/
theorem instanceGroupManifest_errors {M : Type} (env : ResolverEnv M)
    (boshDeploymentName instanceGroupName ns : String) (c : Client) :
    (∀ (err : Error) (c1 : Client),
      env.Latest ns (env.InstanceGroupSecretName boshDeploymentName instanceGroupName "") c
        = (.error err, c1) →
      InstanceGroupManifest env boshDeploymentName instanceGroupName ns c
        = ((none, some (.wrapf err ("failed to read latest versioned secret "
            ++ env.InstanceGroupSecretName boshDeploymentName instanceGroupName ""
            ++ " for instance group manifest " ++ boshDeploymentName ++ "."
            ++ instanceGroupName))), c1)) ∧
    (∀ (secret : Secret) (c1 : Client) (err : Error),
      env.Latest ns (env.InstanceGroupSecretName boshDeploymentName instanceGroupName "") c
        = (.ok secret, c1) →
      env.LoadYAML (dataAt secret.data "properties.yaml") = .error err →
      InstanceGroupManifest env boshDeploymentName instanceGroupName ns c
        = ((none, some (.wrapf err ("failed to unmarshal manifest from secret "
            ++ env.InstanceGroupSecretName boshDeploymentName instanceGroupName ""
            ++ " for instance group manifest " ++ boshDeploymentName ++ "."
            ++ instanceGroupName))), c1)) ∧
    (∀ (secret : Secret) (c1 : Client) (manifest : M),
      env.Latest ns (env.InstanceGroupSecretName boshDeploymentName instanceGroupName "") c
        = (.ok secret, c1) →
      env.LoadYAML (dataAt secret.data "properties.yaml") = .ok manifest →
      InstanceGroupManifest env boshDeploymentName instanceGroupName ns c
        = ((some manifest, none), c1)) ∧
    (InstanceGroupManifest env boshDeploymentName instanceGroupName ns c).2
      = (env.Latest ns
          (env.InstanceGroupSecretName boshDeploymentName instanceGroupName "") c).2 := by
  refine ⟨?_, ?_, ?_, ?_⟩
  · intro err c1 h
    unfold InstanceGroupManifest instanceGroupSecretName
    rw [h]
  · intro secret c1 err h hl
    unfold InstanceGroupManifest instanceGroupSecretName
    rw [h]
    show (match env.LoadYAML (dataAt secret.data "properties.yaml") with
      | .error err => _
      | .ok manifest => _) = _
    rw [hl]
  · intro secret c1 manifest h hl
    unfold InstanceGroupManifest instanceGroupSecretName
    rw [h]
    show (match env.LoadYAML (dataAt secret.data "properties.yaml") with
      | .error err => _
      | .ok manifest => _) = _
    rw [hl]
  · unfold InstanceGroupManifest instanceGroupSecretName
    cases hL : env.Latest ns
        (env.InstanceGroupSecretName boshDeploymentName instanceGroupName "") c with
    | mk res c1 =>
      cases res with
      | error e => rfl
      | ok secret =>
        show (match env.LoadYAML (dataAt secret.data igPropertiesKey) with
          | .error err => _
          | .ok manifest => _ : (Option M × Option Error) × Client).2 = c1
        cases env.LoadYAML (dataAt secret.data igPropertiesKey) <;> rfl

/-- Witness for C19: with no secret stored the NotFound of the store comes back
wrapped; with a secret that lacks the properties the loader's error comes back
wrapped; with the properties stored the manifest is returned; each run issues
the one `Get` of the store. -/
theorem instanceGroupManifest_errors_witness :
    InstanceGroupManifest sampleResolver "x" "api" "ns" (reliable [])
      = ((none, some (.wrapf (.notFound "x.ig-resolved.api-v1")
          "failed to read latest versioned secret x.ig-resolved.api for instance group manifest x.api")),
        (reliable []).record (.get .secret "ns" "x.ig-resolved.api-v1")) ∧
    InstanceGroupManifest sampleResolver "x" "api" "ns" (reliable [.secret emptySecret])
      = ((none, some (.wrapf (.errorf "empty document")
          "failed to unmarshal manifest from secret x.ig-resolved.api for instance group manifest x.api")),
        (reliable [.secret emptySecret]).record (.get .secret "ns" "x.ig-resolved.api-v1")) ∧
    InstanceGroupManifest sampleResolver "x" "api" "ns" (reliable [.secret resolvedSecret])
      = ((some [1, 2], none),
        (reliable [.secret resolvedSecret]).record (.get .secret "ns" "x.ig-resolved.api-v1")) :=
  ⟨(instanceGroupManifest_errors sampleResolver "x" "api" "ns" (reliable [])).1
      (.notFound "x.ig-resolved.api-v1") _ (by decide),
    (instanceGroupManifest_errors sampleResolver "x" "api" "ns"
      (reliable [.secret emptySecret])).2.1 emptySecret _ (.errorf "empty document")
      (by decide) (by decide),
    (instanceGroupManifest_errors sampleResolver "x" "api" "ns"
      (reliable [.secret resolvedSecret])).2.2.1 resolvedSecret _ [1, 2] (by decide) (by decide)⟩

/-! ## The latest of the listed versions -/

theorem foldr_max_mem (l : List Nat) (h : l ≠ []) : l.foldr max 0 ∈ l := by
  induction l with
  | nil => exact absurd rfl h
  | cons a l ih =>
    rw [List.foldr_cons]
    by_cases hl : l = []
    · subst hl
      simp
    · rcases max_choice a (l.foldr max 0) with hm | hm
      · rw [hm]; exact List.mem_cons_self _ _
      · rw [hm]; exact List.mem_cons_of_mem _ (ih hl)

/-- A name that `secretName` derives from a version of Go's `int` that is not
negative ends in that version, and is derived from the integer it ends in. -/
theorem derived_name_trailing (p : ManifestPersisterImpl) (name : String)
    (h : ∃ v : Int, 0 ≤ v ∧ v ≤ maxInt ∧ secretName p v = .ok name) :
    trailingInteger name ≤ 9223372036854775807 ∧
      secretName p (trailingInteger name : Int) = .ok name := by
  obtain ⟨v, h0, hmax, hs⟩ := h
  obtain ⟨k, hk⟩ := Int.eq_ofNat_of_zero_le h0
  subst hk
  obtain ⟨hn, _, _⟩ := secretName_ok p _ name hs
  have ht : trailingInteger name = k := by rw [hn]; exact trailingInteger_nameOf _ k
  rw [ht]
  refine ⟨?_, hs⟩
  unfold maxInt at hmax
  omega

theorem find_some_of_mem (l : List Object) (q : Object → Bool) (o : Object) (ho : o ∈ l)
    (hq : q o = true) : ∃ x, l.find? q = some x := by
  cases hfind : l.find? q with
  | some x => exact ⟨x, rfl⟩
  | none =>
    have := List.find?_eq_none.1 hfind o ho
    exact absurd hq this

/-! ## The frame of a deletion -/

theorem Delete_calls (c : Client) (o : Object) :
    (c.Delete o).2.calls = c.calls ++ [.delete o] := by
  unfold Client.Delete
  cases c.nextFault with
  | some e => rfl
  | none => cases c.lookup o.kind o.metadata.ns o.metadata.name <;> rfl

/-- A `Delete` removes nothing but objects of the key it is given, and puts
nothing in. -/
theorem Delete_frame (c : Client) (o : Object) :
    (c.Delete o).2.objects.Sublist c.objects ∧
      ∀ x ∈ c.objects, x.hasKey o.kind o.metadata.ns o.metadata.name = false →
        x ∈ (c.Delete o).2.objects := by
  unfold Client.Delete
  cases c.nextFault with
  | some e => exact ⟨List.Sublist.refl _, fun x hx _ => hx⟩
  | none =>
    cases c.lookup o.kind o.metadata.ns o.metadata.name with
    | none => exact ⟨List.Sublist.refl _, fun x hx _ => hx⟩
    | some y =>
      refine ⟨List.filter_sublist _, ?_⟩
      intro x hx hk
      show x ∈ c.objects.filter _
      rw [List.mem_filter]
      exact ⟨hx, by rw [hk]; rfl⟩

theorem deleteLoop_cons (secret : Secret) (rest : List Secret) (c : Client) :
    deleteLoop (secret :: rest) c =
      match c.Delete (.secret secret) with
      | (some err, c1) => (some err, c1)
      | (none, c1) => deleteLoop rest c1 := rfl

/-- The loop of `DeleteManifest` issues deletes of the secrets it is given
only, removes nothing but objects under their keys, and puts nothing in,
whichever way it ends. -/
theorem deleteLoop_frame : ∀ (l : List Secret) (c : Client),
    ∃ new : List Call,
      (deleteLoop l c).2.calls = c.calls ++ new ∧
      (∀ call ∈ new, ∃ s ∈ l, call = .delete (.secret s)) ∧
      (deleteLoop l c).2.objects.Sublist c.objects ∧
      ∀ x ∈ c.objects, (∀ s ∈ l, x.hasKey .secret s.metadata.ns s.metadata.name = false) →
        x ∈ (deleteLoop l c).2.objects := by
  intro l
  induction l with
  | nil =>
    intro c
    refine ⟨[], by simp [deleteLoop], ?_, List.Sublist.refl _, fun x hx _ => hx⟩
    intro call hc; cases hc
  | cons secret rest ih =>
    intro c
    have hcalls := Delete_calls c (.secret secret)
    obtain ⟨hsub, hkeep⟩ := Delete_frame c (.secret secret)
    rw [deleteLoop_cons]
    cases hd : c.Delete (.secret secret) with
    | mk e c1 =>
      rw [hd] at hcalls hsub hkeep
      have hkeep1 : ∀ x ∈ c.objects,
          x.hasKey .secret secret.metadata.ns secret.metadata.name = false → x ∈ c1.objects :=
        hkeep
      cases e with
      | some err =>
        refine ⟨[.delete (.secret secret)], hcalls, ?_, hsub, ?_⟩
        · intro call hc
          simp only [List.mem_singleton] at hc
          exact ⟨secret, List.mem_cons_self _ _, hc⟩
        · intro x hx hall
          exact hkeep1 x hx (hall secret (List.mem_cons_self _ _))
      | none =>
        obtain ⟨new, g1, g2, g3, g4⟩ := ih c1
        refine ⟨.delete (.secret secret) :: new, ?_, ?_, ?_, ?_⟩
        · show (deleteLoop rest c1).2.calls = _
          rw [g1, show c1.calls = _ from hcalls]
          simp
        · intro call hc
          rcases List.mem_cons.1 hc with hc | hc
          · exact ⟨secret, List.mem_cons_self _ _, hc⟩
          · obtain ⟨s, hs, hcs⟩ := g2 call hc
            exact ⟨s, List.mem_cons_of_mem _ hs, hcs⟩
        · exact List.Sublist.trans g3 hsub
        · intro x hx hall
          apply g4 x (hkeep1 x hx (hall secret (List.mem_cons_self _ _)))
          intro s hs
          exact hall s (List.mem_cons_of_mem _ hs)

theorem mem_secretsOf (l : List Object) (s : Secret) : s ∈ secretsOf l ↔ Object.secret s ∈ l := by
  unfold secretsOf
  rw [List.mem_filterMap]
  constructor
  · rintro ⟨o, ho, hs⟩
    cases o with
    | secret x =>
      have hx : x = s := by injection hs
      rw [← hx]; exact ho
    | pod _ => cases hs
    | statefulSet _ => cases hs
    | replicaSet _ => cases hs
    | deployment _ => cases hs
  · intro h
    exact ⟨_, h, rfl⟩

/-! ## The latest version read back -/

/-- Claim C21, as amended: on a client without pending failures, when
`ListAllVersions` returns a non-empty list, every listed name ends in an integer
that fits Go's `int`, and the secret under the identifier that `secretName`
derives from the greatest of those integers is stored in the persister's
namespace, `RetrieveLatestVersion` succeeds and returns that secret, which is
one of the listed secrets and whose parsed version is the greatest of the
versions parsed from the listed names. -/
theorem retrieveLatest_of_listed (engine : RegexpEngine) (p : ManifestPersisterImpl)
    (c c1 : Client) (list : List Secret) (name : String) (latest : Secret)
    (hf : c.faults = [])
    (hlist : ListAllVersions engine p c = .returned (.ok list) c1)
    (hne : list ≠ [])
    (hb : ∀ s ∈ list, trailingInteger s.metadata.name ≤ 9223372036854775807)
    (hname : secretName p
      (((list.map (fun s => trailingInteger s.metadata.name)).foldr max 0 : Nat) : Int)
        = .ok name)
    (hlatest : c.lookup .secret p.ns name = some (.secret latest)) :
    ∃ c2 : Client,
      RetrieveLatestVersion engine p c = .returned (some latest, none) c2 ∧
      latest ∈ list ∧
      (∃ s ∈ list, trailingInteger s.metadata.name
        = (list.map (fun s => trailingInteger s.metadata.name)).foldr max 0) ∧
      getVersionFromSecretName engine p latest.metadata.name
        = some (.ok (((list.map (fun s => trailingInteger s.metadata.name)).foldr max 0 : Nat)
            : Int)) ∧
      ∀ s ∈ list, ∃ v : Int,
        getVersionFromSecretName engine p s.metadata.name = some (.ok v) ∧
        v ≤ (((list.map (fun s => trailingInteger s.metadata.name)).foldr max 0 : Nat) : Int) := by
  have hp := secretName_allowed p _ name hname
  have hnf : c.nextFault = none := nextFault_of_faults c hf
  rw [ListAllVersions_of_allowed engine p hp c hnf] at hlist
  injection hlist with hl hc1
  injection hl with hl
  subst hl
  subst hc1
  have hgv := getGreatestVersion_spec engine p hp c hnf hb
  have hg : ((versionsIn p c.objects).map (fun s => trailingInteger s.metadata.name)).foldr max 0
      = specGreatestVersion p c.objects := rfl
  rw [hg] at hname ⊢
  have hgb : specGreatestVersion p c.objects ≤ 9223372036854775807 := by
    unfold specGreatestVersion
    apply foldr_max_le
    intro x hx
    obtain ⟨s, hs, hsx⟩ := List.mem_map.1 hx
    rw [← hsx]
    exact hb s hs
  obtain ⟨hnm, _, _⟩ := secretName_ok p _ name hname
  obtain ⟨homem, _, hons, honame⟩ := lookup_some _ _ _ _ _ hlatest
  have hlname : latest.metadata.name
      = "deployment-" ++ p.deploymentName ++ "-" ++ Itoa (specGreatestVersion p c.objects : Int) := by
    rw [← hnm]; exact honame
  have hmem : latest ∈ versionsIn p c.objects := by
    refine (mem_versionsIn p c.objects latest).2 ⟨homem, Or.inr hons, ?_⟩
    rw [hlname]
    exact matchesPattern_nameOf _ hp _
  have hnf1 : (c.record (.list .secret p.ns)).nextFault = none :=
    nextFault_of_faults _ (by show c.faults.tail = []; rw [hf]; rfl)
  have hret := (RetrieveVersion_ok_iff p (specGreatestVersion p c.objects : Int)
    (c.record (.list .secret p.ns)) latest).2 ⟨name, hname, hnf1, hlatest⟩
  refine ⟨(RetrieveVersion p (specGreatestVersion p c.objects : Int)
      (c.record (.list .secret p.ns))).2, ?_, hmem, ?_, ?_, ?_⟩
  · unfold RetrieveLatestVersion
    rw [hgv]
    show Outcome.returned (RetrieveVersion p _ _).1 (RetrieveVersion p _ _).2 = _
    rw [hret]
  · have hin : specGreatestVersion p c.objects
        ∈ (versionsIn p c.objects).map (fun s => trailingInteger s.metadata.name) := by
      unfold specGreatestVersion
      apply foldr_max_mem
      intro h
      exact hne (List.map_eq_nil_iff.1 h)
    obtain ⟨s, hs, hsx⟩ := List.mem_map.1 hin
    exact ⟨s, hs, hsx⟩
  · rw [hlname]
    exact getVersion_nameOf engine p hp _ hgb
  · intro s hs
    refine ⟨(trailingInteger s.metadata.name : Int), ?_, ?_⟩
    · rw [getVersion_of_match engine p hp _ (versionsIn_match p _ _ hs), if_pos (hb s hs)]
    · exact Int.ofNat_le.2 (le_specGreatest p c.objects s hs)

/-- Witness for C21 as amended: with `deployment-x-007` and `deployment-x-8`
stored, the latest version read back is the stored version 8. -/
theorem retrieveLatest_of_listed_witness :
    ∃ c2 : Client,
      RetrieveLatestVersion noEngine deploymentX (reliable [.secret zeroSecret, .secret versionEight])
        = .returned (some versionEight, none) c2 ∧
      versionEight ∈ [zeroSecret, versionEight] ∧
      (∃ s ∈ [zeroSecret, versionEight], trailingInteger s.metadata.name
        = ([zeroSecret, versionEight].map (fun s => trailingInteger s.metadata.name)).foldr max 0) ∧
      getVersionFromSecretName noEngine deploymentX versionEight.metadata.name
        = some (.ok ((([zeroSecret, versionEight].map
            (fun s => trailingInteger s.metadata.name)).foldr max 0 : Nat) : Int)) ∧
      ∀ s ∈ [zeroSecret, versionEight], ∃ v : Int,
        getVersionFromSecretName noEngine deploymentX s.metadata.name = some (.ok v) ∧
        v ≤ ((([zeroSecret, versionEight].map
            (fun s => trailingInteger s.metadata.name)).foldr max 0 : Nat) : Int) :=
  retrieveLatest_of_listed noEngine deploymentX
    (reliable [.secret zeroSecret, .secret versionEight])
    ((reliable [.secret zeroSecret, .secret versionEight]).record (.list .secret "ns"))
    [zeroSecret, versionEight] "deployment-x-8" versionEight rfl (by decide) (by decide)
    (fun s hs => by
      simp only [List.mem_cons, List.mem_singleton, List.not_mem_nil, or_false] at hs
      rcases hs with h | h
      · rw [h]; decide
      · rw [h]; decide)
    (by decide) (by decide)

/-- Counterexample to C21 as stated: the name `x` is valid and in both stores
the listing is not empty.  With `deployment-x-9223372036854775808` stored,
`RetrieveLatestVersion` returns the range error of `strconv.Atoi`, wrapped, and
no secret.  With `deployment-x-007` stored, the listed name parses to 7,
`RetrieveLatestVersion` looks up `deployment-x-7`, which is not stored, and
returns NotFound with the empty secret it allocated. -/
theorem retrieveLatest_counterexample :
    secretName deploymentX 1 = .ok "deployment-x-1" ∧
    (ListAllVersions noEngine deploymentX (reliable [.secret rangeSecret])
        = .returned (.ok [rangeSecret])
          ((reliable [.secret rangeSecret]).record (.list .secret "ns")) ∧
      RetrieveLatestVersion noEngine deploymentX (reliable [.secret rangeSecret])
        = .returned (none, some (.wrapf (.atoiRange "9223372036854775808")
            "invalid secret name deployment-x-9223372036854775808, it does not end with a version number"))
          ((reliable [.secret rangeSecret]).record (.list .secret "ns"))) ∧
    (ListAllVersions noEngine deploymentX (reliable [.secret zeroSecret])
        = .returned (.ok [zeroSecret])
          ((reliable [.secret zeroSecret]).record (.list .secret "ns")) ∧
      getVersionFromSecretName noEngine deploymentX "deployment-x-007" = some (.ok 7) ∧
      RetrieveLatestVersion noEngine deploymentX (reliable [.secret zeroSecret])
        = .returned (some {}, some (.notFound "deployment-x-7"))
          (((reliable [.secret zeroSecret]).record (.list .secret "ns")).record
            (.get .secret "ns" "deployment-x-7"))) := by
  refine ⟨?_, ⟨?_, ?_⟩, ⟨?_, ?_, ?_⟩⟩ <;> decide

/-! ## The scope of a deletion -/

/-- The client `ListAllVersions` leaves, and what it lists: stored secrets of the
listing's scope (the persister's namespace, every namespace when it is
empty) whose name matches the compiled pattern. -/
theorem ListAllVersions_listed (engine : RegexpEngine) (p : ManifestPersisterImpl)
    (c : Client) :
    (ListAllVersions engine p c).client.calls = c.calls ++ [.list .secret p.ns] ∧
    (ListAllVersions engine p c).client.objects = c.objects ∧
    ∀ (list : List Secret) (c1 : Client),
      ListAllVersions engine p c = .returned (.ok list) c1 →
      ∀ s ∈ list, Object.secret s ∈ c.objects ∧ (p.ns = "" ∨ s.metadata.ns = p.ns) ∧
        matchesListPattern engine p s.metadata.name = true := by
  unfold ListAllVersions Client.List matchesListPattern
  cases c.nextFault with
  | some e =>
    refine ⟨rfl, rfl, ?_⟩
    intro list c1 h
    cases h
  | none =>
    simp only
    cases mustCompileNamePattern engine p.deploymentName "-\\d+$" with
    | none =>
      refine ⟨rfl, rfl, ?_⟩
      intro list c1 h
      cases h
    | some re =>
      refine ⟨rfl, rfl, ?_⟩
      intro list c1 h
      injection h with h1 h2
      injection h1 with h1
      subst h1
      intro s hs
      rw [List.mem_filter, mem_secretsOf, List.mem_filter] at hs
      obtain ⟨⟨hmem, hk⟩, hm⟩ := hs
      simp only [Bool.and_eq_true, decide_eq_true_eq] at hk
      exact ⟨hmem, (inNamespace_secret p.ns s).1 hk.2, hm⟩

/-- What `DeleteManifest` issues and leaves, for every persister and client and
however it ends: the listing and deletes of stored secrets in the listing's
scope whose name matches; a sub-list of the stored objects; and every stored
object that is not such a secret. -/
theorem DeleteManifest_scope (engine : RegexpEngine) (p : ManifestPersisterImpl)
    (c : Client) :
    (∀ call ∈ callsSince c (DeleteManifest engine p c).client,
      call = .list .secret p.ns ∨
      ∃ s : Secret, call = .delete (.secret s) ∧ Object.secret s ∈ c.objects ∧
        (p.ns = "" ∨ s.metadata.ns = p.ns) ∧
        matchesListPattern engine p s.metadata.name = true) ∧
    (DeleteManifest engine p c).client.objects.Sublist c.objects ∧
    (∀ o ∈ c.objects,
      (∀ s : Secret, o = .secret s → (p.ns = "" ∨ s.metadata.ns = p.ns) →
        matchesListPattern engine p s.metadata.name = false) →
      o ∈ (DeleteManifest engine p c).client.objects) := by
  obtain ⟨hcalls, hobjs, hlisted⟩ := ListAllVersions_listed engine p c
  unfold DeleteManifest
  cases hl : ListAllVersions engine p c with
  | panicked c1 =>
    rw [hl] at hcalls hobjs
    have h1 : c1.calls = c.calls ++ [.list .secret p.ns] := hcalls
    have h2 : c1.objects = c.objects := hobjs
    refine ⟨?_, ?_, ?_⟩
    · intro call hc
      rw [show callsSince c (Outcome.panicked c1 : Outcome (Option Error)).client = _
        from callsSince_append c c1 _ h1] at hc
      simp only [List.mem_singleton] at hc
      exact Or.inl hc
    · show c1.objects.Sublist c.objects
      rw [h2]
    · intro o ho _
      show o ∈ c1.objects
      rw [h2]; exact ho
  | returned res c1 =>
    rw [hl] at hcalls hobjs
    have h1 : c1.calls = c.calls ++ [.list .secret p.ns] := hcalls
    have h2 : c1.objects = c.objects := hobjs
    cases res with
    | error err =>
      refine ⟨?_, ?_, ?_⟩
      · intro call hc
        rw [show callsSince c (Outcome.returned (some err) c1).client = _
          from callsSince_append c c1 _ h1] at hc
        simp only [List.mem_singleton] at hc
        exact Or.inl hc
      · show c1.objects.Sublist c.objects
        rw [h2]
      · intro o ho _
        show o ∈ c1.objects
        rw [h2]; exact ho
    | ok list =>
      have hin := hlisted list c1 hl
      obtain ⟨new, g1, g2, g3, g4⟩ := deleteLoop_frame list c1
      have hfinal : (deleteLoop list c1).2.calls
          = c.calls ++ ([.list .secret p.ns] ++ new) := by
        rw [g1, h1, List.append_assoc]
      refine ⟨?_, ?_, ?_⟩
      · intro call hc
        rw [show callsSince c (Outcome.returned (deleteLoop list c1).1
          (deleteLoop list c1).2).client = _ from callsSince_append c _ _ hfinal] at hc
        rcases List.mem_append.1 hc with hc | hc
        · simp only [List.mem_singleton] at hc
          exact Or.inl hc
        · obtain ⟨s, hs, hcs⟩ := g2 call hc
          obtain ⟨a1, a2, a3⟩ := hin s hs
          exact Or.inr ⟨s, hcs, a1, a2, a3⟩
      · show (deleteLoop list c1).2.objects.Sublist c.objects
        rw [← h2]; exact g3
      · intro o ho hno
        show o ∈ (deleteLoop list c1).2.objects
        apply g4 o (by rw [h2]; exact ho)
        intro s hs
        obtain ⟨_, a2, a3⟩ := hin s hs
        cases hk : o.hasKey .secret s.metadata.ns s.metadata.name with
        | false => rfl
        | true =>
          exfalso
          simp only [Object.hasKey, Bool.and_eq_true, decide_eq_true_eq] at hk
          obtain ⟨⟨k1, k2⟩, k3⟩ := hk
          cases o with
          | secret x =>
            have k2a : x.metadata.ns = s.metadata.ns := k2
            have hx := hno x rfl (by
              rcases a2 with a2 | a2
              · exact Or.inl a2
              · exact Or.inr (by rw [k2a]; exact a2))
            have k3a : x.metadata.name = s.metadata.name := k3
            rw [k3a, a3] at hx
            cases hx
          | pod _ => cases k1
          | statefulSet _ => cases k1
          | replicaSet _ => cases k1
          | deployment _ => cases k1

/-- Claim C22, as amended: for a persister whose namespace is not the empty
string and every client, failing calls included, however `DeleteManifest` ends
(nil, the error of the listing or of the first failing delete, or a panic of the
pattern), every call it issues is the listing of the persister's namespace or
the delete of a stored secret of that namespace whose name matches
`^deployment-<deploymentName>-\d+$`; the objects it leaves are a sub-list of the
stored ones, so nothing is changed or added; and every stored object that is not
a secret of the namespace with a matching name, so every secret whose name does
not match, is still stored. -/
theorem deleteManifest_frame (engine : RegexpEngine) (p : ManifestPersisterImpl)
    (c : Client) (hns : p.ns ≠ "") :
    (∀ call ∈ callsSince c (DeleteManifest engine p c).client,
      call = .list .secret p.ns ∨
      ∃ s : Secret, call = .delete (.secret s) ∧ Object.secret s ∈ c.objects ∧
        s.metadata.ns = p.ns ∧ matchesListPattern engine p s.metadata.name = true) ∧
    (DeleteManifest engine p c).client.objects.Sublist c.objects ∧
    (∀ o ∈ c.objects,
      (∀ s : Secret, o = .secret s → s.metadata.ns = p.ns →
        matchesListPattern engine p s.metadata.name = false) →
      o ∈ (DeleteManifest engine p c).client.objects) := by
  obtain ⟨h1, h2, h3⟩ := DeleteManifest_scope engine p c
  refine ⟨?_, h2, ?_⟩
  · intro call hc
    rcases h1 call hc with h | ⟨s, a1, a2, a3, a4⟩
    · exact Or.inl h
    · rcases a3 with a3 | a3
      · exact absurd a3 hns
      · exact Or.inr ⟨s, a1, a2, a3, a4⟩
  · intro o ho hno
    apply h3 o ho
    intro s hs hscope
    rcases hscope with h | h
    · exact absurd h hns
    · exact hno s hs h

/-- Witness for C22 as amended: with versions 1 and 2 of `x` and version 1 of
`y` stored in `ns`, the delete of version 2 fails; `DeleteManifest` returns that
error, the secret of `y`, whose name does not match, is still stored, and the
only calls are the listing and the two deletes. -/
theorem deleteManifest_frame_witness :
    Object.secret otherOne ∈ (DeleteManifest noEngine deploymentX deleteFaultClient).client.objects ∧
    DeleteManifest noEngine deploymentX deleteFaultClient
      = .returned (some (.api "context deadline exceeded"))
          (Client.mk [.secret otherOne, .secret versionTwo] []
            [.list .secret "ns", .delete (.secret versionOne), .delete (.secret versionTwo)]) :=
  ⟨(deleteManifest_frame noEngine deploymentX deleteFaultClient (by decide)).2.2
      (.secret otherOne) (by decide) (fun s hs _ => by
        injection hs with hs
        rw [← hs]
        decide),
    by decide⟩

/-- Counterexample to C22 as stated: the persister of deployment `x` with the
empty namespace lists the secrets of every namespace, and `DeleteManifest`
deletes `deployment-x-1` of namespace `ns` and `deployment-x-2` of namespace
`other`, neither of which is a secret of the persister's namespace. -/
theorem deleteManifest_other_namespace_counterexample :
    DeleteManifest noEngine ⟨"", "x"⟩ (reliable [.secret versionOne, .secret otherNamespaceTwo])
      = .returned none
          (Client.mk [] []
            [.list .secret "", .delete (.secret versionOne),
              .delete (.secret otherNamespaceTwo)]) ∧
    versionOne.metadata.ns ≠ "" ∧ otherNamespaceTwo.metadata.ns ≠ "" := by
  refine ⟨?_, ?_, ?_⟩ <;> decide

/-! ## A deletion that goes through -/

theorem hasKey_iff_key (x o : Object) :
    x.hasKey o.kind o.metadata.ns o.metadata.name = true ↔ x.key = o.key := by
  unfold Object.hasKey Object.key
  simp only [Bool.and_eq_true, decide_eq_true_eq, Prod.mk.injEq]
  constructor
  · rintro ⟨⟨h1, h2⟩, h3⟩; exact ⟨h1, h2, h3⟩
  · rintro ⟨h1, h2, h3⟩; exact ⟨⟨h1, h2⟩, h3⟩

/-- On a client without pending failures, the loop of `DeleteManifest` over
stored secrets of distinct keys deletes each of them and ends without an
error. -/
theorem deleteLoop_total : ∀ (l : List Secret) (c : Client), c.faults = [] →
    (∀ s ∈ l, Object.secret s ∈ c.objects) →
    (l.map (fun s => (Object.secret s).key)).Nodup →
    (deleteLoop l c).1 = none ∧
      (deleteLoop l c).2.calls = c.calls ++ l.map (fun s => Call.delete (.secret s)) ∧
      (deleteLoop l c).2.faults = [] := by
  intro l
  induction l with
  | nil =>
    intro c hf _ _
    exact ⟨rfl, by simp [deleteLoop], hf⟩
  | cons s rest ih =>
    intro c hf hmem hnd
    rw [List.map_cons, List.nodup_cons] at hnd
    obtain ⟨hnot, hnd⟩ := hnd
    obtain ⟨x, hx⟩ := find_some_of_mem c.objects
      (fun o => o.hasKey (Object.secret s).kind (Object.secret s).metadata.ns
        (Object.secret s).metadata.name) _ (hmem s (List.mem_cons_self _ _)) (hasKey_self _)
    have hdel : c.Delete (.secret s) = (none,
        { c.record (.delete (.secret s)) with objects := c.objects.filter (fun y =>
            !y.hasKey (Object.secret s).kind (Object.secret s).metadata.ns
              (Object.secret s).metadata.name) }) := by
      unfold Client.Delete
      rw [nextFault_of_faults c hf]
      rw [show c.lookup (Object.secret s).kind (Object.secret s).metadata.ns
        (Object.secret s).metadata.name = some x from hx]
    rw [deleteLoop_cons, hdel]
    have hf1 : ({ c.record (.delete (.secret s)) with objects := c.objects.filter (fun y =>
        !y.hasKey (Object.secret s).kind (Object.secret s).metadata.ns
          (Object.secret s).metadata.name) } : Client).faults = [] := by
      show c.faults.tail = []
      rw [hf]; rfl
    have hmem1 : ∀ t ∈ rest, Object.secret t ∈ ({ c.record (.delete (.secret s)) with
        objects := c.objects.filter (fun y =>
          !y.hasKey (Object.secret s).kind (Object.secret s).metadata.ns
            (Object.secret s).metadata.name) } : Client).objects := by
      intro t ht
      show Object.secret t ∈ c.objects.filter _
      rw [List.mem_filter]
      refine ⟨hmem t (List.mem_cons_of_mem _ ht), ?_⟩
      cases hk : (Object.secret t).hasKey (Object.secret s).kind (Object.secret s).metadata.ns
          (Object.secret s).metadata.name with
      | false => rfl
      | true =>
        exfalso
        apply hnot
        rw [← (hasKey_iff_key _ _).1 hk]
        exact List.mem_map.2 ⟨t, ht, rfl⟩
    obtain ⟨g1, g2, g3⟩ := ih _ hf1 hmem1 hnd
    refine ⟨g1, ?_, g3⟩
    rw [g2]
    show c.calls ++ [Call.delete (.secret s)] ++ _ = _
    simp

theorem versionsIn_sublist (p : ManifestPersisterImpl) (objects : List Object) :
    ((versionsIn p objects).map Object.secret).Sublist objects := by
  unfold versionsIn
  exact ((List.filter_sublist _).map _).trans
    ((secretsOf_sublist _).trans (List.filter_sublist _))

/-- Claim C4 (deletion completeness): for a deployment name that passes
`secretName` at version 0.  On a client without pending failures whose objects
have distinct keys, `DeleteManifest` returns without an error after the listing
and one delete for each listed version, in the order of the listing, and none of
those versions is stored any more.  And whenever `DeleteManifest` returned
without an error, `ListAllVersions` then returns the empty list and
`RetrieveLatestVersion` fails with the NotFound error of the store, for the
name of version 0. -/
theorem deleteManifest_complete (engine : RegexpEngine) (p : ManifestPersisterImpl)
    (c : Client) (name : String)
    (hname : secretName p 0 = .ok name) :
    (c.faults = [] → distinctKeys c.objects →
      ∃ c1 : Client, DeleteManifest engine p c = .returned none c1 ∧
        c1.calls = c.calls ++ Call.list .secret p.ns ::
          (versionsIn p c.objects).map (fun s => Call.delete (.secret s)) ∧
        ∀ s ∈ versionsIn p c.objects, Object.secret s ∉ c1.objects) ∧
    (∀ c1 : Client, DeleteManifest engine p c = .returned none c1 →
      ListAllVersions engine p (reliable c1.objects)
          = .returned (.ok []) ((reliable c1.objects).record (.list .secret p.ns)) ∧
        RetrieveLatestVersion engine p (reliable c1.objects)
          = .returned (some {}, some (.notFound name))
              (((reliable c1.objects).record (.list .secret p.ns)).record
                (.get .secret p.ns name))) := by
  refine ⟨?_, fun c1 h => DeleteManifest_empties engine p c c1 name hname h⟩
  intro hf hkeys
  have hp := secretName_allowed p _ name hname
  have hl := ListAllVersions_of_allowed engine p hp c (nextFault_of_faults c hf)
  have hnd : ((versionsIn p c.objects).map (fun s => (Object.secret s).key)).Nodup := by
    have hsub := (versionsIn_sublist p c.objects).map Object.key
    rw [List.map_map] at hsub
    exact List.Nodup.sublist hsub hkeys
  have hmem : ∀ s ∈ versionsIn p c.objects,
      Object.secret s ∈ (c.record (.list .secret p.ns)).objects :=
    fun s hs => ((mem_versionsIn p c.objects s).1 hs).1
  have hf1 : (c.record (.list .secret p.ns)).faults = [] := by
    show c.faults.tail = []
    rw [hf]; rfl
  obtain ⟨g1, g2, _⟩ := deleteLoop_total (versionsIn p c.objects)
    (c.record (.list .secret p.ns)) hf1 hmem hnd
  have hd : deleteLoop (versionsIn p c.objects) (c.record (.list .secret p.ns))
      = (none, (deleteLoop (versionsIn p c.objects) (c.record (.list .secret p.ns))).2) := by
    rw [← g1]
  refine ⟨(deleteLoop (versionsIn p c.objects) (c.record (.list .secret p.ns))).2, ?_, ?_, ?_⟩
  · unfold DeleteManifest
    rw [hl]
    show Outcome.returned (deleteLoop _ _).1 (deleteLoop _ _).2 = _
    rw [g1]
  · rw [g2]
    show c.calls ++ [Call.list .secret p.ns] ++ _ = _
    simp
  · intro s hs hin
    have hobj := deleteLoop_ok _ _ _ hd
    rw [hobj] at hin
    obtain ⟨_, hall⟩ := List.mem_filter.1 hin
    have := List.all_eq_true.1 hall s hs
    simp [Object.hasKey, Object.kind, Object.metadata] at this

/-- Witness for C4: `DeleteManifest` for deployment `x` on a store that holds its
versions 1 and 2 and a secret of deployment `y` deletes the two versions and
returns nil; the listing for `x` is then empty and the latest version is not
found. -/
theorem deleteManifest_complete_witness :
    DeleteManifest noEngine deploymentX
        (reliable [.secret versionOne, .secret otherOne, .secret versionTwo])
      = .returned none (Client.mk [.secret otherOne] []
          [.list .secret "ns", .delete (.secret versionOne), .delete (.secret versionTwo)]) ∧
    ListAllVersions noEngine deploymentX (reliable [.secret otherOne])
      = .returned (.ok []) ((reliable [.secret otherOne]).record (.list .secret "ns")) ∧
    RetrieveLatestVersion noEngine deploymentX (reliable [.secret otherOne])
      = .returned (some {}, some (.notFound "deployment-x-0"))
          (((reliable [.secret otherOne]).record (.list .secret "ns")).record
            (.get .secret "ns" "deployment-x-0")) :=
  ⟨by decide,
    (deleteManifest_complete noEngine deploymentX
      (reliable [.secret versionOne, .secret otherOne, .secret versionTwo])
      "deployment-x-0" (by decide)).2
      (Client.mk [.secret otherOne] []
        [.list .secret "ns", .delete (.secret versionOne), .delete (.secret versionTwo)])
      (by decide)⟩

/-! ## Decorating without a latest version -/

/-- Counterexample to C9 as stated: both stores hold a version of deployment
`x`.  With `deployment-x-007` stored, the listed name parses to 7,
`DecorateManifest` reads `deployment-x-7`, which is not stored, and returns
NotFound after the listing and that read, with no update.  With
`deployment-x-9223372036854775808` stored, it returns the range error of
`strconv.Atoi`, wrapped, after the listing, with no update. -/
theorem decorateManifest_counterexample :
    (ListAllVersions noEngine deploymentX (reliable [.secret zeroSecret])
        = .returned (.ok [zeroSecret])
          ((reliable [.secret zeroSecret]).record (.list .secret "ns")) ∧
      DecorateManifest noEngine deploymentX "ready" "true" (reliable [.secret zeroSecret])
        = .returned (none, some (.notFound "deployment-x-7"))
          (Client.mk [.secret zeroSecret] []
            [.list .secret "ns", .get .secret "ns" "deployment-x-7"])) ∧
    (ListAllVersions noEngine deploymentX (reliable [.secret rangeSecret])
        = .returned (.ok [rangeSecret])
          ((reliable [.secret rangeSecret]).record (.list .secret "ns")) ∧
      DecorateManifest noEngine deploymentX "ready" "true" (reliable [.secret rangeSecret])
        = .returned (none, some (.wrapf (.atoiRange "9223372036854775808")
            "invalid secret name deployment-x-9223372036854775808, it does not end with a version number"))
          (Client.mk [.secret rangeSecret] [] [.list .secret "ns"])) := by
  refine ⟨⟨?_, ?_⟩, ⟨?_, ?_⟩⟩ <;> decide

end CfOperator
